import Mathlib

/-!
# Lightweight future / promise (`include/boost/spinlock/future.hpp`)

A sequential shallow embedding of the non-allocating future-promise pair.
Objects live at addresses in a heap; every member function of the source is a
function from a heap to a `Step`, which records how the call ends.
-/

namespace lightweight_futures

/-- Addresses of objects (`promise<R> *`, `future<R> *`). -/
abbrev Addr := Nat

/-- The four `std::future_errc` codes. -/
inductive future_errc
  | broken_promise
  | future_already_retrieved
  | promise_already_satisfied
  | no_state
  deriving DecidableEq, Repr

/-- A `std::error_code`: integer value plus category identity. -/
structure error_code where
  value : Int
  category : Nat
  deriving DecidableEq, Repr

/-- The default `error_code()`: value 0 in the system category (category 0 here). -/
def error_code.none : error_code := ⟨0, 0⟩

/-- The test `!e` on an error code is true when its value is 0. -/
def error_code.is_clear (e : error_code) : Bool := e.value == 0

/-- A `std::exception_ptr`: null, or a handle to an exception object. -/
inductive exception_ptr
  | null
  | future_error (c : future_errc)
  | system_error (c : error_code)
  | user (id : Nat)
  deriving DecidableEq, Repr

/-- Discriminator `value_storage::storage_type`. -/
inductive storage_type
  | empty
  | value
  | exception
  | error
  | future
  deriving DecidableEq, Repr

/-- What lives in `_buffer`: the object last constructed there. `raw` stands for
bytes that hold no usable object (never written, destroyed, or moved from). -/
inductive buffer (R : Type)
  | raw
  | value (v : R)
  | exception (e : exception_ptr)
  | error (c : error_code)
  | future_ (f : Option Addr)
  deriving DecidableEq, Repr

/-- The struct `detail::value_storage<R>`: the byte buffer and the tag, kept apart as
in the source (the accessors do not look at the tag). -/
structure value_storage (R : Type) where
  _buffer : buffer R
  type : storage_type
  deriving DecidableEq, Repr

namespace value_storage
variable {R : Type}

/-- Accessor `value()`: the buffer read as an `R`; `none` when no `R` lives there. -/
def value (st : value_storage R) : Option R :=
  match st._buffer with
  | .value v => some v
  | _ => none

/-- Accessor `exception()`: the buffer read as an `exception_ptr`. -/
def exception (st : value_storage R) : Option exception_ptr :=
  match st._buffer with
  | .exception e => some e
  | _ => none

/-- Accessor `error()`: the buffer read as an `error_code`. -/
def error (st : value_storage R) : Option error_code :=
  match st._buffer with
  | .error c => some c
  | _ => none

/-- Accessor `future_()`: the buffer read as a `future<R> *` (inner `none` is `nullptr`). -/
def future_ (st : value_storage R) : Option (Option Addr) :=
  match st._buffer with
  | .future_ f => some f
  | _ => none

/-- Default constructor `value_storage()`: tag `empty`, buffer untouched. -/
def init : value_storage R := ⟨.raw, .empty⟩

/-- Member `reset()`: destroy the payload named by the tag and return to `empty`. -/
def reset (st : value_storage R) : value_storage R :=
  match st.type with
  | .empty => st
  | .value => ⟨.raw, .empty⟩
  | .exception => ⟨.raw, .empty⟩
  | .error => ⟨.raw, .empty⟩
  | .future => ⟨.future_ none, .empty⟩

/-- Move constructor `value_storage(value_storage &&o)`: returns the new storage and
what is left of `o`; `none` when the payload named by the tag cannot be read. -/
def move (o : value_storage R) : Option (value_storage R × value_storage R) :=
  match o.type with
  | .empty => some (⟨.raw, .empty⟩, ⟨o._buffer, .empty⟩)
  | .value =>
    match o.value with
    | some v => some (⟨.value v, .value⟩, ⟨.raw, .empty⟩)
    | none => none
  | .exception =>
    match o.exception with
    | some e => some (⟨.exception e, .exception⟩, ⟨.exception .null, .empty⟩)
    | none => none
  | .error =>
    match o.error with
    | some c => some (⟨.error c, .error⟩, ⟨.error c, .empty⟩)
    | none => none
  | .future =>
    match o.future_ with
    | some f => some (⟨.future_ f, .future⟩, ⟨.future_ none, .empty⟩)
    | none => none

/-- Move assignment `operator=(value_storage &&o)`: destroy `this`, then move-construct
in place. The old contents of `this` do not survive, so only `o` is an argument. -/
def move_assign (this o : value_storage R) : Option (value_storage R × value_storage R) :=
  let _destroyed := this.reset
  move o

/-- Constructor `value_storage(value_storage &&o, future<R> *f)` used by a future to take
ownership: move, then `o.reset()`, `o.future_()=f`, `o.type=future`. -/
def take (o : value_storage R) (f : Addr) : Option (value_storage R × value_storage R) :=
  match move o with
  | some (n, o1) =>
    let _cleared := o1.reset
    some (n, ⟨.future_ (some f), .future⟩)
  | none => none

/-- Member `swap(o)`. The parameter is declared `storage_type &o` in the source; the body
uses `o.value()`, `o.exception()`, ..., so it is read as the other storage. Only the
payload selected by the tag of `this` is exchanged; the two tags stay where they are. -/
def swap (this o : value_storage R) : Option (value_storage R × value_storage R) :=
  match this.type with
  | .empty => some (this, o)
  | .value =>
    match this.value, o.value with
    | some a, some b => some (⟨.value b, this.type⟩, ⟨.value a, o.type⟩)
    | _, _ => none
  | .exception =>
    match this.exception, o.exception with
    | some a, some b => some (⟨.exception b, this.type⟩, ⟨.exception a, o.type⟩)
    | _, _ => none
  | .error =>
    match this.error, o.error with
    | some a, some b => some (⟨.error b, this.type⟩, ⟨.error a, o.type⟩)
    | _, _ => none
  | .future =>
    match this.future_, o.future_ with
    | some a, some b => some (⟨.future_ b, this.type⟩, ⟨.future_ a, o.type⟩)
    | _, _ => none

/-- Member `set_value(v)`: throws `promise_already_satisfied` unless the tag is `empty`. -/
def set_value (st : value_storage R) (v : R) : Except exception_ptr (value_storage R) :=
  if st.type ≠ .empty then .error (.future_error .promise_already_satisfied)
  else .ok ⟨.value v, .value⟩

/-- Member `set_exception(e)`. -/
def set_exception (st : value_storage R) (e : exception_ptr) :
    Except exception_ptr (value_storage R) :=
  if st.type ≠ .empty then .error (.future_error .promise_already_satisfied)
  else .ok ⟨.exception e, .exception⟩

/-- Member `set_error(e)`. -/
def set_error (st : value_storage R) (e : error_code) :
    Except exception_ptr (value_storage R) :=
  if st.type ≠ .empty then .error (.future_error .promise_already_satisfied)
  else .ok ⟨.error e, .error⟩

end value_storage

/-- State of a `spinlock<bool>` living in a `_lock_buffer`: `unconstructed` while no
placement-new has run on the buffer. -/
inductive spinlock
  | unconstructed
  | unlocked
  | locked
  deriving DecidableEq, Repr

/-- Data members of `promise<R>`. -/
structure promise (R : Type) where
  _need_locks : Bool
  _lock : spinlock
  _storage : value_storage R
  deriving DecidableEq, Repr

/-- Data members of `future<R>`; `_promise = none` is `nullptr`. -/
structure future (R : Type) where
  _lock : spinlock
  _storage : value_storage R
  _promise : Option Addr
  deriving DecidableEq, Repr

/-- The objects alive at each address. -/
structure Heap (R : Type) where
  promises : Addr → Option (promise R)
  futures : Addr → Option (future R)

namespace Heap
variable {R : Type}

/-- No object is alive. -/
def empty : Heap R := ⟨fun _ => none, fun _ => none⟩

/-- Store a promise at `a`. -/
def put_promise (s : Heap R) (a : Addr) (P : promise R) : Heap R :=
  { s with promises := fun x => if x = a then some P else s.promises x }

/-- Store a future at `a`. -/
def put_future (s : Heap R) (a : Addr) (F : future R) : Heap R :=
  { s with futures := fun x => if x = a then some F else s.futures x }

/-- End the lifetime of the promise at `a`. -/
def del_promise (s : Heap R) (a : Addr) : Heap R :=
  { s with promises := fun x => if x = a then none else s.promises x }

/-- End the lifetime of the future at `a`. -/
def del_future (s : Heap R) (a : Addr) : Heap R :=
  { s with futures := fun x => if x = a then none else s.futures x }

/-- Update the promise behind a pointer; `none` when the pointer is dangling. -/
def map_promise (s : Heap R) (a : Addr) (g : promise R → promise R) : Option (Heap R) :=
  match s.promises a with
  | some P => some (s.put_promise a (g P))
  | none => none

/-- Update the future behind a pointer; `none` when the pointer is dangling. -/
def map_future (s : Heap R) (a : Addr) (g : future R → future R) : Option (Heap R) :=
  match s.futures a with
  | some F => some (s.put_future a (g F))
  | none => none

end Heap

/-- How a call ends. `done` returns normally, `throws` lets an exception reach the
caller, `terminate` is an exception leaving a `noexcept(true)` function, `spins` is a busy
loop whose condition no sequential step can change, `fault` is behaviour the source leaves
undefined (dangling or null pointer, buffer read as a type that does not live there, lock
used before construction, unlock of a lock that is not held). -/
inductive Step (α σ : Type)
  | done (r : α) (s : σ)
  | throws (e : exception_ptr) (s : σ)
  | terminate
  | spins
  | fault

/-- Sequencing: continue after a normal return, otherwise stop with the same ending. -/
def Step.and_then {α β σ : Type} (x : Step α σ) (k : α → σ → Step β σ) : Step β σ :=
  match x with
  | .done r s => k r s
  | .throws e s => .throws e s
  | .terminate => .terminate
  | .spins => .spins
  | .fault => .fault

/-- The two pointers of `detail::lock_guard<R>`. -/
structure lock_guard where
  _p : Option Addr
  _f : Option Addr
  deriving DecidableEq, Repr

namespace lock_guard
variable {R : Type}

/-- Constructor `lock_guard(promise<R> *p)`. Without `_need_locks` nothing is locked.
Otherwise `p` is locked and, when its tag is `future`, the future is try-locked; a failed
try-lock unlocks `p` and repeats, which a lone thread repeats for ever. -/
def of_promise (s : Heap R) (p : Addr) : Step lock_guard (Heap R) :=
  match s.promises p with
  | none => .fault
  | some P =>
    if P._need_locks = false then .done ⟨some p, none⟩ s
    else
      match P._lock with
      | .unconstructed => .fault
      | .locked => .spins
      | .unlocked =>
        if P._storage.type = .future then
          match P._storage.future_ with
          | some (some f) =>
            match s.futures f with
            | some F =>
              match F._lock with
              | .unlocked =>
                .done ⟨some p, some f⟩
                  ((s.put_promise p { P with _lock := .locked }).put_future f
                    { F with _lock := .locked })
              | .locked => .spins
              | .unconstructed => .fault
            | none => .fault
          | _ => .fault
        else .done ⟨some p, none⟩ (s.put_promise p { P with _lock := .locked })

/-- Constructor `lock_guard(future<R> *f)`: lock `f`, then try-lock `f->_promise` if set. -/
def of_future (s : Heap R) (f : Addr) : Step lock_guard (Heap R) :=
  match s.futures f with
  | none => .fault
  | some F =>
    match F._lock with
    | .unconstructed => .fault
    | .locked => .spins
    | .unlocked =>
      match F._promise with
      | some p =>
        match s.promises p with
        | some P =>
          match P._lock with
          | .unlocked =>
            .done ⟨some p, some f⟩
              ((s.put_future f { F with _lock := .locked }).put_promise p
                { P with _lock := .locked })
          | .locked => .spins
          | .unconstructed => .fault
        | none => .fault
      | none => .done ⟨none, some f⟩ (s.put_future f { F with _lock := .locked })

/-- The second half of `unlock()`: release the future lock if `_f` is set. -/
def unlock_f (s : Heap R) (f : Option Addr) : Option (lock_guard × Heap R) :=
  match f with
  | none => some (⟨none, none⟩, s)
  | some a =>
    match s.futures a with
    | some F =>
      match F._lock with
      | .locked => some (⟨none, none⟩, s.put_future a { F with _lock := .unlocked })
      | _ => none
    | none => none

/-- Member `unlock()` (also the destructor): returns the cleared guard and the heap. -/
def unlock (s : Heap R) (h : lock_guard) : Option (lock_guard × Heap R) :=
  match h._p with
  | some p =>
    match s.promises p with
    | some P =>
      if P._need_locks then
        match P._lock with
        | .locked => unlock_f (s.put_promise p { P with _lock := .unlocked }) h._f
        | _ => none
      else some (⟨none, none⟩, s)
    | none => none
  | none => unlock_f s h._f

/-- Leaving the scope of a guard: run the destructor, then end as `k` says. -/
def release {α : Type} (s : Heap R) (h : lock_guard) (k : Heap R → Step α (Heap R)) :
    Step α (Heap R) :=
  match unlock s h with
  | some (_, s1) => k s1
  | none => .fault

end lock_guard

namespace future
variable {R : Type}

/-- Constructor `future()`: fresh lock, empty storage, no promise. -/
def ctor (s : Heap R) (this : Addr) : Heap R :=
  s.put_future this ⟨.unlocked, value_storage.init, none⟩

/-- Protected constructor `future(promise_type *p)`: takes over the storage of `p`, leaves
`p` tagged `future` with this address, and records `p`. -/
def of_promise (s : Heap R) (this p : Addr) : Option (Heap R) :=
  match s.promises p with
  | some P =>
    match value_storage.take P._storage this with
    | some (n, o) =>
      some ((s.put_promise p { P with _storage := o }).put_future this ⟨.unlocked, n, some p⟩)
    | none => none
  | none => none

/-- Member `valid()`. -/
def valid (F : future R) : Bool := F._promise.isSome

/-- Member `is_ready()`. -/
def is_ready (F : future R) : Bool := decide (F._storage.type ≠ .empty)

/-- Member `has_exception()`: true for the tags `exception` and `error`. -/
def has_exception (F : future R) : Bool :=
  decide (F._storage.type = .exception) || decide (F._storage.type = .error)

/-- Member `has_error()`. -/
def has_error (F : future R) : Bool := decide (F._storage.type = .error)

/-- Member `has_value()`. -/
def has_value (F : future R) : Bool := decide (F._storage.type = .value)

/-- Member `wait()`: `no_state` when not valid, otherwise poll `is_ready()`. -/
def wait (s : Heap R) (this : Addr) : Step Unit (Heap R) :=
  match s.futures this with
  | none => .fault
  | some F =>
    if valid F = false then .throws (.future_error .no_state) s
    else if is_ready F = false then .spins
    else .done () s

/-- The three statements shared by every retrieval: `_storage.reset()`, reset of the
promise storage under `h._p`, and `h._f->_promise=nullptr`. -/
def consume (s : Heap R) (this : Addr) (h : lock_guard) : Option (Heap R) := do
  let s1 ← s.map_future this fun F => { F with _storage := F._storage.reset }
  let s2 ← match h._p with
    | some p => s1.map_promise p fun P => { P with _storage := P._storage.reset }
    | none => some s1
  match h._f with
  | some f => s2.map_future f fun F => { F with _promise := none }
  | none => some s2

/-- The exception handle computed at the top of `get()` and `get_exception_ptr()`:
`system_error` of the error code under `has_error()`, then overwritten by
`_storage.exception()` under `has_exception()`. `none` when a read has no object to read. -/
def pending_exception (F : future R) : Option exception_ptr := do
  let e0 := exception_ptr.null
  let e1 ← if has_error F then F._storage.error.map exception_ptr.system_error else some e0
  if has_exception F then F._storage.exception else some e1

/-- Member `get()`. -/
def get (s : Heap R) (this : Addr) : Step R (Heap R) :=
  (wait s this).and_then fun _ s0 =>
  (lock_guard.of_future s0 this).and_then fun h s1 =>
  match s1.futures this with
  | none => .fault
  | some F =>
    match pending_exception F with
    | none => .fault
    | some e =>
      if e ≠ .null then
        match consume s1 this h with
        | some s2 => lock_guard.release s2 h fun s3 => .throws e s3
        | none => .fault
      else
        match F._storage.value with
        | some ret =>
          match consume s1 this h with
          | some s2 => lock_guard.release s2 h fun s3 => .done ret s3
          | none => .fault
        | none => .fault

/-- Member `get_exception_ptr()`. -/
def get_exception_ptr (s : Heap R) (this : Addr) : Step exception_ptr (Heap R) :=
  (wait s this).and_then fun _ s0 =>
  (lock_guard.of_future s0 this).and_then fun h s1 =>
  match s1.futures this with
  | none => .fault
  | some F =>
    match pending_exception F with
    | none => .fault
    | some e =>
      if e = .null then lock_guard.release s1 h fun s3 => .done e s3
      else
        match consume s1 this h with
        | some s2 => lock_guard.release s2 h fun s3 => .done e s3
        | none => .fault

/-- Member `get_error()`. -/
def get_error (s : Heap R) (this : Addr) : Step error_code (Heap R) :=
  (wait s this).and_then fun _ s0 =>
  (lock_guard.of_future s0 this).and_then fun h s1 =>
  match s1.futures this with
  | none => .fault
  | some F =>
    match (if has_error F then F._storage.error else some error_code.none) with
    | none => .fault
    | some e =>
      if e.is_clear then lock_guard.release s1 h fun s3 => .done e s3
      else
        match consume s1 this h with
        | some s2 => lock_guard.release s2 h fun s3 => .done e s3
        | none => .fault

/-- Move constructor `future(future &&o)`: fresh lock, guard on `o`, storage and
`_promise` taken from `o`, and the promise under `h._p` re-pointed to `this`. -/
def move_ctor (s : Heap R) (this o : Addr) : Step Unit (Heap R) :=
  let s0 := s.put_future this ⟨.unlocked, value_storage.init, none⟩
  (lock_guard.of_future s0 o).and_then fun h s1 =>
  match s1.futures this, s1.futures o with
  | some T, some O =>
    match value_storage.move_assign T._storage O._storage with
    | none => .fault
    | some (n, o1) =>
      let s2 := (s1.put_future this { T with _storage := n, _promise := O._promise }).put_future o
        { O with _storage := o1, _promise := none }
      let s3 : Option (Heap R) := match h._p with
        | some p => s2.map_promise p fun P =>
            { P with _storage := { P._storage with _buffer := .future_ (some this) } }
        | none => some s2
      match s3 with
      | some s4 => lock_guard.release s4 h fun s5 => .done () s5
      | none => .fault
  | _, _ => .fault

/-- Destructor `~future()`: guard on `this`, reset of the promise storage under `h._p`,
reset of the own storage; the object is gone afterwards. -/
def dtor (s : Heap R) (this : Addr) : Step Unit (Heap R) :=
  (lock_guard.of_future s this).and_then fun h s1 =>
  let s2 : Option (Heap R) := match h._p with
    | some p => s1.map_promise p fun P => { P with _storage := P._storage.reset }
    | none => some s1
  match s2 with
  | none => .fault
  | some s3 =>
    match s3.map_future this fun F => { F with _storage := F._storage.reset } with
    | none => .fault
    | some s4 => lock_guard.release s4 h fun s5 => .done () (s5.del_future this)

/-- Move assignment `operator=(future &&o)`: `this->~future()` followed by placement-new
of the move constructor at the same address. -/
def move_assign (s : Heap R) (this o : Addr) : Step Unit (Heap R) :=
  (dtor s this).and_then fun _ s1 => move_ctor s1 this o

/-- Member `swap(future &o)`. -/
def swap (s : Heap R) (this o : Addr) : Step Unit (Heap R) :=
  (lock_guard.of_future s this).and_then fun h1 s1 =>
  (lock_guard.of_future s1 o).and_then fun h2 s2 =>
  match s2.futures this, s2.futures o with
  | some T, some O =>
    match value_storage.swap T._storage O._storage with
    | none => .fault
    | some (t1, o1) =>
      let s3 := (s2.put_future this { T with _storage := t1 }).put_future o
        { O with _storage := o1 }
      let s4 : Option (Heap R) := match h1._p with
        | some p => s3.map_promise p fun P =>
            { P with _storage := { P._storage with _buffer := .future_ (some o) } }
        | none => some s3
      let s5 : Option (Heap R) := match s4, h2._p with
        | some s, some p => s.map_promise p fun P =>
            { P with _storage := { P._storage with _buffer := .future_ (some this) } }
        | r, _ => r
      match s5 with
      | some s6 => lock_guard.release s6 h2 fun s7 => lock_guard.release s7 h1 fun s8 => .done () s8
      | none => .fault
  | _, _ => .fault

end future

namespace promise
variable {R : Type}

/-- Constructor `promise()`: `_need_locks(false)`, lock buffer untouched, empty storage. -/
def ctor (s : Heap R) (this : Addr) : Heap R :=
  s.put_promise this ⟨false, .unconstructed, value_storage.init⟩

/-- Member `has_future()`. -/
def has_future (P : promise R) : Bool := decide (P._storage.type = .future)

/-- Move constructor `promise(promise &&o)`: `_need_locks` copied from `o` (no lock is
constructed), guard on `o`, storage moved, `h._f->_promise=this`. -/
def move_ctor (s : Heap R) (this o : Addr) : Step Unit (Heap R) :=
  match s.promises o with
  | none => .fault
  | some O0 =>
    let s0 := s.put_promise this ⟨O0._need_locks, .unconstructed, value_storage.init⟩
    (lock_guard.of_promise s0 o).and_then fun h s1 =>
    match s1.promises this, s1.promises o with
    | some T, some O =>
      match value_storage.move_assign T._storage O._storage with
      | none => .fault
      | some (n, o1) =>
        let s2 := (s1.put_promise this { T with _storage := n }).put_promise o
          { O with _storage := o1 }
        let s3 : Option (Heap R) := match h._f with
          | some f => s2.map_future f fun F => { F with _promise := some this }
          | none => some s2
        match s3 with
        | some s4 => lock_guard.release s4 h fun s5 => .done () s5
        | none => .fault
    | _, _ => .fault

/-- The body of `~promise()` up to the end of the guard: a linked future whose storage is
still `empty` receives `broken_promise`, its `_promise` is cleared, the own storage is
reset. The object itself is still in the heap. -/
def dtor_body (s : Heap R) (this : Addr) : Step Unit (Heap R) :=
  (lock_guard.of_promise s this).and_then fun h s1 =>
  let s2 : Option (Heap R) := match h._f with
    | some f =>
      match s1.futures f with
      | some F =>
        if F._storage.type = .empty then
          match F._storage.set_exception (.future_error .broken_promise) with
          | .ok st => some (s1.put_future f { F with _storage := st, _promise := none })
          | .error _ => none
        else some (s1.put_future f { F with _promise := none })
      | none => none
    | none => some s1
  match s2 with
  | none => .fault
  | some s3 =>
    match s3.map_promise this fun P => { P with _storage := P._storage.reset } with
    | none => .fault
    | some s4 => lock_guard.release s4 h fun s5 => .done () s5

/-- Destructor `~promise()`. -/
def dtor (s : Heap R) (this : Addr) : Step Unit (Heap R) :=
  (dtor_body s this).and_then fun _ s1 => .done () (s1.del_promise this)

/-- Move assignment `operator=(promise &&o)`: `this->~promise()` followed by
placement-new of the move constructor; the bytes of the lock buffer of `this` stay. -/
def move_assign (s : Heap R) (this o : Addr) : Step Unit (Heap R) :=
  (dtor_body s this).and_then fun _ s1 =>
  match s1.promises this, s1.promises o with
  | some T0, some O0 =>
    let s0 := s1.put_promise this ⟨O0._need_locks, T0._lock, value_storage.init⟩
    (lock_guard.of_promise s0 o).and_then fun h s2 =>
    match s2.promises this, s2.promises o with
    | some T, some O =>
      match value_storage.move_assign T._storage O._storage with
      | none => .fault
      | some (n, o1) =>
        let s3 := (s2.put_promise this { T with _storage := n }).put_promise o
          { O with _storage := o1 }
        let s4 : Option (Heap R) := match h._f with
          | some f => s3.map_future f fun F => { F with _promise := some this }
          | none => some s3
        match s4 with
        | some s5 => lock_guard.release s5 h fun s6 => .done () s6
        | none => .fault
    | _, _ => .fault
  | _, _ => .fault

/-- Member `swap(promise &o)`: two guards, `_storage.swap(o._storage)`, then the futures
found by the guards are re-pointed crosswise. -/
def swap (s : Heap R) (this o : Addr) : Step Unit (Heap R) :=
  (lock_guard.of_promise s this).and_then fun h1 s1 =>
  (lock_guard.of_promise s1 o).and_then fun h2 s2 =>
  match s2.promises this, s2.promises o with
  | some T, some O =>
    match value_storage.swap T._storage O._storage with
    | none => .fault
    | some (t1, o1) =>
      let s3 := (s2.put_promise this { T with _storage := t1 }).put_promise o
        { O with _storage := o1 }
      let s4 : Option (Heap R) := match h1._f with
        | some f => s3.map_future f fun F => { F with _promise := some o }
        | none => some s3
      let s5 : Option (Heap R) := match s4, h2._f with
        | some s, some f => s.map_future f fun F => { F with _promise := some this }
        | r, _ => r
      match s5 with
      | some s6 => lock_guard.release s6 h2 fun s7 => lock_guard.release s7 h1 fun s8 => .done () s8
      | none => .fault
  | _, _ => .fault

/-- Member `get_future()`. The local `ret` lives at `tmp`; `return std::move(ret)`
move-constructs the returned future at `dst`, then `ret` and the guard are destroyed. -/
def get_future (s : Heap R) (this tmp dst : Addr) : Step Unit (Heap R) :=
  match s.promises this with
  | none => .fault
  | some P0 =>
    let s0 := if P0._need_locks = false then
        s.put_promise this { P0 with _need_locks := true, _lock := .unlocked }
      else s
    (lock_guard.of_promise s0 this).and_then fun h s1 =>
    match h._f with
    | some _ =>
      lock_guard.release s1 h fun s2 =>
        Step.throws (exception_ptr.future_error .future_already_retrieved) s2
    | none =>
      match future.of_promise s1 tmp this with
      | none => .fault
      | some s2 =>
        match lock_guard.unlock s2 h with
        | none => .fault
        | some (h1, s3) =>
          (future.move_ctor s3 dst tmp).and_then fun _ s4 =>
          (future.dtor s4 tmp).and_then fun _ s5 =>
          lock_guard.release s5 h1 fun s6 => .done () s6

/-- The common shape of the three setters: guard on `this`, the storage setter `set` is
applied to the future storage under `h._f` or else to the own storage. `nothrow` is the
value of the `noexcept(...)` specification of the member: an exception leaving it calls
`std::terminate`. -/
def set_with (set : value_storage R → Except exception_ptr (value_storage R))
    (nothrow : Bool) (s : Heap R) (this : Addr) : Step Unit (Heap R) :=
  (lock_guard.of_promise s this).and_then fun h s1 =>
  let target : Option (value_storage R) := match h._f with
    | some f => (s1.futures f).map fun F => F._storage
    | none => (s1.promises this).map fun P => P._storage
  match target with
  | none => .fault
  | some st =>
    match set st with
    | .ok st1 =>
      let s2 : Option (Heap R) := match h._f with
        | some f => s1.map_future f fun F => { F with _storage := st1 }
        | none => s1.map_promise this fun P => { P with _storage := st1 }
      match s2 with
      | some s3 => lock_guard.release s3 h fun s4 => .done () s4
      | none => .fault
    | .error e =>
      if nothrow then .terminate
      else lock_guard.release s1 h fun s2 => .throws e s2

/-- Member `set_value(v)`, declared `noexcept(is_nothrow_copy_constructible<R>)` (or
`..._move_...` for the rvalue overload); `nothrow` is the value of that trait for `R`. -/
def set_value (nothrow : Bool) (s : Heap R) (this : Addr) (v : R) : Step Unit (Heap R) :=
  set_with (fun st => st.set_value v) nothrow s this

/-- Member `set_exception(e)`, declared
`noexcept(is_nothrow_copy_constructible<exception_ptr>)`, which is true. -/
def set_exception (s : Heap R) (this : Addr) (e : exception_ptr) : Step Unit (Heap R) :=
  set_with (fun st => st.set_exception e) true s this

/-- Member `set_error(e)`, declared `noexcept(is_nothrow_copy_constructible<error_code>)`,
which is true. -/
def set_error (s : Heap R) (this : Addr) (e : error_code) : Step Unit (Heap R) :=
  set_with (fun st => st.set_error e) true s this

end promise

/-! ## Predicates used by the statements -/

section predicates
variable {R : Type}

/-- A linked pair at rest: the promise `P` at `p` is tagged `future` with pointer `f`, the
future `F` at `f` points back to `p`, locking is on, and both locks are constructed and
free. -/
structure linked_pair (s : Heap R) (p f : Addr) (P : promise R) (F : future R) : Prop where
  at_p : s.promises p = some P
  at_f : s.futures f = some F
  tag : P._storage = ⟨.future_ (some f), .future⟩
  back : F._promise = some p
  need : P._need_locks = true
  p_free : P._lock = .unlocked
  f_free : F._lock = .unlocked

/-- A fresh promise at 1 whose future, still pending, was returned at 11. -/
def pending_pair : Heap Nat :=
  (Heap.empty.put_promise 1 ⟨true, .unlocked, ⟨.future_ (some 11), .future⟩⟩).put_future 11
    ⟨.unlocked, ⟨.raw, .empty⟩, some 1⟩

/-- The future at 11 linked to the promise at 1 and holding `st`. -/
def ready_pair (st : value_storage Nat) : Heap Nat :=
  (Heap.empty.put_promise 1 ⟨true, .unlocked, ⟨.future_ (some 11), .future⟩⟩).put_future 11
    ⟨.unlocked, st, some 1⟩

/-- The payload named by the tag: the buffer, or nothing under `empty`. -/
def value_storage.payload (st : value_storage R) : buffer R :=
  match st.type with
  | .empty => .raw
  | _ => st._buffer

/-- The buffer holds an object of the type the tag names. -/
def value_storage.well_formed (st : value_storage R) : Bool :=
  match st.type, st._buffer with
  | .empty, _ => true
  | .value, .value _ => true
  | .exception, .exception _ => true
  | .error, .error _ => true
  | .future, .future_ _ => true
  | _, _ => false

/-- After a retrieval that consumed the result: the future at `f` is `empty` and has no
promise, the promise at `p` is `empty`. -/
def consumed (s : Heap R) (p f : Addr) : Prop :=
  ∃ P F, s.promises p = some P ∧ s.futures f = some F ∧ F._storage.type = .empty ∧
    P._storage.type = .empty ∧ F._promise = none

/-- A promise at rest, as a lone thread finds it between two calls: either not tagged
`future`, with a payload that matches the tag and a lock that is free if in use, or one
half of a linked pair at rest. -/
def promise_at_rest (s : Heap R) (p : Addr) : Prop :=
  ∃ P, s.promises p = some P ∧
    ((P._storage.type ≠ .future ∧ P._storage.well_formed = true ∧
        (P._need_locks = true → P._lock = .unlocked)) ∨
      ∃ f F, linked_pair s p f P F)

/-- The authoritative storage of the promise at `p`: the storage of its future when the
promise is tagged `future`, its own storage otherwise. -/
def authoritative (s : Heap R) (p : Addr) : Option (value_storage R) :=
  match s.promises p with
  | none => none
  | some P =>
    if P._storage.type = .future then
      match P._storage.future_ with
      | some (some f) => (s.futures f).map fun F => F._storage
      | _ => none
    else some P._storage

/-- A result has been set: the authoritative storage is not `empty`. -/
def satisfied (s : Heap R) (p : Addr) : Prop :=
  ∃ st, authoritative s p = some st ∧ st.type ≠ .empty

/-- The promise at `p` is tagged `future`. -/
def has_consumer (s : Heap R) (p : Addr) : Prop :=
  ∃ P, s.promises p = some P ∧ P._storage.type = .future

/-- A call on the promise side. -/
inductive promise_call (R : Type)
  | set_value (nothrow : Bool) (v : R)
  | set_exception (e : exception_ptr)
  | set_error (c : error_code)
  | get_future (tmp dst : Addr)

/-- The call is one of the three setters. -/
def promise_call.is_set : promise_call R → Bool
  | .get_future _ _ => false
  | _ => true

/-- Perform the call on the promise at `p`. -/
def promise_call.run (s : Heap R) (p : Addr) : promise_call R → Step Unit (Heap R)
  | .set_value nothrow v => promise.set_value nothrow s p v
  | .set_exception e => promise.set_exception s p e
  | .set_error c => promise.set_error s p c
  | .get_future tmp dst => promise.get_future s p tmp dst

/-- The local and the returned future of a `get_future` call are distinct objects. -/
def promise_call.proper : promise_call R → Prop
  | .get_future tmp dst => tmp ≠ dst
  | _ => True

/-- The call returned normally. -/
def Step.is_done {α σ : Type} : Step α σ → Bool
  | .done _ _ => true
  | _ => false

/-- Perform the calls one after the other on the promise at `p`, pairing each call with
its end; the run stops after a call that does not give control back. -/
def run_calls (s : Heap R) (p : Addr) :
    List (promise_call R) → List (promise_call R × Step Unit (Heap R))
  | [] => []
  | c :: cs =>
    match c.run s p with
    | .done r s1 => (c, .done r s1) :: run_calls s1 p cs
    | .throws e s1 => (c, .throws e s1) :: run_calls s1 p cs
    | r => [(c, r)]

/-- How a call of kind `k` (setter or not) is refused. -/
def refused (k : Bool) (r : Step Unit (Heap R)) : Prop :=
  if k then r = .terminate ∨ ∃ s1, r = .throws (.future_error .promise_already_satisfied) s1
  else ∃ s1, r = .throws (.future_error .future_already_retrieved) s1

/-- What blocks calls of kind `k`: a result already set, or a future already handed out. -/
def blocked (k : Bool) (s : Heap R) (p : Addr) : Prop :=
  if k then satisfied s p else has_consumer s p

/-- Link consistency: for every live promise and live future, the promise is tagged
`future` with the address of the future exactly when the future points back to it. -/
def link_consistent (s : Heap R) : Prop :=
  ∀ p f P F, s.promises p = some P → s.futures f = some F →
    ((P._storage.type = .future ∧ P._storage.future_ = some (some f)) ↔ F._promise = some p)

/-- A sample sequence of calls on one promise. -/
def sample_calls : List (promise_call Nat) :=
  [.set_value false 1, .get_future 10 11, .set_value false 2, .get_future 20 21,
    .set_error ⟨5, 0⟩]

/-- The storage after a setter call: a setter that throws has not written to it (the
test of the tag precedes the placement-new). -/
def value_storage.after (st : value_storage R)
    (r : Except exception_ptr (value_storage R)) : value_storage R :=
  match r with
  | .ok st1 => st1
  | .error _ => st

/-- Two pending pairs at rest: promise 1 with future 11, promise 2 with future 21. -/
def two_pairs : Heap Nat :=
  (((Heap.empty.put_promise 1 ⟨true, .unlocked, ⟨.future_ (some 11), .future⟩⟩).put_promise 2
    ⟨true, .unlocked, ⟨.future_ (some 21), .future⟩⟩).put_future 11
    ⟨.unlocked, ⟨.raw, .empty⟩, some 1⟩).put_future 21 ⟨.unlocked, ⟨.raw, .empty⟩, some 2⟩

/-- The heap in which the caller goes on after the call: after a normal return or an
exception that reaches it. No heap after `terminate`, `spins` or `fault`. -/
def Step.heap {α σ : Type} : Step α σ → Option σ
  | .done _ s => some s
  | .throws _ s => some s
  | _ => none

/-- Every promise tagged `future` has `_need_locks` set. -/
def locking_enabled (s : Heap R) : Prop :=
  ∀ p P, s.promises p = some P → P._storage.type = .future → P._need_locks = true

/-- The part shared by the move constructor and (after the destructor) the move
assignment of a promise: guard on `o`, `_storage=std::move(o._storage)`, then the future
found by the guard is re-pointed to `this`. -/
def promise.move_tail (s0 : Heap R) (this o : Addr) : Step Unit (Heap R) :=
  (lock_guard.of_promise s0 o).and_then fun h s1 =>
  match s1.promises this, s1.promises o with
  | some T, some O =>
    match value_storage.move_assign T._storage O._storage with
    | none => .fault
    | some (n, o1) =>
      let s2 := (s1.put_promise this { T with _storage := n }).put_promise o
        { O with _storage := o1 }
      let s3 : Option (Heap R) := match h._f with
        | some f => s2.map_future f fun F => { F with _promise := some this }
        | none => some s2
      match s3 with
      | some s4 => lock_guard.release s4 h fun s5 => .done () s5
      | none => .fault
  | _, _ => .fault

/-- Every promise of `s1` is a promise of `s` with the same `_need_locks` and the same
tag. -/
def promises_keep_tags (s s1 : Heap R) : Prop :=
  ∀ x P1, s1.promises x = some P1 → ∃ P, s.promises x = some P ∧
    P1._need_locks = P._need_locks ∧ P1._storage.type = P._storage.type

/-- Every object of `s1` is an object of `s` whose lock is in the same state. -/
def locks_kept (s s1 : Heap R) : Prop :=
  (∀ x P1, s1.promises x = some P1 → ∃ P, s.promises x = some P ∧ P1._lock = P._lock) ∧
  (∀ x F1, s1.futures x = some F1 → ∃ F, s.futures x = some F ∧ F1._lock = F._lock)

/-- A call of a public member function, or a construction or destruction, with the
addresses of the objects involved. -/
inductive public_op (R : Type)
  | promise_ctor (this : Addr)
  | promise_move_ctor (this o : Addr)
  | promise_move_assign (this o : Addr)
  | promise_dtor (this : Addr)
  | promise_swap (this o : Addr)
  | get_future (this tmp dst : Addr)
  | set_value (nothrow : Bool) (this : Addr) (v : R)
  | set_exception (this : Addr) (e : exception_ptr)
  | set_error (this : Addr) (c : error_code)
  | future_ctor (this : Addr)
  | future_move_ctor (this o : Addr)
  | future_move_assign (this o : Addr)
  | future_dtor (this : Addr)
  | future_swap (this o : Addr)
  | get (this : Addr)
  | get_exception_ptr (this : Addr)
  | get_error (this : Addr)

/-- The heap in which the program goes on after the operation, if it does. -/
def public_op.next (s : Heap R) : public_op R → Option (Heap R)
  | .promise_ctor this => some (promise.ctor s this)
  | .promise_move_ctor this o => (promise.move_ctor s this o).heap
  | .promise_move_assign this o => (promise.move_assign s this o).heap
  | .promise_dtor this => (promise.dtor s this).heap
  | .promise_swap this o => (promise.swap s this o).heap
  | .get_future this tmp dst => (promise.get_future s this tmp dst).heap
  | .set_value nothrow this v => (promise.set_value nothrow s this v).heap
  | .set_exception this e => (promise.set_exception s this e).heap
  | .set_error this c => (promise.set_error s this c).heap
  | .future_ctor this => some (future.ctor s this)
  | .future_move_ctor this o => (future.move_ctor s this o).heap
  | .future_move_assign this o => (future.move_assign s this o).heap
  | .future_dtor this => (future.dtor s this).heap
  | .future_swap this o => (future.swap s this o).heap
  | .get this => (future.get s this).heap
  | .get_exception_ptr this => (future.get_exception_ptr s this).heap
  | .get_error this => (future.get_error s this).heap

/-- The operation is applied to distinct objects, and an object is constructed where no
object of its kind is alive. -/
def public_op.proper (s : Heap R) : public_op R → Prop
  | .promise_ctor this => s.promises this = none
  | .promise_move_ctor this o => s.promises this = none ∧ this ≠ o
  | .promise_move_assign this o => this ≠ o
  | .promise_swap this o => this ≠ o
  | .get_future _ tmp dst => s.futures tmp = none ∧ s.futures dst = none ∧ tmp ≠ dst
  | .future_ctor this => s.futures this = none
  | .future_move_ctor this o => s.futures this = none ∧ this ≠ o
  | .future_move_assign this o => this ≠ o
  | .future_swap this o => this ≠ o
  | _ => True

/-- The heaps a program reaches from the heap without objects by proper operations. -/
inductive reachable : Heap R → Prop
  | start : reachable Heap.empty
  | step {s s1 : Heap R} (op : public_op R) :
      reachable s → op.proper s → op.next s = some s1 → reachable s1

/-- No link pointer dangles: a promise tagged `future` holds the address of a live future,
and the `_promise` of a future, when set, is the address of a live promise. -/
def no_dangling (s : Heap R) : Prop :=
  (∀ p P, s.promises p = some P → P._storage.type = .future →
    ∃ f F, P._storage._buffer = .future_ (some f) ∧ s.futures f = some F) ∧
  (∀ f F p, s.futures f = some F → F._promise = some p → ∃ P, s.promises p = some P)

/-- Link consistency of a heap as a program without `swap` finds it: the links are
consistent, a linked promise has locking enabled, and no link pointer dangles. -/
def well_linked (s : Heap R) : Prop :=
  link_consistent s ∧ locking_enabled s ∧ no_dangling s

/-- Links seen from each side: a promise tagged `future` has locking enabled and points to
a live future that points back; a future with `_promise` set points to a live promise that
is tagged `future` and points back. -/
def linked_both_ways (s : Heap R) : Prop :=
  (∀ p P, s.promises p = some P → P._storage.type = .future →
    P._need_locks = true ∧ ∃ f, P._storage._buffer = .future_ (some f) ∧
      (s.futures f).bind (fun F => F._promise) = some p) ∧
  (∀ f F p, s.futures f = some F → F._promise = some p →
    (s.promises p).map (fun P => P._storage) = some ⟨.future_ (some f), .future⟩)

/-- The operation is one of the two `swap` members. -/
def public_op.is_swap : public_op R → Bool
  | .promise_swap _ _ => true
  | .future_swap _ _ => true
  | _ => false

/-- Every promise that a future points to has `_need_locks` set. -/
def partner_locking (s : Heap R) : Prop :=
  ∀ f F p P, s.futures f = some F → F._promise = some p → s.promises p = some P →
    P._need_locks = true

/-- No lock is held. -/
def locks_free (s : Heap R) : Prop :=
  (∀ p P, s.promises p = some P → P._lock ≠ .locked) ∧
  (∀ f F, s.futures f = some F → F._lock ≠ .locked)

/-- Every lock is free, and every lock that is in use has been constructed: the lock of
a promise is not held and is `unlocked` once `_need_locks` is set, the lock of a future is
`unlocked`. -/
def locks_at_rest (s : Heap R) : Prop :=
  (∀ p P, s.promises p = some P →
    P._lock ≠ .locked ∧ (P._need_locks = true → P._lock = .unlocked)) ∧
  (∀ f F, s.futures f = some F → F._lock = .unlocked)

/-- The operation is the move construction or the move assignment of a promise. -/
def public_op.is_promise_move : public_op R → Bool
  | .promise_move_ctor _ _ => true
  | .promise_move_assign _ _ => true
  | _ => false

/-- What an operation needs besides a well linked heap with its locks at rest in order to
return or throw: the objects it is applied to are alive, the payloads it moves or swaps
can be read, a setter declared `noexcept` finds nothing set, and a retrieval finds the
future without promise or holding a result it can deliver. -/
def public_op.enabled (s : Heap R) : public_op R → Prop
  | .promise_ctor _ => True
  | .promise_move_ctor _ o => ∃ O, s.promises o = some O ∧ O._storage.move.isSome = true
  | .promise_move_assign this o => (∃ T, s.promises this = some T) ∧
      ∃ O, s.promises o = some O ∧ O._storage.move.isSome = true
  | .promise_dtor this => ∃ T, s.promises this = some T
  | .promise_swap this o => ∃ T O, s.promises this = some T ∧ s.promises o = some O ∧
      (T._storage.swap O._storage).isSome = true
  | .get_future this _ _ => ∃ T, s.promises this = some T ∧ T._storage.well_formed = true
  | .set_value nothrow this _ => ∃ st, authoritative s this = some st ∧
      (nothrow = false ∨ st.type = .empty)
  | .set_exception this _ => ∃ st, authoritative s this = some st ∧ st.type = .empty
  | .set_error this _ => ∃ st, authoritative s this = some st ∧ st.type = .empty
  | .future_ctor _ => True
  | .future_move_ctor _ o => ∃ O, s.futures o = some O ∧ O._storage.move.isSome = true
  | .future_move_assign this o => (∃ T, s.futures this = some T) ∧
      ∃ O, s.futures o = some O ∧ O._storage.move.isSome = true
  | .future_dtor this => ∃ T, s.futures this = some T
  | .future_swap this o => ∃ T O, s.futures this = some T ∧ s.futures o = some O ∧
      (T._storage.swap O._storage).isSome = true
  | .get this => ∃ F, s.futures this = some F ∧
      (F._promise = none ∨ (∃ v, F._storage = ⟨.value v, .value⟩) ∨
        ∃ e, e ≠ .null ∧ F._storage = ⟨.exception e, .exception⟩)
  | .get_exception_ptr this => ∃ F, s.futures this = some F ∧
      (F._promise = none ∨ F._storage.type = .value ∨
        ∃ e, F._storage = ⟨.exception e, .exception⟩)
  | .get_error this => ∃ F, s.futures this = some F ∧
      (F._promise = none ∨ F._storage.type = .value ∨ F._storage.type = .exception ∨
        ∃ c, F._storage = ⟨.error c, .error⟩)

/-- A fresh promise at 1: the heap after `promise<int> P;`. -/
def fresh_promise : Heap Nat := promise.ctor Heap.empty 1

/-- A lock of the program: the `_lock` of the promise or of the future at an address. -/
inductive lock_ref
  | promise (a : Addr)
  | future (a : Addr)
  deriving DecidableEq, Repr

/-- A call on a spinlock: the blocking `lock()`, `try_lock()` with its result, or
`unlock()`. -/
inductive lock_event
  | lock (l : lock_ref)
  | try_lock (l : lock_ref) (ok : Bool)
  | unlock (l : lock_ref)
  deriving DecidableEq, Repr

/-- The lock calls of one pass through the loop of `lock_guard(promise<R> *p)`, up to a
call on a lock that was never constructed (not listed). Nothing without `_need_locks`;
otherwise `lock()` on `p`, which does not return while the lock is held; then, under the
tag `future`, `try_lock()` on the future, and after a failed `try_lock()` the `unlock()`
of `p` that precedes the next pass (which a lone thread repeats unchanged). -/
def lock_guard.of_promise_events (s : Heap R) (p : Addr) : List lock_event :=
  match s.promises p with
  | none => []
  | some P =>
    if P._need_locks = false then []
    else
      match P._lock with
      | .unconstructed => []
      | .locked => [.lock (.promise p)]
      | .unlocked =>
        if P._storage.type = .future then
          match P._storage.future_ with
          | some (some f) =>
            match s.futures f with
            | some F =>
              match F._lock with
              | .unlocked => [.lock (.promise p), .try_lock (.future f) true]
              | .locked =>
                [.lock (.promise p), .try_lock (.future f) false, .unlock (.promise p)]
              | .unconstructed => [.lock (.promise p)]
            | none => [.lock (.promise p)]
          | _ => [.lock (.promise p)]
        else [.lock (.promise p)]

/-- The lock calls of one pass through the loop of `lock_guard(future<R> *f)`: `lock()`
on `f`, then `try_lock()` on `f->_promise` if set, and after a failed `try_lock()` the
`unlock()` of `f`. -/
def lock_guard.of_future_events (s : Heap R) (f : Addr) : List lock_event :=
  match s.futures f with
  | none => []
  | some F =>
    match F._lock with
    | .unconstructed => []
    | .locked => [.lock (.future f)]
    | .unlocked =>
      match F._promise with
      | some p =>
        match s.promises p with
        | some P =>
          match P._lock with
          | .unlocked => [.lock (.future f), .try_lock (.promise p) true]
          | .locked =>
            [.lock (.future f), .try_lock (.promise p) false, .unlock (.future f)]
          | .unconstructed => [.lock (.future f)]
        | none => [.lock (.future f)]
      | none => [.lock (.future f)]

/-- The lock calls of `lock_guard::unlock()` (and of the destructor): `unlock()` on `_p`
when it is set and has `_need_locks`, then `unlock()` on `_f` when it is set; when `_p` is
set without `_need_locks` the member returns at once. -/
def lock_guard.unlock_events (s : Heap R) (h : lock_guard) : List lock_event :=
  let on_f : List lock_event := match h._f with
    | some f => [.unlock (.future f)]
    | none => []
  match h._p with
  | some p =>
    match s.promises p with
    | some P => if P._need_locks then .unlock (.promise p) :: on_f else []
    | none => []
  | none => on_f

/-- The lock calls of a guard from its construction to its destruction at the end of the
scope. The members guarded this way write neither `_need_locks` nor the pointers of the
guard, so the calls of the destructor are read off the heap the constructor leaves; they
are listed whenever the constructor completed. -/
def lock_guard.scope_events (ctor : List lock_event) (r : Step lock_guard (Heap R)) :
    List lock_event :=
  ctor ++
  match r with
  | .done h s1 => lock_guard.unlock_events s1 h
  | _ => []

/-- The lock calls of `~promise()`. -/
def promise.dtor_events (s : Heap R) (this : Addr) : List lock_event :=
  lock_guard.scope_events (lock_guard.of_promise_events s this) (lock_guard.of_promise s this)

/-- The lock calls of `promise(promise &&o)`: one guard on `o`. -/
def promise.move_ctor_events (s : Heap R) (this o : Addr) : List lock_event :=
  match s.promises o with
  | none => []
  | some O0 =>
    let s0 := s.put_promise this ⟨O0._need_locks, .unconstructed, value_storage.init⟩
    lock_guard.scope_events (lock_guard.of_promise_events s0 o) (lock_guard.of_promise s0 o)

/-- The lock calls of `promise::operator=(promise &&o)`: those of the destructor, then
those of the move constructor. -/
def promise.move_assign_events (s : Heap R) (this o : Addr) : List lock_event :=
  promise.dtor_events s this ++
  match promise.dtor_body s this with
  | .done _ s1 =>
    match s1.promises this, s1.promises o with
    | some T0, some O0 =>
      let s0 := s1.put_promise this ⟨O0._need_locks, T0._lock, value_storage.init⟩
      lock_guard.scope_events (lock_guard.of_promise_events s0 o) (lock_guard.of_promise s0 o)
    | _, _ => []
  | _ => []

/-- The lock calls of `promise::swap(promise &o)`: the guard `h1(this)` is constructed,
then the guard `h2(&o)`; at the end of the scope `h2` is destroyed before `h1`. -/
def promise.swap_events (s : Heap R) (this o : Addr) : List lock_event :=
  lock_guard.of_promise_events s this ++
  match lock_guard.of_promise s this with
  | .done h1 s1 =>
    lock_guard.of_promise_events s1 o ++
    match lock_guard.of_promise s1 o with
    | .done h2 s2 => lock_guard.unlock_events s2 h2 ++ lock_guard.unlock_events s2 h1
    | _ => []
  | _ => []

/-- The lock calls of a setter: one guard on `this`. -/
def promise.set_events (s : Heap R) (this : Addr) : List lock_event :=
  lock_guard.scope_events (lock_guard.of_promise_events s this) (lock_guard.of_promise s this)

/-- The lock calls of `future(future &&o)`: one guard on `o`. -/
def future.move_ctor_events (s : Heap R) (this o : Addr) : List lock_event :=
  let s0 := s.put_future this ⟨.unlocked, value_storage.init, none⟩
  lock_guard.scope_events (lock_guard.of_future_events s0 o) (lock_guard.of_future s0 o)

/-- The lock calls of `~future()`. -/
def future.dtor_events (s : Heap R) (this : Addr) : List lock_event :=
  lock_guard.scope_events (lock_guard.of_future_events s this) (lock_guard.of_future s this)

/-- The lock calls of `future::operator=(future &&o)`. -/
def future.move_assign_events (s : Heap R) (this o : Addr) : List lock_event :=
  future.dtor_events s this ++
  match future.dtor s this with
  | .done _ s1 => future.move_ctor_events s1 this o
  | _ => []

/-- The lock calls of `future::swap(future &o)`. -/
def future.swap_events (s : Heap R) (this o : Addr) : List lock_event :=
  lock_guard.of_future_events s this ++
  match lock_guard.of_future s this with
  | .done h1 s1 =>
    lock_guard.of_future_events s1 o ++
    match lock_guard.of_future s1 o with
    | .done h2 s2 => lock_guard.unlock_events s2 h2 ++ lock_guard.unlock_events s2 h1
    | _ => []
  | _ => []

/-- The lock calls of `get()`, `get_exception_ptr()` and `get_error()`: `wait()` takes no
lock, then one guard on `this`. -/
def future.retrieval_events (s : Heap R) (this : Addr) : List lock_event :=
  match future.wait s this with
  | .done _ s0 =>
    lock_guard.scope_events (lock_guard.of_future_events s0 this) (lock_guard.of_future s0 this)
  | _ => []

/-- The lock calls of `get_future()`: the guard `h(this)`; when it reports a future, its
destructor as the exception leaves; otherwise the explicit `h.unlock()`, the move
constructor that builds the returned future from `ret`, the destructor of `ret`, and the
destructor of `h`. -/
def promise.get_future_events (s : Heap R) (this tmp dst : Addr) : List lock_event :=
  match s.promises this with
  | none => []
  | some P0 =>
    let s0 := if P0._need_locks = false then
        s.put_promise this { P0 with _need_locks := true, _lock := .unlocked }
      else s
    lock_guard.of_promise_events s0 this ++
    match lock_guard.of_promise s0 this with
    | .done h s1 =>
      match h._f with
      | some _ => lock_guard.unlock_events s1 h
      | none =>
        match future.of_promise s1 tmp this with
        | none => []
        | some s2 =>
          lock_guard.unlock_events s2 h ++
          match lock_guard.unlock s2 h with
          | none => []
          | some (h1, s3) =>
            future.move_ctor_events s3 dst tmp ++
            match future.move_ctor s3 dst tmp with
            | .done _ s4 =>
              future.dtor_events s4 tmp ++
              match future.dtor s4 tmp with
              | .done _ s5 => lock_guard.unlock_events s5 h1
              | _ => []
            | _ => []
    | _ => []

/-- The lock calls of an operation, in the order they are issued. -/
def public_op.events (s : Heap R) : public_op R → List lock_event
  | .promise_ctor _ => []
  | .promise_move_ctor this o => promise.move_ctor_events s this o
  | .promise_move_assign this o => promise.move_assign_events s this o
  | .promise_dtor this => promise.dtor_events s this
  | .promise_swap this o => promise.swap_events s this o
  | .get_future this tmp dst => promise.get_future_events s this tmp dst
  | .set_value _ this _ => promise.set_events s this
  | .set_exception this _ => promise.set_events s this
  | .set_error this _ => promise.set_events s this
  | .future_ctor _ => []
  | .future_move_ctor this o => future.move_ctor_events s this o
  | .future_move_assign this o => future.move_assign_events s this o
  | .future_dtor this => future.dtor_events s this
  | .future_swap this o => future.swap_events s this o
  | .get this => future.retrieval_events s this
  | .get_exception_ptr this => future.retrieval_events s this
  | .get_error this => future.retrieval_events s this

/-- The number of locks held after the calls, starting with `held` locks. -/
def held_after : Nat → List lock_event → Nat
  | held, [] => held
  | held, .lock _ :: es => held_after (held + 1) es
  | held, .try_lock _ ok :: es => held_after (if ok then held + 1 else held) es
  | held, .unlock _ :: es => held_after (held - 1) es

/-- Every blocking `lock()` among the calls is issued while no lock is held, starting
with `held` locks. -/
def never_blocks_holding : Nat → List lock_event → Bool
  | _, [] => true
  | held, .lock _ :: es => held == 0 && never_blocks_holding (held + 1) es
  | held, .try_lock _ ok :: es => never_blocks_holding (if ok then held + 1 else held) es
  | held, .unlock _ :: es => never_blocks_holding (held - 1) es

/-- The calls of one pass through a guard constructor on the object behind `own` follow
the protocol: nothing; or `lock()` on the own lock; or that followed by a successful
`try_lock()` on a partner; or that followed by a failed `try_lock()` on a partner and the
`unlock()` of the own lock. -/
def guard_protocol (own : lock_ref) (es : List lock_event) : Prop :=
  es = [] ∨ es = [.lock own] ∨ (∃ partner, es = [.lock own, .try_lock partner true]) ∨
  ∃ partner, es = [.lock own, .try_lock partner false, .unlock own]

end predicates

/-! ## Theorems -/

section theorems
variable {R : Type}

/-- Two heaps with the same objects at every address are equal. -/
theorem Heap.eq_of_pointwise {s t : Heap R} (h1 : ∀ x, s.promises x = t.promises x)
    (h2 : ∀ x, s.futures x = t.futures x) : s = t := by
  cases s; cases t
  simp only [Heap.mk.injEq]
  exact ⟨funext h1, funext h2⟩

/-- The heap `pending_pair` is what `get_future` builds from a fresh promise. -/
theorem pending_pair_reached :
    promise.get_future (promise.ctor (Heap.empty : Heap Nat) 1) 1 10 11 = .done () pending_pair := by
  simp [promise.ctor, lock_guard.of_promise, Step.and_then,
    Heap.put_promise, Heap.put_future, Heap.map_promise, Heap.map_future,
    value_storage.init, lock_guard.release, lock_guard.unlock, lock_guard.unlock_f,
    promise.get_future, future.of_promise, value_storage.take, value_storage.move,
    future.move_ctor, lock_guard.of_future, value_storage.move_assign,
    future.dtor, value_storage.reset, Heap.del_future, pending_pair, Heap.empty]
  constructor <;> funext x <;> split_ifs <;> first | rfl | simp_all

/-- C1. Order independence: on a fresh promise, `set_value(v)` followed by `get_future()`
and `get()`, and `get_future()` followed by `set_value(v)` and `get()`, both run to the end
without raising, both return `v`, and both end in the same heap. -/
theorem order_independence (v : R) (nothrow : Bool) (s : Heap R) (p tmp dst : Addr)
    (hne : tmp ≠ dst) :
    ∃ s1,
      ((promise.set_value nothrow (promise.ctor s p) p v).and_then fun _ s =>
        (promise.get_future s p tmp dst).and_then fun _ s => future.get s dst) = .done v s1 ∧
      ((promise.get_future (promise.ctor s p) p tmp dst).and_then fun _ s =>
        (promise.set_value nothrow s p v).and_then fun _ s => future.get s dst) = .done v s1 := by
  simp [promise.set_value, promise.set_with, promise.ctor, lock_guard.of_promise, Step.and_then,
    Heap.put_promise, Heap.put_future, Heap.map_promise, Heap.map_future, value_storage.set_value,
    value_storage.init, lock_guard.release, lock_guard.unlock, lock_guard.unlock_f,
    promise.get_future, future.of_promise, value_storage.take, value_storage.move,
    value_storage.value, future.move_ctor, lock_guard.of_future, value_storage.move_assign,
    future.dtor, value_storage.reset, Heap.del_future, future.get, future.wait, future.valid,
    future.is_ready, future.pending_exception, future.has_error, future.has_exception,
    future.consume, hne, hne.symm, value_storage.future_]
  constructor <;> funext x <;> split_ifs <;> rfl

/-- Witness of C1: the promise at 1, the local future at 10, the returned future at 11,
the value 42. -/
theorem order_independence_witness :
    (10 : Addr) ≠ 11 ∧ ∃ s1,
      ((promise.set_value false (promise.ctor (Heap.empty : Heap Nat) 1) 1 42).and_then
        fun _ s => (promise.get_future s 1 10 11).and_then fun _ s => future.get s 11)
          = .done 42 s1 ∧
      ((promise.get_future (promise.ctor (Heap.empty : Heap Nat) 1) 1 10 11).and_then
        fun _ s => (promise.set_value false s 1 42).and_then fun _ s => future.get s 11)
          = .done 42 s1 :=
  ⟨by decide, order_independence 42 false Heap.empty 1 10 11 (by decide)⟩

/-- C2. Destroying the promise of a pending linked pair stores `broken_promise` in the
future and clears its `_promise`; the `get()` that follows ends in `wait()` with
`no_state`, so the stored `broken_promise` is not what the caller receives. -/
theorem broken_promise_masked_by_no_state (s : Heap R) (p f : Addr) (P : promise R)
    (F : future R) (h : linked_pair s p f P F) (hFe : F._storage.type = .empty) :
    ∃ s1, promise.dtor s p = .done () s1 ∧
      s1.futures f = some
        ⟨.unlocked, ⟨.exception (.future_error .broken_promise), .exception⟩, none⟩ ∧
      future.get s1 f = .throws (.future_error .no_state) s1 := by
  simp [promise.dtor, promise.dtor_body, lock_guard.of_promise, Step.and_then, h.at_p, h.at_f,
    h.tag, h.need, h.p_free, h.f_free, hFe, value_storage.future_,
    value_storage.set_exception, Heap.put_promise, Heap.put_future, Heap.map_promise,
    Heap.map_future, lock_guard.release, lock_guard.unlock, lock_guard.unlock_f,
    value_storage.reset, Heap.del_promise, future.get, future.wait, future.valid]

/-- Witness of C2 on `pending_pair`. -/
theorem broken_promise_masked_by_no_state_witness :
    ∃ s1, promise.dtor pending_pair 1 = .done () s1 ∧
      s1.futures 11 = some
        ⟨.unlocked, ⟨.exception (.future_error .broken_promise), .exception⟩, none⟩ ∧
      future.get s1 11 = .throws (.future_error .no_state) s1 :=
  broken_promise_masked_by_no_state pending_pair 1 11
    ⟨true, .unlocked, ⟨.future_ (some 11), .future⟩⟩ ⟨.unlocked, ⟨.raw, .empty⟩, some 1⟩
    ⟨rfl, rfl, rfl, rfl, rfl, rfl, rfl⟩ rfl

/-- C5. Outcome of `get()` by tag on a linked, ready future: `Value v` returns `v`, a
non-null `Exception e` raises `e`, but under `Error c` the `system_error` built from `c` is
replaced by `_storage.exception()` (because `has_exception()` also holds for `error`), a
read of the buffer as a type that does not live there: no `system_error` is raised. -/
theorem get_by_tag (s : Heap R) (p f : Addr) (P : promise R) (F : future R)
    (h : linked_pair s p f P F) :
    (∀ v, F._storage = ⟨.value v, .value⟩ → ∃ s1, future.get s f = .done v s1) ∧
    (∀ e, e ≠ .null → F._storage = ⟨.exception e, .exception⟩ →
      ∃ s1, future.get s f = .throws e s1) ∧
    (∀ c, F._storage = ⟨.error c, .error⟩ → future.get s f = .fault) := by
  obtain ⟨hp, hf, ht, hb, hn, hpl, hfl⟩ := h
  obtain ⟨nl, lk, st⟩ := P
  obtain ⟨flk, fst, fpr⟩ := F
  simp only at ht hb hn hpl hfl
  subst ht hb hn hpl hfl
  refine ⟨?_, ?_, ?_⟩
  · intro v hv
    simp only at hv
    subst hv
    simp [future.get, future.wait, future.valid, future.is_ready, Step.and_then,
      lock_guard.of_future, hp, hf,
      Heap.put_promise, Heap.put_future, Heap.map_promise, Heap.map_future,
      future.pending_exception, future.has_error, future.has_exception, value_storage.error,
      value_storage.exception, value_storage.value, future.consume, lock_guard.release,
      lock_guard.unlock, lock_guard.unlock_f, value_storage.reset]
  · intro e he hv
    simp only at hv
    subst hv
    simp [future.get, future.wait, future.valid, future.is_ready, Step.and_then,
      lock_guard.of_future, hp, hf,
      Heap.put_promise, Heap.put_future, Heap.map_promise, Heap.map_future,
      future.pending_exception, future.has_error, future.has_exception, value_storage.error,
      value_storage.exception, value_storage.value, future.consume, lock_guard.release,
      lock_guard.unlock, lock_guard.unlock_f, value_storage.reset, he]
  · intro c hv
    simp only at hv
    subst hv
    simp [future.get, future.wait, future.valid, future.is_ready, Step.and_then,
      lock_guard.of_future, hp, hf,
      Heap.put_promise, Heap.put_future, Heap.map_promise, Heap.map_future,
      future.pending_exception, future.has_error, future.has_exception, value_storage.error,
      value_storage.exception]

/-- Witness of C5: the future at 11 holds the error code 5. -/
theorem get_by_tag_witness :
    future.get (ready_pair ⟨.error ⟨5, 0⟩, .error⟩) 11 = .fault :=
  (get_by_tag (ready_pair ⟨.error ⟨5, 0⟩, .error⟩) 1 11
    ⟨true, .unlocked, ⟨.future_ (some 11), .future⟩⟩
    ⟨.unlocked, ⟨.error ⟨5, 0⟩, .error⟩, some 1⟩
    ⟨rfl, rfl, rfl, rfl, rfl, rfl, rfl⟩).2.2 ⟨5, 0⟩ rfl

/-- Counterexample to C6 as stated: after `get_future()` and `set_value(42)`,
`get_exception_ptr()` returns the null handle and consumes nothing: the future still
holds `Value 42` and its `_promise`, the promise is still tagged `future`. -/
theorem get_exception_ptr_keeps_value :
    ∃ s1 s2 s3,
      promise.get_future (promise.ctor (Heap.empty : Heap Nat) 1) 1 10 11 = .done () s1 ∧
      promise.set_value true s1 1 42 = .done () s2 ∧
      future.get_exception_ptr s2 11 = .done .null s3 ∧
      s3.futures 11 = some ⟨.unlocked, ⟨.value 42, .value⟩, some 1⟩ ∧
      s3.promises 1 = some ⟨true, .unlocked, ⟨.future_ (some 11), .future⟩⟩ := by
  simp [promise.set_value, promise.set_with, promise.ctor, lock_guard.of_promise, Step.and_then,
    Heap.put_promise, Heap.put_future, Heap.map_promise, Heap.map_future, value_storage.set_value,
    value_storage.init, lock_guard.release, lock_guard.unlock, lock_guard.unlock_f,
    promise.get_future, future.of_promise, value_storage.take, value_storage.move,
    future.move_ctor, lock_guard.of_future, value_storage.move_assign,
    future.dtor, value_storage.reset, Heap.del_future, future.get_exception_ptr, future.wait,
    future.valid, future.is_ready, future.pending_exception, future.has_error,
    future.has_exception, value_storage.future_, Heap.empty]

/-- C6 (amended). On a linked pair at rest whose future is ready: `get()` on `Value v`
or on a non-null `Exception e`, `get_error()` on `Error c` with `c` non-zero, and
`get_exception_ptr()` on a non-null `Exception e` leave the future `empty` with no promise
and the promise `empty`.
When `get_error()` finds no error to report (tag `Value` or `Exception`, or an error code
of value 0) and when `get_exception_ptr()` finds a `Value`, they return the null result
and leave the heap exactly as it was. -/
theorem retrieval_consumes_what_it_reports (s : Heap R) (p f : Addr) (P : promise R)
    (F : future R) (h : linked_pair s p f P F) :
    (∀ v, F._storage = ⟨.value v, .value⟩ →
      ∃ s1, future.get s f = .done v s1 ∧ consumed s1 p f) ∧
    (∀ e, e ≠ .null → F._storage = ⟨.exception e, .exception⟩ →
      ∃ s1, future.get s f = .throws e s1 ∧ consumed s1 p f) ∧
    (∀ c, c.value ≠ 0 → F._storage = ⟨.error c, .error⟩ →
      ∃ s1, future.get_error s f = .done c s1 ∧ consumed s1 p f) ∧
    (∀ e, e ≠ .null → F._storage = ⟨.exception e, .exception⟩ →
      ∃ s1, future.get_exception_ptr s f = .done e s1 ∧ consumed s1 p f) ∧
    (∀ c, c.value = 0 → F._storage = ⟨.error c, .error⟩ →
      future.get_error s f = .done c s) ∧
    (F._storage.type = .value ∨ F._storage.type = .exception →
      future.get_error s f = .done error_code.none s) ∧
    (∀ v, F._storage = ⟨.value v, .value⟩ →
      future.get_exception_ptr s f = .done .null s) := by
  obtain ⟨hp, hf, ht, hb, hn, hpl, hfl⟩ := h
  obtain ⟨nl, lk, st⟩ := P
  obtain ⟨flk, fst, fpr⟩ := F
  simp only at ht hb hn hpl hfl
  subst ht hb hn hpl hfl
  refine ⟨?_, ?_, ?_, ?_, ?_, ?_, ?_⟩
  · intro v hv
    simp only at hv
    subst hv
    simp [future.get, future.wait, future.valid, future.is_ready, Step.and_then,
      lock_guard.of_future, hp, hf,
      Heap.put_promise, Heap.put_future, Heap.map_promise, Heap.map_future,
      future.pending_exception, future.has_error, future.has_exception, value_storage.error,
      value_storage.exception, value_storage.value, future.consume, lock_guard.release,
      lock_guard.unlock, lock_guard.unlock_f, value_storage.reset, consumed]
  · intro e he hv
    simp only at hv
    subst hv
    simp [future.get, future.wait, future.valid, future.is_ready, Step.and_then,
      lock_guard.of_future, hp, hf,
      Heap.put_promise, Heap.put_future, Heap.map_promise, Heap.map_future,
      future.pending_exception, future.has_error, future.has_exception, value_storage.error,
      value_storage.exception, value_storage.value, future.consume, lock_guard.release,
      lock_guard.unlock, lock_guard.unlock_f, value_storage.reset, consumed, he]
  · intro c hc hv
    simp only at hv
    subst hv
    simp [future.get_error, future.wait, future.valid, future.is_ready, Step.and_then,
      lock_guard.of_future, hp, hf,
      Heap.put_promise, Heap.put_future, Heap.map_promise, Heap.map_future,
      future.has_error, value_storage.error, error_code.is_clear,
      future.consume, lock_guard.release,
      lock_guard.unlock, lock_guard.unlock_f, value_storage.reset, consumed, hc]
  · intro e he hv
    simp only at hv
    subst hv
    simp [future.get_exception_ptr, future.wait, future.valid, future.is_ready, Step.and_then,
      lock_guard.of_future, hp, hf,
      Heap.put_promise, Heap.put_future, Heap.map_promise, Heap.map_future,
      future.pending_exception, future.has_error, future.has_exception, value_storage.error,
      value_storage.exception, value_storage.value, future.consume, lock_guard.release,
      lock_guard.unlock, lock_guard.unlock_f, value_storage.reset, consumed, he]
  · intro c hc hv
    simp only at hv
    subst hv
    simp [future.get_error, future.wait, future.valid, future.is_ready, Step.and_then,
      lock_guard.of_future, hp, hf,
      Heap.put_promise, Heap.put_future, Heap.map_promise, Heap.map_future,
      future.has_error, value_storage.error, error_code.is_clear,
      lock_guard.release, lock_guard.unlock, lock_guard.unlock_f, hc]
    apply Heap.eq_of_pointwise <;> intro x <;> dsimp only <;> split_ifs with hx <;>
      simp_all
  · intro hv
    have hne : fst.type ≠ .empty := by rcases hv with hv | hv <;> simp_all
    have hnerr : fst.type ≠ .error := by rcases hv with hv | hv <;> simp_all
    simp [future.get_error, future.wait, future.valid, future.is_ready, Step.and_then,
      lock_guard.of_future, hp, hf,
      Heap.put_promise, Heap.put_future, Heap.map_promise, Heap.map_future,
      future.has_error, error_code.is_clear, error_code.none,
      lock_guard.release, lock_guard.unlock, lock_guard.unlock_f, hne, hnerr]
    apply Heap.eq_of_pointwise <;> intro x <;> dsimp only <;> split_ifs with hx <;>
      simp_all
  · intro v hv
    simp only at hv
    subst hv
    simp [future.get_exception_ptr, future.wait, future.valid, future.is_ready, Step.and_then,
      lock_guard.of_future, hp, hf,
      Heap.put_promise, Heap.put_future, Heap.map_promise, Heap.map_future,
      future.pending_exception, future.has_error, future.has_exception,
      lock_guard.release, lock_guard.unlock, lock_guard.unlock_f]
    apply Heap.eq_of_pointwise <;> intro x <;> dsimp only <;> split_ifs with hx <;>
      simp_all

/-- Witness of C6 (amended): `get()` on the future at 11 holding 42. -/
theorem retrieval_consumes_what_it_reports_witness :
    ∃ s1, future.get (ready_pair ⟨.value 42, .value⟩) 11 = .done 42 s1 ∧ consumed s1 1 11 :=
  (retrieval_consumes_what_it_reports (ready_pair ⟨.value 42, .value⟩) 1 11
    ⟨true, .unlocked, ⟨.future_ (some 11), .future⟩⟩
    ⟨.unlocked, ⟨.value 42, .value⟩, some 1⟩
    ⟨rfl, rfl, rfl, rfl, rfl, rfl, rfl⟩).1 42 rfl

/-- C7. `get()` is single-shot on a linked, ready future holding a `Value` or a non-null
`Exception`: after the call `valid()` is false and a second `get()` raises `no_state`.
Under `Error c` the first `get()` already leaves defined behaviour (the misread of C5),
so neither the raise of the stored error nor the second call is reached. -/
theorem get_single_shot (s : Heap R) (p f : Addr) (P : promise R) (F : future R)
    (h : linked_pair s p f P F) :
    (∀ v, F._storage = ⟨.value v, .value⟩ →
      ∃ s1 F1, future.get s f = .done v s1 ∧ s1.futures f = some F1 ∧
        future.valid F1 = false ∧ future.get s1 f = .throws (.future_error .no_state) s1) ∧
    (∀ e, e ≠ .null → F._storage = ⟨.exception e, .exception⟩ →
      ∃ s1 F1, future.get s f = .throws e s1 ∧ s1.futures f = some F1 ∧
        future.valid F1 = false ∧ future.get s1 f = .throws (.future_error .no_state) s1) ∧
    (∀ c, F._storage = ⟨.error c, .error⟩ → future.get s f = .fault) := by
  obtain ⟨hp, hf, ht, hb, hn, hpl, hfl⟩ := h
  obtain ⟨nl, lk, st⟩ := P
  obtain ⟨flk, fst, fpr⟩ := F
  simp only at ht hb hn hpl hfl
  subst ht hb hn hpl hfl
  refine ⟨?_, ?_, ?_⟩
  · intro v hv
    simp only at hv
    subst hv
    simp [future.get, future.wait, future.valid, future.is_ready, Step.and_then,
      lock_guard.of_future, hp, hf,
      Heap.put_promise, Heap.put_future, Heap.map_promise, Heap.map_future,
      future.pending_exception, future.has_error, future.has_exception, value_storage.error,
      value_storage.exception, value_storage.value, future.consume, lock_guard.release,
      lock_guard.unlock, lock_guard.unlock_f, value_storage.reset]
  · intro e he hv
    simp only at hv
    subst hv
    simp [future.get, future.wait, future.valid, future.is_ready, Step.and_then,
      lock_guard.of_future, hp, hf,
      Heap.put_promise, Heap.put_future, Heap.map_promise, Heap.map_future,
      future.pending_exception, future.has_error, future.has_exception, value_storage.error,
      value_storage.exception, value_storage.value, future.consume, lock_guard.release,
      lock_guard.unlock, lock_guard.unlock_f, value_storage.reset, he]
  · intro c hv
    simp only at hv
    subst hv
    simp [future.get, future.wait, future.valid, future.is_ready, Step.and_then,
      lock_guard.of_future, hp, hf,
      Heap.put_promise, Heap.put_future, Heap.map_promise, Heap.map_future,
      future.pending_exception, future.has_error, future.has_exception, value_storage.error,
      value_storage.exception]

/-- Witness of C7: the future at 11 holds the error code 22. -/
theorem get_single_shot_witness :
    future.get (ready_pair ⟨.error ⟨22, 0⟩, .error⟩) 11 = .fault :=
  (get_single_shot (ready_pair ⟨.error ⟨22, 0⟩, .error⟩) 1 11
    ⟨true, .unlocked, ⟨.future_ (some 11), .future⟩⟩
    ⟨.unlocked, ⟨.error ⟨22, 0⟩, .error⟩, some 1⟩
    ⟨rfl, rfl, rfl, rfl, rfl, rfl, rfl⟩).2.2 ⟨22, 0⟩ rfl

/-- Moving a well-formed storage whose tag is not `future` yields its tag and payload and
leaves the source `empty`. -/
theorem value_storage.move_well_formed (st : value_storage R) (hty : st.type ≠ .future)
    (hwf : st.well_formed = true) :
    ∃ o1, value_storage.move st = some (⟨st.payload, st.type⟩, o1) ∧ o1.type = .empty := by
  obtain ⟨buf, ty⟩ := st
  cases ty <;> cases buf <;>
    simp_all [value_storage.move, value_storage.well_formed, value_storage.payload,
      value_storage.value, value_storage.exception, value_storage.error]

/-- Moving the storage obtained by a move yields the same tag and payload again. -/
theorem value_storage.move_payload (st : value_storage R) (hty : st.type ≠ .future)
    (hwf : st.well_formed = true) :
    ∃ o1, value_storage.move (⟨st.payload, st.type⟩ : value_storage R)
      = some (⟨st.payload, st.type⟩, o1) ∧ o1.type = .empty := by
  obtain ⟨buf, ty⟩ := st
  cases ty <;> cases buf <;>
    simp_all [value_storage.move, value_storage.well_formed, value_storage.payload,
      value_storage.value, value_storage.exception, value_storage.error]

/-- Resetting an `empty` storage changes nothing. -/
theorem value_storage.reset_empty (st : value_storage R) (h : st.type = .empty) :
    st.reset = st := by
  simp [value_storage.reset, h]

/-- On a promise that is not tagged `future`, `get_future()` returns a future linked to
it that holds what the promise held. -/
theorem promise.get_future_unlinked (s : Heap R) (p tmp dst : Addr) (P : promise R)
    (hp : s.promises p = some P) (htag : P._storage.type ≠ .future)
    (hwf : P._storage.well_formed = true)
    (hlock : P._need_locks = true → P._lock = .unlocked) (hne : tmp ≠ dst) :
    ∃ s1 P1 F1, promise.get_future s p tmp dst = .done () s1 ∧
      linked_pair s1 p dst P1 F1 ∧
      F1._storage.type = P._storage.type ∧ F1._storage.payload = P._storage.payload := by
  obtain ⟨o1, hm1, ho1⟩ := value_storage.move_well_formed P._storage htag hwf
  obtain ⟨o2, hm2, ho2⟩ := value_storage.move_payload P._storage htag hwf
  have hpay : (⟨P._storage.payload, P._storage.type⟩ : value_storage R).payload
      = P._storage.payload := by
    simp only [value_storage.payload]; split <;> simp_all
  cases hnl : P._need_locks
  · simp [promise.get_future, lock_guard.of_promise, Step.and_then, hp, hnl, htag,
      Heap.put_promise, Heap.put_future, Heap.map_promise, Heap.map_future,
      lock_guard.release, lock_guard.unlock, lock_guard.unlock_f,
      future.of_promise, value_storage.take, hm1, hm2, ho2,
      future.move_ctor, lock_guard.of_future, value_storage.move_assign,
      future.dtor, value_storage.reset_empty, Heap.del_future, value_storage.init, hne,
      hne.symm]
    exact ⟨⟨true, .unlocked, ⟨.future_ (some dst), .future⟩⟩,
      ⟨.unlocked, ⟨P._storage.payload, P._storage.type⟩, some p⟩,
      ⟨by simp, by simp [hne.symm], rfl, rfl, rfl, rfl, rfl⟩, rfl, hpay⟩
  · simp [promise.get_future, lock_guard.of_promise, Step.and_then, hp, hnl, htag, hlock hnl,
      Heap.put_promise, Heap.put_future, Heap.map_promise, Heap.map_future,
      lock_guard.release, lock_guard.unlock, lock_guard.unlock_f,
      future.of_promise, value_storage.take, hm1, hm2, ho2,
      future.move_ctor, lock_guard.of_future, value_storage.move_assign,
      future.dtor, value_storage.reset_empty, Heap.del_future, value_storage.init, hne,
      hne.symm]
    exact ⟨⟨true, .unlocked, ⟨.future_ (some dst), .future⟩⟩,
      ⟨.unlocked, ⟨P._storage.payload, P._storage.type⟩, some p⟩,
      ⟨by simp, by simp [hne.symm], rfl, rfl, rfl, rfl, rfl⟩, rfl, hpay⟩

/-- A setter on a promise that is not tagged `future` acts on the own storage. -/
theorem promise.set_with_unlinked (set : value_storage R → Except exception_ptr (value_storage R))
    (nothrow : Bool) (s : Heap R) (p : Addr) (P : promise R)
    (hp : s.promises p = some P) (htag : P._storage.type ≠ .future)
    (hlock : P._need_locks = true → P._lock = .unlocked) :
    promise.set_with set nothrow s p =
      match set P._storage with
      | .ok st1 => .done () (s.put_promise p { P with _storage := st1 })
      | .error e => if nothrow then .terminate else .throws e s := by
  obtain ⟨nl, lk, st⟩ := P
  cases nl
  · cases hset : set st <;> cases nothrow <;>
      simp [promise.set_with, lock_guard.of_promise, Step.and_then, hp, hset,
        Heap.map_promise, Heap.put_promise, lock_guard.release, lock_guard.unlock]
  · have hl : lk = .unlocked := hlock rfl
    subst hl
    simp only at htag
    cases hset : set st <;> cases nothrow <;>
      simp [promise.set_with, lock_guard.of_promise, Step.and_then, hp, hset, htag,
        Heap.map_promise, Heap.put_promise, lock_guard.release, lock_guard.unlock,
        lock_guard.unlock_f]
    all_goals
      first
      | (apply Heap.eq_of_pointwise <;> intro x <;> dsimp only <;> split_ifs <;> simp_all)
      | (funext x; split_ifs <;> simp_all)

/-- A setter on a linked pair at rest acts on the storage of the future. -/
theorem promise.set_with_linked (set : value_storage R → Except exception_ptr (value_storage R))
    (nothrow : Bool) (s : Heap R) (p f : Addr) (P : promise R) (F : future R)
    (h : linked_pair s p f P F) :
    promise.set_with set nothrow s p =
      match set F._storage with
      | .ok st1 => .done () (s.put_future f { F with _storage := st1 })
      | .error e => if nothrow then .terminate else .throws e s := by
  obtain ⟨hp, hf, ht, hb, hn, hpl, hfl⟩ := h
  obtain ⟨nl, lk, st⟩ := P
  obtain ⟨flk, fst, fpr⟩ := F
  simp only at ht hb hn hpl hfl
  subst ht hb hn hpl hfl
  cases hset : set fst <;> cases nothrow <;>
    simp [promise.set_with, lock_guard.of_promise, Step.and_then, hp, hf, hset,
      Heap.map_promise, Heap.map_future, Heap.put_promise, Heap.put_future,
      lock_guard.release, lock_guard.unlock, lock_guard.unlock_f, value_storage.future_]
  all_goals
    first
    | (apply Heap.eq_of_pointwise <;> intro x <;> dsimp only <;> split_ifs <;> simp_all)
    | (constructor <;> funext x <;> split_ifs <;> simp_all)

/-- On a linked pair at rest `get_future()` throws `future_already_retrieved` and gives
the heap back as it was. -/
theorem promise.get_future_linked (s : Heap R) (p f tmp dst : Addr) (P : promise R)
    (F : future R) (h : linked_pair s p f P F) :
    promise.get_future s p tmp dst = .throws (.future_error .future_already_retrieved) s := by
  obtain ⟨hp, hf, ht, hb, hn, hpl, hfl⟩ := h
  obtain ⟨nl, lk, st⟩ := P
  obtain ⟨flk, fst, fpr⟩ := F
  simp only at ht hb hn hpl hfl
  subst ht hb hn hpl hfl
  simp [promise.get_future, lock_guard.of_promise, Step.and_then, hp, hf,
    Heap.put_promise, Heap.put_future,
    lock_guard.release, lock_guard.unlock, lock_guard.unlock_f, value_storage.future_]
  apply Heap.eq_of_pointwise <;> intro x <;> dsimp only <;> split_ifs <;> simp_all

/-- One setter call on a promise at rest: it returns only if nothing was set before, and
then something is set; otherwise it is refused and the heap is as before. -/
theorem promise.set_with_step (set : value_storage R → Except exception_ptr (value_storage R))
    (mk : value_storage R) (hmk1 : mk.type ≠ .empty) (hmk2 : mk.type ≠ .future)
    (hmk3 : mk.well_formed = true)
    (hset : ∀ st, set st = if st.type ≠ .empty then
      .error (.future_error .promise_already_satisfied) else .ok mk)
    (nothrow : Bool) (s : Heap R) (p : Addr) (hok : promise_at_rest s p) :
    match promise.set_with set nothrow s p with
    | .done _ s1 => promise_at_rest s1 p ∧ ¬ satisfied s p ∧ satisfied s1 p ∧
        (has_consumer s1 p ↔ has_consumer s p)
    | .throws e s1 => s1 = s ∧ satisfied s p ∧ e = .future_error .promise_already_satisfied
    | .terminate => satisfied s p
    | .spins => False
    | .fault => False := by
  obtain ⟨P, hp, hP | ⟨f, F, h⟩⟩ := hok
  · obtain ⟨htag, hwf, hlock⟩ := hP
    rw [promise.set_with_unlinked set nothrow s p P hp htag hlock, hset]
    by_cases he : P._storage.type = .empty
    · simp [he, promise_at_rest, satisfied, authoritative, has_consumer, hp, Heap.put_promise,
        hmk1, hmk2, hmk3]
      exact Or.inl hlock
    · cases nothrow <;> simp [he, satisfied, authoritative, hp, htag]
  · rw [promise.set_with_linked set nothrow s p f P F h, hset]
    have hp := h.at_p
    have hf := h.at_f
    have ht := h.tag
    by_cases he : F._storage.type = .empty
    · simp [he, promise_at_rest, satisfied, authoritative, has_consumer, hp, hf, ht,
        Heap.put_promise, Heap.put_future, hmk1, value_storage.future_]
      exact ⟨f, { F with _storage := mk }, ⟨hp, by simp, ht, h.back, h.need, h.p_free, h.f_free⟩⟩
    · cases nothrow <;>
        simp [he, satisfied, authoritative, hp, hf, ht, value_storage.future_]

/-- One call on a promise at rest. A call that returns leaves the promise at rest; a call
of kind `k` returns only if not blocked and blocks afterwards, a call of the other kind
keeps the blocking as it is; a call that throws changes nothing; no call spins or
faults. -/
theorem promise_call.step (s : Heap R) (p : Addr) (c : promise_call R)
    (hok : promise_at_rest s p) (hc : c.proper) (k : Bool) :
    match c.run s p with
    | .done _ s1 => promise_at_rest s1 p ∧
        (if c.is_set = k then ¬ blocked k s p ∧ blocked k s1 p
          else (blocked k s1 p ↔ blocked k s p))
    | .throws _ s1 => s1 = s ∧ (c.is_set = k → refused k (c.run s p))
    | .terminate => c.is_set = k → refused k (c.run s p)
    | .spins => False
    | .fault => False := by
  cases c with
  | set_value nothrow v =>
    have := promise.set_with_step (fun st => st.set_value v) ⟨.value v, .value⟩
      (by simp) (by simp) rfl (fun st => rfl) nothrow s p hok
    simp only [promise_call.run, promise.set_value]
    cases hr : promise.set_with (fun st => st.set_value v) nothrow s p <;>
      cases k <;> simp_all [promise_call.is_set, blocked, refused]
  | set_exception e =>
    have := promise.set_with_step (fun st => st.set_exception e) ⟨.exception e, .exception⟩
      (by simp) (by simp) rfl (fun st => rfl) true s p hok
    simp only [promise_call.run, promise.set_exception]
    cases hr : promise.set_with (fun st => st.set_exception e) true s p <;>
      cases k <;> simp_all [promise_call.is_set, blocked, refused]
  | set_error e =>
    have := promise.set_with_step (fun st => st.set_error e) ⟨.error e, .error⟩
      (by simp) (by simp) rfl (fun st => rfl) true s p hok
    simp only [promise_call.run, promise.set_error]
    cases hr : promise.set_with (fun st => st.set_error e) true s p <;>
      cases k <;> simp_all [promise_call.is_set, blocked, refused]
  | get_future tmp dst =>
    simp only [promise_call.run]
    obtain ⟨P, hp, ⟨htag, hwf, hlock⟩ | ⟨f, F, h⟩⟩ := hok
    · obtain ⟨s1, P1, F1, hrun, h1, hty, -⟩ :=
        promise.get_future_unlinked s p tmp dst P hp htag hwf hlock hc
      rw [hrun]
      refine ⟨⟨P1, h1.at_p, Or.inr ⟨dst, F1, h1⟩⟩, ?_⟩
      cases k
      · simp [promise_call.is_set, blocked, has_consumer, hp, htag, h1.at_p, h1.tag]
      · simp [promise_call.is_set, blocked, satisfied, authoritative, hp, htag, h1.at_p,
          h1.at_f, h1.tag, value_storage.future_, hty]
    · rw [promise.get_future_linked s p f tmp dst P F h]
      cases k <;> simp [promise_call.is_set, refused]

/-- Once calls of kind `k` are blocked, every such call in the rest of the run is
refused. -/
theorem run_calls_blocked (k : Bool) (p : Addr) (cs : List (promise_call R)) :
    ∀ s : Heap R, promise_at_rest s p → blocked k s p → (∀ c ∈ cs, c.proper) →
      ∀ x ∈ run_calls s p cs, x.1.is_set = k → refused k x.2 := by
  induction cs with
  | nil => intro s _ _ _ x hx; simp [run_calls] at hx
  | cons c cs ih =>
    intro s hok hb hcs x hx hk
    have hstep := promise_call.step s p c hok (hcs c (List.mem_cons_self _ _)) k
    have hcs1 : ∀ c ∈ cs, c.proper := fun c hc => hcs c (List.mem_cons_of_mem _ hc)
    cases hr : c.run s p with
    | done r s1 =>
      rw [hr] at hstep
      simp only [run_calls, hr, List.mem_cons] at hx
      by_cases hck : c.is_set = k
      · simp [hck, hb] at hstep
      · simp only [hck, if_false] at hstep
        rcases hx with rfl | hx
        · exact absurd hk hck
        · exact ih s1 hstep.1 (hstep.2.mpr hb) hcs1 x hx hk
    | throws e s1 =>
      rw [hr] at hstep
      simp only [run_calls, hr, List.mem_cons] at hx
      obtain ⟨rfl, href⟩ := hstep
      rcases hx with rfl | hx
      · exact href hk
      · exact ih s1 hok hb hcs1 x hx hk
    | terminate =>
      rw [hr] at hstep
      simp only [run_calls, hr, List.mem_singleton] at hx
      subst hx
      exact hstep hk
    | spins => rw [hr] at hstep; exact hstep.elim
    | fault => rw [hr] at hstep; exact hstep.elim

/-- After a call of kind `k` that returned, every later call of kind `k` is refused. -/
theorem run_calls_after_first (k : Bool) (p : Addr) (cs : List (promise_call R)) :
    ∀ s : Heap R, promise_at_rest s p → (∀ c ∈ cs, c.proper) →
      ∀ pre c r post, run_calls s p cs = pre ++ (c, r) :: post → c.is_set = k →
        r.is_done = true → ∀ x ∈ post, x.1.is_set = k → refused k x.2 := by
  induction cs with
  | nil => intro s _ _ pre c r post h; simp [run_calls] at h
  | cons c0 cs ih =>
    intro s hok hcs pre c r post h hk hd x hx hxk
    have hstep := promise_call.step s p c0 hok (hcs c0 (List.mem_cons_self _ _)) k
    have hcs1 : ∀ c ∈ cs, c.proper := fun c hc => hcs c (List.mem_cons_of_mem _ hc)
    cases hr : c0.run s p with
    | done r0 s1 =>
      rw [hr] at hstep
      simp only [run_calls, hr] at h
      cases pre with
      | nil =>
        simp only [List.nil_append, List.cons.injEq, Prod.mk.injEq] at h
        obtain ⟨⟨rfl, rfl⟩, rfl⟩ := h
        simp only [hk, if_true] at hstep
        exact run_calls_blocked k p cs s1 hstep.1 hstep.2.2 hcs1 x hx hxk
      | cons y pre =>
        simp only [List.cons_append, List.cons.injEq] at h
        exact ih s1 hstep.1 hcs1 pre c r post h.2 hk hd x hx hxk
    | throws e s1 =>
      rw [hr] at hstep
      simp only [run_calls, hr] at h
      obtain ⟨rfl, -⟩ := hstep
      cases pre with
      | nil =>
        simp only [List.nil_append, List.cons.injEq, Prod.mk.injEq] at h
        obtain ⟨⟨rfl, rfl⟩, rfl⟩ := h
        simp [Step.is_done] at hd
      | cons y pre =>
        simp only [List.cons_append, List.cons.injEq] at h
        exact ih s1 hok hcs1 pre c r post h.2 hk hd x hx hxk
    | terminate =>
      simp only [run_calls, hr] at h
      cases pre with
      | nil =>
        simp only [List.nil_append, List.cons.injEq, Prod.mk.injEq] at h
        obtain ⟨⟨rfl, rfl⟩, rfl⟩ := h
        simp [Step.is_done] at hd
      | cons y pre =>
        simp at h
    | spins => rw [hr] at hstep; exact hstep.elim
    | fault => rw [hr] at hstep; exact hstep.elim

/-- A refused call did not return. -/
theorem refused_not_done (k : Bool) (r : Step Unit (Heap R)) (h : refused k r) :
    r.is_done = false := by
  cases k
  · obtain ⟨s1, rfl⟩ := h; rfl
  · rcases h with rfl | ⟨s1, rfl⟩ <;> rfl

/-- At most one call of kind `k` returns in a run. -/
theorem run_calls_count (k : Bool) (p : Addr) (cs : List (promise_call R)) :
    ∀ s : Heap R, promise_at_rest s p → (∀ c ∈ cs, c.proper) →
      (run_calls s p cs).countP (fun x => x.1.is_set == k && x.2.is_done) ≤ 1 := by
  induction cs with
  | nil => intro s _ _; simp [run_calls]
  | cons c cs ih =>
    intro s hok hcs
    have hstep := promise_call.step s p c hok (hcs c (List.mem_cons_self _ _)) k
    have hcs1 : ∀ c ∈ cs, c.proper := fun c hc => hcs c (List.mem_cons_of_mem _ hc)
    cases hr : c.run s p with
    | done r s1 =>
      rw [hr] at hstep
      simp only [run_calls, hr, List.countP_cons]
      by_cases hck : c.is_set = k
      · simp only [hck, if_true] at hstep
        have h0 : (run_calls s1 p cs).countP (fun x => x.1.is_set == k && x.2.is_done) = 0 := by
          rw [List.countP_eq_zero]
          intro x hx
          by_cases hxk : x.1.is_set = k
          · have := refused_not_done k x.2
              (run_calls_blocked k p cs s1 hstep.1 hstep.2.2 hcs1 x hx hxk)
            simp [this]
          · simp [hxk]
        rw [h0]
        split <;> simp
      · have := ih s1 hstep.1 hcs1
        simp [hck, this]
    | throws e s1 =>
      rw [hr] at hstep
      obtain ⟨rfl, -⟩ := hstep
      have := ih s1 hok hcs1
      simp only [run_calls, hr, List.countP_cons]
      simpa [Step.is_done] using this
    | terminate => simp [run_calls, hr, List.countP_cons, Step.is_done]
    | spins => rw [hr] at hstep; exact hstep.elim
    | fault => rw [hr] at hstep; exact hstep.elim

/-- The heaps `ready_pair` are what the setters build from `pending_pair`. -/
theorem ready_pair_reached (v : Nat) (c : error_code) (e : exception_ptr) (nothrow : Bool) :
    promise.set_value nothrow pending_pair 1 v = .done () (ready_pair ⟨.value v, .value⟩) ∧
    promise.set_error pending_pair 1 c = .done () (ready_pair ⟨.error c, .error⟩) ∧
    promise.set_exception pending_pair 1 e
      = .done () (ready_pair ⟨.exception e, .exception⟩) := by
  have h : linked_pair pending_pair 1 11 ⟨true, .unlocked, ⟨.future_ (some 11), .future⟩⟩
      ⟨.unlocked, ⟨.raw, .empty⟩, some 1⟩ := ⟨rfl, rfl, rfl, rfl, rfl, rfl, rfl⟩
  refine ⟨?_, ?_, ?_⟩
  all_goals
    simp only [promise.set_value, promise.set_error, promise.set_exception,
      promise.set_with_linked _ _ _ _ _ _ _ h]
    simp [value_storage.set_value, value_storage.set_error, value_storage.set_exception,
      ready_pair, pending_pair, Heap.put_future, Heap.put_promise, Heap.empty]
    funext x; split_ifs <;> rfl

/-- The heap `pending_pair` with a fresh promise at 2 is link consistent. -/
theorem pending_pair_consistent : link_consistent (promise.ctor pending_pair 2) := by
  intro p f P F hp hf
  simp only [promise.ctor, pending_pair, Heap.put_promise, Heap.put_future, Heap.empty] at hp hf
  split_ifs at hp hf with h1 h2 h3 <;> simp_all [value_storage.init, value_storage.future_]
  all_goals (subst_vars; simp_all)

/-- C4. Link consistency is broken by `promise::swap`: swapping a fresh promise at `q`
with the promise of a linked pair at rest returns normally; `value_storage::swap` switches
on the tag of `this` (`empty`) and exchanges nothing, the tags stay, yet the future is
re-pointed to `q`. Afterwards the promise at `p` is still tagged `future` with pointer `f`
while `f` points to `q`, whose tag is `empty`. -/
theorem swap_breaks_link (s : Heap R) (p f q : Addr) (P : promise R) (F : future R)
    (h : linked_pair s p f P F) (hq : q ≠ p) :
    ∃ s1, promise.swap (promise.ctor s q) q p = .done () s1 ∧
      s1.promises p = some P ∧
      s1.promises q = some ⟨false, .unconstructed, value_storage.init⟩ ∧
      s1.futures f = some { F with _promise := some q } ∧
      ¬ link_consistent s1 := by
  obtain ⟨hp, hf, ht, hb, hn, hpl, hfl⟩ := h
  obtain ⟨nl, lk, st⟩ := P
  obtain ⟨flk, fst, fpr⟩ := F
  simp only at ht hb hn hpl hfl
  subst ht hb hn hpl hfl
  have hq2 : p ≠ q := fun h => hq h.symm
  simp [promise.swap, promise.ctor, lock_guard.of_promise, Step.and_then, hp, hf, hq, hq2,
    Heap.put_promise, Heap.put_future, Heap.map_promise, Heap.map_future,
    value_storage.init, value_storage.swap, value_storage.future_,
    lock_guard.release, lock_guard.unlock, lock_guard.unlock_f, link_consistent]
  exact ⟨q, f, by simp [hq, value_storage.init]⟩

/-- Witness of C4: from `pending_pair` (promise 1, future 11) and a fresh promise at 2,
a link-consistent heap, `swap` leads to a heap that is not link consistent. -/
theorem swap_breaks_link_witness :
    link_consistent (promise.ctor pending_pair 2) ∧
    ∃ s1, promise.swap (promise.ctor pending_pair 2) 2 1 = .done () s1 ∧
      s1.promises 1 = some ⟨true, .unlocked, ⟨.future_ (some 11), .future⟩⟩ ∧
      s1.promises 2 = some ⟨false, .unconstructed, value_storage.init⟩ ∧
      s1.futures 11 = some ⟨.unlocked, ⟨.raw, .empty⟩, some 2⟩ ∧
      ¬ link_consistent s1 :=
  ⟨pending_pair_consistent,
    swap_breaks_link pending_pair 1 11 2 ⟨true, .unlocked, ⟨.future_ (some 11), .future⟩⟩
      ⟨.unlocked, ⟨.raw, .empty⟩, some 1⟩ ⟨rfl, rfl, rfl, rfl, rfl, rfl, rfl⟩ (by decide)⟩

/-- Counterexample to C9 as stated: the promise at 1 holds 1 before its future is
created at 11. The second `get_future()` is rejected, but the following `set_value(2)` is
refused (`promise_already_satisfied`, or `std::terminate` under `noexcept(true)`) and
`get()` returns 1, not 2. -/
theorem set_after_rejected_get_future_refused :
    ∃ s1 s2 s3 s4 s5,
      promise.set_value true (promise.ctor (Heap.empty : Heap Nat) 1) 1 1 = .done () s1 ∧
      promise.get_future s1 1 10 11 = .done () s2 ∧
      promise.get_future s2 1 20 21 =
        .throws (.future_error .future_already_retrieved) s3 ∧
      promise.set_value true s3 1 2 = .terminate ∧
      promise.set_value false s3 1 2 =
        .throws (.future_error .promise_already_satisfied) s4 ∧
      future.get s4 11 = .done 1 s5 := by
  simp [promise.set_value, promise.set_with, promise.ctor, lock_guard.of_promise, Step.and_then,
    Heap.put_promise, Heap.put_future, Heap.map_promise, Heap.map_future, value_storage.set_value,
    value_storage.init, lock_guard.release, lock_guard.unlock, lock_guard.unlock_f,
    promise.get_future, future.of_promise, value_storage.take, value_storage.move,
    value_storage.value, future.move_ctor, lock_guard.of_future, value_storage.move_assign,
    future.dtor, value_storage.reset, Heap.del_future, future.get, future.wait, future.valid,
    future.is_ready, future.pending_exception, future.has_error, future.has_exception,
    future.consume, value_storage.future_, Heap.empty]

/-- C9 (amended). On a linked pair at rest `get_future()` throws
`future_already_retrieved` and leaves the heap exactly as it was; if moreover the future is
still pending (storage `empty`), then for every `v` a following `set_value(v)` returns and
the `get()` after it returns `v`. -/
theorem second_get_future_rejected (s : Heap R) (p f tmp dst : Addr) (P : promise R)
    (F : future R) (h : linked_pair s p f P F) :
    promise.get_future s p tmp dst = .throws (.future_error .future_already_retrieved) s ∧
    (F._storage.type = .empty → ∀ (v : R) (nothrow : Bool), ∃ s1 s2,
      promise.set_value nothrow s p v = .done () s1 ∧ future.get s1 f = .done v s2) := by
  refine ⟨promise.get_future_linked s p f tmp dst P F h, ?_⟩
  intro he v nothrow
  rw [promise.set_value, promise.set_with_linked _ nothrow s p f P F h]
  obtain ⟨hp, hf, ht, hb, hn, hpl, hfl⟩ := h
  obtain ⟨nl, lk, st⟩ := P
  obtain ⟨flk, fst, fpr⟩ := F
  simp only at ht hb hn hpl hfl he
  subst ht hb hn hpl hfl
  simp [value_storage.set_value, he, future.get, future.wait, future.valid, future.is_ready,
    Step.and_then, lock_guard.of_future, hp, hf,
    Heap.put_promise, Heap.put_future, Heap.map_promise, Heap.map_future,
    future.pending_exception, future.has_error, future.has_exception,
    value_storage.value, future.consume, lock_guard.release,
    lock_guard.unlock, lock_guard.unlock_f, value_storage.reset]

/-- Witness of C9 (amended) on `pending_pair`. -/
theorem second_get_future_rejected_witness :
    promise.get_future pending_pair 1 20 21 =
        .throws (.future_error .future_already_retrieved) pending_pair ∧
    ((⟨.raw, .empty⟩ : value_storage Nat).type = .empty → ∀ (v : Nat) (nothrow : Bool),
      ∃ s1 s2, promise.set_value nothrow pending_pair 1 v = .done () s1 ∧
        future.get s1 11 = .done v s2) :=
  second_get_future_rejected pending_pair 1 11 20 21
    ⟨true, .unlocked, ⟨.future_ (some 11), .future⟩⟩ ⟨.unlocked, ⟨.raw, .empty⟩, some 1⟩
    ⟨rfl, rfl, rfl, rfl, rfl, rfl, rfl⟩

/-- The run of `sample_calls` on a fresh promise: which calls are setters and which
return. The first setter and the first `get_future` return, the later ones do not. -/
theorem sample_run_shape :
    (run_calls (promise.ctor (Heap.empty : Heap Nat) 1) 1 sample_calls).map
      (fun x => (x.1.is_set, x.2.is_done)) =
      [(true, true), (false, true), (true, false), (false, false), (true, false)] := by
  simp [run_calls, sample_calls, promise_call.run, promise_call.is_set, Step.is_done,
    promise.set_value, promise.set_error, promise.set_with, promise.ctor,
    lock_guard.of_promise, Step.and_then,
    Heap.put_promise, Heap.put_future, Heap.map_promise, Heap.map_future, value_storage.set_value,
    value_storage.set_error,
    value_storage.init, lock_guard.release, lock_guard.unlock, lock_guard.unlock_f,
    promise.get_future, future.of_promise, value_storage.take, value_storage.move,
    value_storage.value, future.move_ctor, lock_guard.of_future, value_storage.move_assign,
    future.dtor, value_storage.reset, Heap.del_future, value_storage.future_, Heap.empty]

/-- Counterexample to C3 as stated: after `get_future()`, `set_value(42)` and `get()`
(which resets the storage of the promise), a second `set_value(43)` on the same promise
returns normally. -/
theorem set_value_succeeds_twice :
    ∃ s1 s2 s3 s4,
      promise.get_future (promise.ctor (Heap.empty : Heap Nat) 1) 1 10 11 = .done () s1 ∧
      promise.set_value true s1 1 42 = .done () s2 ∧
      future.get s2 11 = .done 42 s3 ∧
      promise.set_value true s3 1 43 = .done () s4 := by
  simp [promise.set_value, promise.set_with, promise.ctor, lock_guard.of_promise, Step.and_then,
    Heap.put_promise, Heap.put_future, Heap.map_promise, Heap.map_future, value_storage.set_value,
    value_storage.init, lock_guard.release, lock_guard.unlock, lock_guard.unlock_f,
    promise.get_future, future.of_promise, value_storage.take, value_storage.move,
    value_storage.value, future.move_ctor, lock_guard.of_future, value_storage.move_assign,
    future.dtor, value_storage.reset, Heap.del_future, future.get, future.wait, future.valid,
    future.is_ready, future.pending_exception, future.has_error, future.has_exception,
    future.consume, value_storage.future_, Heap.empty]

/-- C3 (amended). Single assignment between retrievals: in every run of `set_value`,
`set_exception`, `set_error` and `get_future` calls on a promise at rest, at most one
setter returns normally, and every setter called after one that returned fails: what it
throws is `promise_already_satisfied`, unless the exception cannot leave the member
(`noexcept(true)`) and the call ends in `std::terminate`. -/
theorem single_assignment_between_retrievals (s : Heap R) (p : Addr)
    (cs : List (promise_call R)) (hok : promise_at_rest s p) (hcs : ∀ c ∈ cs, c.proper) :
    (run_calls s p cs).countP (fun x => x.1.is_set && x.2.is_done) ≤ 1 ∧
    ∀ pre c r post, run_calls s p cs = pre ++ (c, r) :: post → c.is_set = true →
      r.is_done = true → ∀ x ∈ post, x.1.is_set = true →
        x.2 = .terminate ∨
          ∃ s1, x.2 = .throws (.future_error .promise_already_satisfied) s1 := by
  refine ⟨?_, ?_⟩
  · simpa using run_calls_count true p cs s hok hcs
  · intro pre c r post h hc hd x hx hxk
    simpa [refused] using run_calls_after_first true p cs s hok hcs pre c r post h hc hd x hx hxk

/-- Witness of C3 (amended): `sample_calls` on a fresh promise at 1. -/
theorem single_assignment_between_retrievals_witness :
    (run_calls (promise.ctor (Heap.empty : Heap Nat) 1) 1 sample_calls).countP
        (fun x => x.1.is_set && x.2.is_done) ≤ 1 ∧
    ∀ pre c r post,
      run_calls (promise.ctor (Heap.empty : Heap Nat) 1) 1 sample_calls
        = pre ++ (c, r) :: post → c.is_set = true →
      r.is_done = true → ∀ x ∈ post, x.1.is_set = true →
        x.2 = .terminate ∨
          ∃ s1, x.2 = .throws (.future_error .promise_already_satisfied) s1 :=
  single_assignment_between_retrievals (promise.ctor Heap.empty 1) 1 sample_calls
    ⟨_, rfl, Or.inl ⟨by decide, rfl, by intro h; cases h⟩⟩
    (by simp [sample_calls, promise_call.proper])

/-- Counterexample to C10 as stated: once the first future has retrieved the result with
`get()`, a second `get_future()` on the same promise returns normally. -/
theorem get_future_succeeds_twice :
    ∃ s1 s2 s3 s4,
      promise.get_future (promise.ctor (Heap.empty : Heap Nat) 1) 1 10 11 = .done () s1 ∧
      promise.set_value true s1 1 42 = .done () s2 ∧
      future.get s2 11 = .done 42 s3 ∧
      promise.get_future s3 1 20 21 = .done () s4 := by
  simp [promise.set_value, promise.set_with, promise.ctor, lock_guard.of_promise, Step.and_then,
    Heap.put_promise, Heap.put_future, Heap.map_promise, Heap.map_future, value_storage.set_value,
    value_storage.init, lock_guard.release, lock_guard.unlock, lock_guard.unlock_f,
    promise.get_future, future.of_promise, value_storage.take, value_storage.move,
    value_storage.value, future.move_ctor, lock_guard.of_future, value_storage.move_assign,
    future.dtor, value_storage.reset, Heap.del_future, future.get, future.wait, future.valid,
    future.is_ready, future.pending_exception, future.has_error, future.has_exception,
    future.consume, value_storage.future_, Heap.empty]

/-- C10 (amended). At most one future at a time: in every run of `get_future` and setter
calls on a promise at rest (the future, once handed out, is neither read with a
retrieval nor destroyed), at most one `get_future()` returns normally and every
`get_future()` called after it throws `future_already_retrieved`. -/
theorem one_future_while_linked (s : Heap R) (p : Addr)
    (cs : List (promise_call R)) (hok : promise_at_rest s p) (hcs : ∀ c ∈ cs, c.proper) :
    (run_calls s p cs).countP (fun x => !x.1.is_set && x.2.is_done) ≤ 1 ∧
    ∀ pre c r post, run_calls s p cs = pre ++ (c, r) :: post → c.is_set = false →
      r.is_done = true → ∀ x ∈ post, x.1.is_set = false →
        ∃ s1, x.2 = .throws (.future_error .future_already_retrieved) s1 := by
  refine ⟨?_, ?_⟩
  · simpa using run_calls_count false p cs s hok hcs
  · intro pre c r post h hc hd x hx hxk
    simpa [refused] using
      run_calls_after_first false p cs s hok hcs pre c r post h hc hd x hx hxk

/-- Witness of C10 (amended): `sample_calls` on a fresh promise at 1. -/
theorem one_future_while_linked_witness :
    (run_calls (promise.ctor (Heap.empty : Heap Nat) 1) 1 sample_calls).countP
        (fun x => !x.1.is_set && x.2.is_done) ≤ 1 ∧
    ∀ pre c r post,
      run_calls (promise.ctor (Heap.empty : Heap Nat) 1) 1 sample_calls
        = pre ++ (c, r) :: post → c.is_set = false →
      r.is_done = true → ∀ x ∈ post, x.1.is_set = false →
        ∃ s1, x.2 = .throws (.future_error .future_already_retrieved) s1 :=
  one_future_while_linked (promise.ctor Heap.empty 1) 1 sample_calls
    ⟨_, rfl, Or.inl ⟨by decide, rfl, by intro h; cases h⟩⟩
    (by simp [sample_calls, promise_call.proper])

/-- The heap `two_pairs` is what two `get_future` calls build from two fresh promises. -/
theorem two_pairs_reached :
    ∃ s1, promise.get_future
        (promise.ctor (promise.ctor (Heap.empty : Heap Nat) 1) 2) 1 10 11 = .done () s1 ∧
      promise.get_future s1 2 20 21 = .done () two_pairs := by
  simp [promise.ctor, lock_guard.of_promise, Step.and_then,
    Heap.put_promise, Heap.put_future, Heap.map_promise, Heap.map_future,
    value_storage.init, lock_guard.release, lock_guard.unlock, lock_guard.unlock_f,
    promise.get_future, future.of_promise, value_storage.take, value_storage.move,
    future.move_ctor, lock_guard.of_future, value_storage.move_assign,
    future.dtor, value_storage.reset, Heap.del_future, two_pairs, Heap.empty]
  constructor <;> funext x <;> split_ifs <;> first | rfl | simp_all

/-- C11. Moving a linked promise: the source becomes `empty`, the new promise at `q` is
tagged `future` with pointer `f` and the future points to `q`, as claimed. But the move
constructor copies `_need_locks` (true) and never constructs the lock of the new promise,
so the next guard on it (`set_value`, even the destructor) calls `lock()` on a lock that
does not exist, and a `get()` on the future try-locks it: the result cannot be completed
through the new promise. -/
theorem move_ctor_leaves_lock_unconstructed (s : Heap R) (p f q : Addr) (P : promise R)
    (F : future R) (h : linked_pair s p f P F) (hq : q ≠ p) :
    ∃ s1, promise.move_ctor s q p = .done () s1 ∧
      s1.promises p = some ⟨true, .unlocked, ⟨.future_ none, .empty⟩⟩ ∧
      s1.promises q = some ⟨true, .unconstructed, ⟨.future_ (some f), .future⟩⟩ ∧
      s1.futures f = some { F with _promise := some q } ∧
      (∀ (nothrow : Bool) (v : R), promise.set_value nothrow s1 q v = .fault) ∧
      promise.dtor s1 q = .fault ∧
      (F._storage.type ≠ .empty → future.get s1 f = .fault) := by
  obtain ⟨hp, hf, ht, hb, hn, hpl, hfl⟩ := h
  obtain ⟨nl, lk, st⟩ := P
  obtain ⟨flk, fst, fpr⟩ := F
  simp only at ht hb hn hpl hfl
  subst ht hb hn hpl hfl
  have hq2 : p ≠ q := fun h => hq h.symm
  simp [promise.move_ctor, lock_guard.of_promise, Step.and_then, hp, hf, hq, hq2,
    value_storage.future_, value_storage.move_assign, value_storage.move, value_storage.init,
    Heap.put_promise, Heap.put_future,
    Heap.map_promise, Heap.map_future, lock_guard.release, lock_guard.unlock,
    lock_guard.unlock_f, value_storage.reset, promise.set_value, promise.set_with,
    promise.dtor, promise.dtor_body]
  intro hne
  simp [future.get, future.wait, future.valid, future.is_ready, lock_guard.of_future,
    Step.and_then, hq, hq2, hne]

/-- Witness of C11: `pending_pair` (promise 1, future 11) moved to a promise at 2. -/
theorem move_ctor_leaves_lock_unconstructed_witness :
    ∃ s1, promise.move_ctor pending_pair 2 1 = .done () s1 ∧
      s1.promises 2 = some ⟨true, .unconstructed, ⟨.future_ (some 11), .future⟩⟩ ∧
      promise.set_value true s1 2 42 = .fault := by
  obtain ⟨s1, h, -, hq, -, hset, -⟩ := move_ctor_leaves_lock_unconstructed pending_pair 1 11 2
    ⟨true, .unlocked, ⟨.future_ (some 11), .future⟩⟩ ⟨.unlocked, ⟨.raw, .empty⟩, some 1⟩
    ⟨rfl, rfl, rfl, rfl, rfl, rfl, rfl⟩ (by decide)
  exact ⟨s1, h, hq, hset true 42⟩

/-- Swapping two distinct linked promises whose futures are pending (the parameter
of `value_storage::swap` read as the other storage): the call returns, promise `p1` is
linked to `f2` and `p2` to `f1`, both pairs at rest, and `set_value(a)` on `p1`,
`set_value(b)` on `p2` are returned by `get()` on `f2` and on `f1`. -/
theorem promise.swap_linked (s : Heap R) (p1 f1 p2 f2 : Addr)
    (P1 P2 : promise R) (F1 F2 : future R)
    (h1 : linked_pair s p1 f1 P1 F1) (h2 : linked_pair s p2 f2 P2 F2) (hp : p1 ≠ p2)
    (he1 : F1._storage.type = .empty) (he2 : F2._storage.type = .empty) :
    ∃ s1, promise.swap s p1 p2 = .done () s1 ∧
      linked_pair s1 p1 f2 { P1 with _storage := ⟨.future_ (some f2), .future⟩ }
        { F2 with _promise := some p1 } ∧
      linked_pair s1 p2 f1 { P2 with _storage := ⟨.future_ (some f1), .future⟩ }
        { F1 with _promise := some p2 } ∧
      ∀ (a b : R) (nothrow : Bool), ∃ s2 s3 s4 s5,
        promise.set_value nothrow s1 p1 a = .done () s2 ∧
        promise.set_value nothrow s2 p2 b = .done () s3 ∧
        future.get s3 f2 = .done a s4 ∧ future.get s4 f1 = .done b s5 := by
  have hf : f1 ≠ f2 := by
    rintro rfl
    have := h1.at_f.symm.trans h2.at_f
    simp only [Option.some.injEq] at this
    subst this
    exact hp (Option.some.inj (h1.back.symm.trans h2.back))
  obtain ⟨hp1, hf1, ht1, hb1, hn1, hpl1, hfl1⟩ := h1
  obtain ⟨hp2, hf2, ht2, hb2, hn2, hpl2, hfl2⟩ := h2
  obtain ⟨nl1, lk1, st1⟩ := P1
  obtain ⟨flk1, fst1, fpr1⟩ := F1
  obtain ⟨nl2, lk2, st2⟩ := P2
  obtain ⟨flk2, fst2, fpr2⟩ := F2
  simp only at ht1 hb1 hn1 hpl1 hfl1 ht2 hb2 hn2 hpl2 hfl2 he1 he2
  subst ht1 hb1 hn1 hpl1 hfl1 ht2 hb2 hn2 hpl2 hfl2
  simp [promise.swap, lock_guard.of_promise, Step.and_then, hp1, hf1, hp2, hf2, hp, hp.symm,
    hf, hf.symm, value_storage.swap, value_storage.future_,
    Heap.put_promise, Heap.put_future, Heap.map_promise, Heap.map_future,
    lock_guard.release, lock_guard.unlock, lock_guard.unlock_f]
  refine ⟨⟨by simp [hp], by simp [hf.symm], rfl, rfl, rfl, rfl, rfl⟩,
    ⟨by simp [hp.symm], by simp [hf], rfl, rfl, rfl, rfl, rfl⟩, ?_⟩
  intro a b
  constructor <;> simp [promise.set_value, promise.set_with, lock_guard.of_promise, Step.and_then, hp, hp.symm,
    hf, hf.symm, he1, he2, value_storage.set_value, value_storage.future_,
    Heap.put_promise, Heap.put_future, Heap.map_promise, Heap.map_future,
    lock_guard.release, lock_guard.unlock, lock_guard.unlock_f,
    future.get, future.wait, future.valid, future.is_ready, lock_guard.of_future,
    future.pending_exception, future.has_error, future.has_exception,
    value_storage.value, future.consume, value_storage.reset]

/-- C13. `future::swap` on two distinct linked futures (the first one pending) returns
and re-points the two promises crosswise, but the `_promise` members of the two futures
are not exchanged: promise `p1` now points to `f2` while `f2` still points to `p2`, and
`f1` still points to `p1`. The links are not consistent pairs afterwards. -/
theorem future_swap_keeps_back_references (s : Heap R) (p1 f1 p2 f2 : Addr)
    (P1 P2 : promise R) (F1 F2 : future R)
    (h1 : linked_pair s p1 f1 P1 F1) (h2 : linked_pair s p2 f2 P2 F2) (hp : p1 ≠ p2)
    (he : F1._storage.type = .empty) :
    ∃ s1, future.swap s f1 f2 = .done () s1 ∧
      s1.promises p1 = some { P1 with _storage := ⟨.future_ (some f2), .future⟩ } ∧
      s1.promises p2 = some { P2 with _storage := ⟨.future_ (some f1), .future⟩ } ∧
      s1.futures f1 = some F1 ∧ s1.futures f2 = some F2 ∧
      ¬ link_consistent s1 := by
  have hf : f1 ≠ f2 := by
    rintro rfl
    have := h1.at_f.symm.trans h2.at_f
    simp only [Option.some.injEq] at this
    subst this
    exact hp (Option.some.inj (h1.back.symm.trans h2.back))
  obtain ⟨hp1, hf1, ht1, hb1, hn1, hpl1, hfl1⟩ := h1
  obtain ⟨hp2, hf2, ht2, hb2, hn2, hpl2, hfl2⟩ := h2
  obtain ⟨nl1, lk1, st1⟩ := P1
  obtain ⟨flk1, fst1, fpr1⟩ := F1
  obtain ⟨nl2, lk2, st2⟩ := P2
  obtain ⟨flk2, fst2, fpr2⟩ := F2
  simp only at ht1 hb1 hn1 hpl1 hfl1 ht2 hb2 hn2 hpl2 hfl2 he
  subst ht1 hb1 hn1 hpl1 hfl1 ht2 hb2 hn2 hpl2 hfl2
  simp [future.swap, lock_guard.of_future, Step.and_then, hp1, hf1, hp2, hf2, hp, hp.symm,
    hf, hf.symm, he, value_storage.swap,
    Heap.put_promise, Heap.put_future, Heap.map_promise, Heap.map_future,
    lock_guard.release, lock_guard.unlock, lock_guard.unlock_f, link_consistent]
  exact ⟨p1, f1, by simp [hp, hp.symm, hf, hf.symm, value_storage.future_]⟩

/-- Witness of C13 on `two_pairs`. -/
theorem future_swap_keeps_back_references_witness :
    ∃ s1, future.swap two_pairs 11 21 = .done () s1 ∧
      s1.promises 1 = some ⟨true, .unlocked, ⟨.future_ (some 21), .future⟩⟩ ∧
      s1.futures 21 = some ⟨.unlocked, ⟨.raw, .empty⟩, some 2⟩ ∧
      ¬ link_consistent s1 := by
  obtain ⟨s1, h, h1, -, -, h2, hn⟩ := future_swap_keeps_back_references two_pairs 1 11 2 21
    ⟨true, .unlocked, ⟨.future_ (some 11), .future⟩⟩
    ⟨true, .unlocked, ⟨.future_ (some 21), .future⟩⟩
    ⟨.unlocked, ⟨.raw, .empty⟩, some 1⟩ ⟨.unlocked, ⟨.raw, .empty⟩, some 2⟩
    ⟨rfl, rfl, rfl, rfl, rfl, rfl, rfl⟩ ⟨rfl, rfl, rfl, rfl, rfl, rfl, rfl⟩ (by decide) rfl
  exact ⟨s1, h, h1, h2, hn⟩

/-- Destroying the promise of a linked pair at rest returns; the promise is gone,
the future has no promise any more, and its storage is `Exception(broken_promise)` if it
was `empty` and otherwise exactly what it was. -/
theorem promise.dtor_linked (s : Heap R) (p f : Addr) (P : promise R) (F : future R)
    (h : linked_pair s p f P F) :
    ∃ s1, promise.dtor s p = .done () s1 ∧ s1.promises p = none ∧
      s1.futures f = some
        { F with
          _storage := if F._storage.type = .empty then
              ⟨.exception (.future_error .broken_promise), .exception⟩
            else F._storage,
          _promise := none } := by
  obtain ⟨hp, hf, ht, hb, hn, hpl, hfl⟩ := h
  obtain ⟨nl, lk, st⟩ := P
  obtain ⟨flk, fst, fpr⟩ := F
  simp only at ht hb hn hpl hfl
  subst ht hb hn hpl hfl
  by_cases he : fst.type = .empty <;>
    simp [promise.dtor, promise.dtor_body, lock_guard.of_promise, Step.and_then, hp, hf, he,
      value_storage.future_, value_storage.set_exception, Heap.put_promise, Heap.put_future,
      Heap.map_promise, Heap.map_future, lock_guard.release, lock_guard.unlock,
      lock_guard.unlock_f, value_storage.reset, Heap.del_promise]

/-- C15. Each storage setter throws `promise_already_satisfied` exactly when the tag is
not `empty`, and the storage is then as it was; on an `empty` storage it returns and the
storage is exactly `Value v`, `Exception e` or `Error c`. -/
theorem storage_setters (st : value_storage R) (v : R) (e : exception_ptr) (c : error_code) :
    ((st.set_value v = .error (.future_error .promise_already_satisfied) ↔ st.type ≠ .empty) ∧
      (st.type ≠ .empty → st.after (st.set_value v) = st) ∧
      (st.type = .empty → st.set_value v = .ok ⟨.value v, .value⟩)) ∧
    ((st.set_exception e = .error (.future_error .promise_already_satisfied)
        ↔ st.type ≠ .empty) ∧
      (st.type ≠ .empty → st.after (st.set_exception e) = st) ∧
      (st.type = .empty → st.set_exception e = .ok ⟨.exception e, .exception⟩)) ∧
    ((st.set_error c = .error (.future_error .promise_already_satisfied) ↔ st.type ≠ .empty) ∧
      (st.type ≠ .empty → st.after (st.set_error c) = st) ∧
      (st.type = .empty → st.set_error c = .ok ⟨.error c, .error⟩)) := by
  by_cases h : st.type = .empty <;>
    simp [value_storage.set_value, value_storage.set_exception, value_storage.set_error,
      value_storage.after, h]

/-- C16. `value_storage::swap` never exchanges the tags: whatever it returns, both
storages keep their own tag; when the tag of `this` is `empty` nothing at all is
exchanged. With `this` empty and the other holding `Value 1` both are left as they were;
with `this` holding `Value 1` and the other empty the call reads a value that does not
exist. -/
theorem storage_swap_keeps_tags (a b : value_storage R) :
    (a.type = .empty → a.swap b = some (a, b)) ∧
    (∀ a1 b1, a.swap b = some (a1, b1) → a1.type = a.type ∧ b1.type = b.type) ∧
    (⟨.raw, .empty⟩ : value_storage Nat).swap ⟨.value 1, .value⟩
      = some (⟨.raw, .empty⟩, ⟨.value 1, .value⟩) ∧
    (⟨.value 1, .value⟩ : value_storage Nat).swap ⟨.raw, .empty⟩ = none := by
  refine ⟨?_, ?_, rfl, rfl⟩
  · intro h; simp [value_storage.swap, h]
  · intro a1 b1 h
    obtain ⟨ab, at_⟩ := a
    obtain ⟨bb, bt⟩ := b
    cases at_ <;> cases ab <;> cases bb <;>
      simp_all [value_storage.swap, value_storage.value, value_storage.exception,
        value_storage.error, value_storage.future_] <;>
      (obtain ⟨rfl, rfl⟩ := h; simp)

/-- What a completed `lock_guard(promise<R> *p)` found and locked. -/
theorem lock_guard.of_promise_done {s s1 : Heap R} {p : Addr} {h : lock_guard}
    (hd : lock_guard.of_promise s p = .done h s1) :
    (∃ lk st, s.promises p = some ⟨false, lk, st⟩ ∧ h = ⟨some p, none⟩ ∧ s1 = s) ∨
    (∃ st, s.promises p = some ⟨true, .unlocked, st⟩ ∧ st.type ≠ .future ∧
      h = ⟨some p, none⟩ ∧ s1 = s.put_promise p ⟨true, .locked, st⟩) ∨
    (∃ st f fst fpr, s.promises p = some ⟨true, .unlocked, st⟩ ∧ st.type = .future ∧
      st.future_ = some (some f) ∧ s.futures f = some ⟨.unlocked, fst, fpr⟩ ∧
      h = ⟨some p, some f⟩ ∧
      s1 = (s.put_promise p ⟨true, .locked, st⟩).put_future f ⟨.locked, fst, fpr⟩) := by
  unfold lock_guard.of_promise at hd
  cases hp : s.promises p with
  | none => simp [hp] at hd
  | some P =>
    obtain ⟨nl, lk, st⟩ := P
    simp only [hp] at hd
    cases nl
    · simp at hd
      obtain ⟨rfl, rfl⟩ := hd
      exact Or.inl ⟨lk, st, rfl, rfl, rfl⟩
    · cases lk <;> simp at hd
      by_cases hty : st.type = .future
      · simp only [hty, if_true] at hd
        cases hfu : st.future_ with
        | none => simp [hfu] at hd
        | some fo =>
          cases fo with
          | none => simp [hfu] at hd
          | some f =>
            simp only [hfu] at hd
            cases hf : s.futures f with
            | none => simp [hf] at hd
            | some F =>
              obtain ⟨flk, fst, fpr⟩ := F
              cases flk <;> simp [hf] at hd
              obtain ⟨rfl, rfl⟩ := hd
              exact Or.inr (Or.inr ⟨st, f, fst, fpr, rfl, hty, hfu, hf, rfl, rfl⟩)
      · simp [hty] at hd
        obtain ⟨rfl, rfl⟩ := hd
        exact Or.inr (Or.inl ⟨st, rfl, hty, rfl, rfl⟩)

/-- What a completed `lock_guard(future<R> *f)` found and locked. -/
theorem lock_guard.of_future_done {s s1 : Heap R} {f : Addr} {h : lock_guard}
    (hd : lock_guard.of_future s f = .done h s1) :
    (∃ fst, s.futures f = some ⟨.unlocked, fst, none⟩ ∧ h = ⟨none, some f⟩ ∧
      s1 = s.put_future f ⟨.locked, fst, none⟩) ∨
    (∃ fst p nl st, s.futures f = some ⟨.unlocked, fst, some p⟩ ∧
      s.promises p = some ⟨nl, .unlocked, st⟩ ∧ h = ⟨some p, some f⟩ ∧
      s1 = (s.put_future f ⟨.locked, fst, some p⟩).put_promise p ⟨nl, .locked, st⟩) := by
  unfold lock_guard.of_future at hd
  cases hf : s.futures f with
  | none => simp [hf] at hd
  | some F =>
    obtain ⟨flk, fst, fpr⟩ := F
    simp only [hf] at hd
    cases flk <;> simp at hd
    cases fpr with
    | none =>
      simp at hd
      obtain ⟨rfl, rfl⟩ := hd
      exact Or.inl ⟨fst, rfl, rfl, rfl⟩
    | some p =>
      simp only at hd
      cases hp : s.promises p with
      | none => simp [hp] at hd
      | some P =>
        obtain ⟨nl, lk, st⟩ := P
        cases lk <;> simp [hp] at hd
        obtain ⟨rfl, rfl⟩ := hd
        exact Or.inr ⟨fst, p, nl, st, rfl, hp, rfl, rfl⟩

/-- A guard constructor on a promise ends with a heap only by completing. -/
theorem lock_guard.of_promise_heap {s s1 : Heap R} {p : Addr}
    (hd : (lock_guard.of_promise s p).heap = some s1) :
    ∃ h, lock_guard.of_promise s p = .done h s1 := by
  unfold lock_guard.of_promise at hd ⊢
  repeat' split at hd
  all_goals simp_all [Step.heap]

/-- A guard constructor on a future ends with a heap only by completing. -/
theorem lock_guard.of_future_heap {s s1 : Heap R} {f : Addr}
    (hd : (lock_guard.of_future s f).heap = some s1) :
    ∃ h, lock_guard.of_future s f = .done h s1 := by
  unfold lock_guard.of_future at hd ⊢
  repeat' split at hd
  all_goals simp_all [Step.heap]

/-- A sequence ends with a heap when its first part returns and the rest ends with that
heap, or when its first part throws. -/
theorem Step.and_then_heap {α β σ : Type} {x : Step α σ} {k : α → σ → Step β σ} {s1 : σ}
    (h : (x.and_then k).heap = some s1) :
    (∃ r s0, x = .done r s0 ∧ (k r s0).heap = some s1) ∨ (∃ e, x = .throws e s1) := by
  cases x with
  | done r s0 => exact Or.inl ⟨r, s0, rfl, h⟩
  | throws e s0 =>
    simp only [Step.and_then, Step.heap, Option.some.injEq] at h
    exact Or.inr ⟨e, by rw [h]⟩
  | terminate => simp [Step.and_then, Step.heap] at h
  | spins => simp [Step.and_then, Step.heap] at h
  | fault => simp [Step.and_then, Step.heap] at h

/-- The guard constructor on a promise never throws. -/
theorem lock_guard.of_promise_not_throws {s s1 : Heap R} {p : Addr} {e : exception_ptr}
    (hd : lock_guard.of_promise s p = .throws e s1) : False := by
  unfold lock_guard.of_promise at hd
  repeat' split at hd
  all_goals simp at hd

/-- The guard constructor on a future never throws. -/
theorem lock_guard.of_future_not_throws {s s1 : Heap R} {f : Addr} {e : exception_ptr}
    (hd : lock_guard.of_future s f = .throws e s1) : False := by
  unfold lock_guard.of_future at hd
  repeat' split at hd
  all_goals simp at hd

/-- The heaps the body of `~promise()` can end with. -/
theorem promise.dtor_body_effect {s s1 : Heap R} {this : Addr}
    (h : (promise.dtor_body s this).heap = some s1) :
    (∃ nl lk st, s.promises this = some ⟨nl, lk, st⟩ ∧ (nl = false ∨ st.type ≠ .future) ∧
      s1 = s.put_promise this ⟨nl, lk, st.reset⟩) ∨
    (∃ st f fst fpr, s.promises this = some ⟨true, .unlocked, st⟩ ∧ st.type = .future ∧
      st.future_ = some (some f) ∧ s.futures f = some ⟨.unlocked, fst, fpr⟩ ∧
      s1 = (s.put_promise this ⟨true, .unlocked, ⟨.future_ none, .empty⟩⟩).put_future f
        ⟨.unlocked, if fst.type = .empty then
            ⟨.exception (.future_error .broken_promise), .exception⟩ else fst, none⟩) := by
  unfold promise.dtor_body at h
  rcases Step.and_then_heap h with ⟨g, s0, hg, hk⟩ | ⟨e, hg⟩
  · rcases lock_guard.of_promise_done hg with ⟨lk, st, hp, rfl, rfl⟩ | ⟨st, hp, hty, rfl, rfl⟩ |
      ⟨st, f, fst, fpr, hp, hty, hfu, hF, rfl, rfl⟩
    · simp [hp, Step.heap, lock_guard.release, lock_guard.unlock,
        Heap.map_promise, Heap.put_promise] at hk
      refine Or.inl ⟨_, _, _, hp, Or.inl rfl, ?_⟩
      subst hk
      rfl
    · simp [Step.heap, lock_guard.release, lock_guard.unlock, lock_guard.unlock_f,
        Heap.map_promise, Heap.put_promise] at hk
      refine Or.inl ⟨_, _, _, hp, Or.inr hty, ?_⟩
      subst hk
      apply Heap.eq_of_pointwise <;> intro x <;> simp only [Heap.put_promise] <;>
        split_ifs <;> simp_all
    · refine Or.inr ⟨st, f, fst, fpr, hp, hty, hfu, hF, ?_⟩
      by_cases he : fst.type = .empty <;>
        simp [he, hty, Step.heap, lock_guard.release, lock_guard.unlock, lock_guard.unlock_f,
          Heap.map_promise, Heap.put_promise, Heap.put_future, value_storage.set_exception,
          value_storage.reset] at hk <;>
        subst hk <;>
        apply Heap.eq_of_pointwise <;> intro x <;>
        simp only [Heap.put_promise, Heap.put_future] <;> split_ifs <;> simp_all
  · exact (lock_guard.of_promise_not_throws hg).elim

/-- The body of `~promise()` never throws. -/
theorem promise.dtor_body_not_throws {s s1 : Heap R} {this : Addr} {e : exception_ptr}
    (h : promise.dtor_body s this = .throws e s1) : False := by
  unfold promise.dtor_body lock_guard.release at h
  cases hgd : lock_guard.of_promise s this with
  | throws e0 s0 => exact lock_guard.of_promise_not_throws hgd
  | done g s0 =>
    simp only [hgd, Step.and_then] at h
    repeat' split at h
    all_goals simp at h
  | terminate => simp [hgd, Step.and_then] at h
  | spins => simp [hgd, Step.and_then] at h
  | fault => simp [hgd, Step.and_then] at h

/-- The heaps `~promise()` can end with. -/
theorem promise_dtor_effect {s s1 : Heap R} {this : Addr}
    (h : (promise.dtor s this).heap = some s1) :
    (∃ nl lk st, s.promises this = some ⟨nl, lk, st⟩ ∧ (nl = false ∨ st.type ≠ .future) ∧
      s1 = s.del_promise this) ∨
    (∃ st f fst fpr, s.promises this = some ⟨true, .unlocked, st⟩ ∧ st.type = .future ∧
      st.future_ = some (some f) ∧ s.futures f = some ⟨.unlocked, fst, fpr⟩ ∧
      s1 = (s.del_promise this).put_future f
        ⟨.unlocked, if fst.type = .empty then
            ⟨.exception (.future_error .broken_promise), .exception⟩ else fst, none⟩) := by
  unfold promise.dtor at h
  rcases Step.and_then_heap h with ⟨g, s0, hg, hk⟩ | ⟨e, hg⟩
  · have hb : (promise.dtor_body s this).heap = some s0 := by rw [hg]; rfl
    simp only [Step.heap, Option.some.injEq] at hk
    subst hk
    rcases promise.dtor_body_effect hb with ⟨nl, lk, st, hp, hc, rfl⟩ |
      ⟨st, f, fst, fpr, hp, hty, hfu, hF, rfl⟩
    · refine Or.inl ⟨nl, lk, st, hp, hc, ?_⟩
      apply Heap.eq_of_pointwise <;> intro x <;>
        simp only [Heap.put_promise, Heap.del_promise] <;> split_ifs <;> simp_all
    · refine Or.inr ⟨st, f, fst, fpr, hp, hty, hfu, hF, ?_⟩
      apply Heap.eq_of_pointwise <;> intro x <;>
        simp only [Heap.put_promise, Heap.del_promise, Heap.put_future] <;> split_ifs <;>
        simp_all
  · exact (promise.dtor_body_not_throws hg).elim

/-- The storage move constructor hands over the tag and leaves `empty` behind. -/
theorem value_storage.move_types {st n o1 : value_storage R}
    (h : value_storage.move st = some (n, o1)) : n.type = st.type ∧ o1.type = .empty := by
  unfold value_storage.move at h
  repeat' split at h
  all_goals simp_all
  all_goals (obtain ⟨rfl, rfl⟩ := h; simp)

/-- Moving a storage tagged `future` hands over the pointer. -/
theorem value_storage.move_future {st : value_storage R} {fo : Option Addr}
    (hty : st.type = .future) (hfu : st.future_ = some fo) :
    value_storage.move st = some (⟨.future_ fo, .future⟩, ⟨.future_ none, .empty⟩) := by
  simp [value_storage.move, hty, hfu]

/-- The move constructor of a promise is `move_tail` on the freshly initialised object. -/
theorem promise.move_ctor_eq (s : Heap R) (this o : Addr) :
    promise.move_ctor s this o =
      match s.promises o with
      | none => .fault
      | some O0 =>
        promise.move_tail (s.put_promise this ⟨O0._need_locks, .unconstructed,
          value_storage.init⟩) this o := rfl

/-- The move assignment of a promise is the destructor body followed by `move_tail`. -/
theorem promise.move_assign_eq (s : Heap R) (this o : Addr) :
    promise.move_assign s this o =
      (promise.dtor_body s this).and_then fun _ s1 =>
      match s1.promises this, s1.promises o with
      | some T0, some O0 =>
        promise.move_tail (s1.put_promise this ⟨O0._need_locks, T0._lock,
          value_storage.init⟩) this o
      | _, _ => .fault := rfl

/-- The heaps `move_tail` can end with. -/
theorem promise.move_tail_effect {s s1 : Heap R} {this o : Addr} (hne : this ≠ o)
    {nlT : Bool} {lkT : spinlock} {stT : value_storage R}
    (hT : s.promises this = some ⟨nlT, lkT, stT⟩)
    (h : (promise.move_tail s this o).heap = some s1) :
    (∃ nl lk st n o1, s.promises o = some ⟨nl, lk, st⟩ ∧ (nl = false ∨ st.type ≠ .future) ∧
      st.move = some (n, o1) ∧
      s1 = (s.put_promise this ⟨nlT, lkT, n⟩).put_promise o ⟨nl, lk, o1⟩) ∨
    (∃ st f fst fpr, s.promises o = some ⟨true, .unlocked, st⟩ ∧ st.type = .future ∧
      st.future_ = some (some f) ∧ s.futures f = some ⟨.unlocked, fst, fpr⟩ ∧
      s1 = ((s.put_promise this ⟨nlT, lkT, ⟨.future_ (some f), .future⟩⟩).put_promise
        o ⟨true, .unlocked, ⟨.future_ none, .empty⟩⟩).put_future f
          ⟨.unlocked, fst, some this⟩) := by
  unfold promise.move_tail at h
  have hne2 : o ≠ this := fun e => hne e.symm
  rcases Step.and_then_heap h with ⟨g, s0, hg, hk⟩ | ⟨e, hg⟩
  · rcases lock_guard.of_promise_done hg with ⟨lk, st, hp, rfl, rfl⟩ |
      ⟨st, hp, hty, rfl, rfl⟩ | ⟨st, f, fst, fpr, hp, hty, hfu, hF, rfl, rfl⟩
    · cases hm : value_storage.move st with
      | none =>
        simp [hp, hT, hm, Step.heap, value_storage.move_assign] at hk
      | some r =>
        obtain ⟨n, o1⟩ := r
        simp [hp, hT, hne, hne2, hm, Step.heap, Heap.put_promise, value_storage.move_assign,
          lock_guard.release, lock_guard.unlock] at hk
        refine Or.inl ⟨_, _, _, n, o1, hp, Or.inl rfl, hm, ?_⟩
        subst hk
        rfl
    · cases hm : value_storage.move st with
      | none =>
        simp [hp, hT, hne, hne2, hm, Step.heap, Heap.put_promise,
          value_storage.move_assign] at hk
      | some r =>
        obtain ⟨n, o1⟩ := r
        simp [hp, hT, hne, hne2, hm, Step.heap, Heap.put_promise, value_storage.move_assign,
          lock_guard.release, lock_guard.unlock, lock_guard.unlock_f] at hk
        refine Or.inl ⟨_, _, _, n, o1, hp, Or.inr hty, hm, ?_⟩
        subst hk
        apply Heap.eq_of_pointwise <;>
          (intro x; simp only [Heap.put_promise]; try (split_ifs <;> simp_all))
    · have hm := value_storage.move_future hty hfu
      simp [hp, hT, hF, hne, hne2, hm, Step.heap, Heap.put_promise, Heap.put_future,
        Heap.map_future, value_storage.move_assign,
        lock_guard.release, lock_guard.unlock, lock_guard.unlock_f] at hk
      refine Or.inr ⟨_, f, fst, fpr, hp, hty, hfu, hF, ?_⟩
      subst hk
      apply Heap.eq_of_pointwise <;>
        (intro x; simp only [Heap.put_promise, Heap.put_future]; try (split_ifs <;> simp_all))
  · exact (lock_guard.of_promise_not_throws hg).elim

/-- The heaps the move constructor of a promise can end with. -/
theorem promise_move_ctor_effect {s s1 : Heap R} {this o : Addr} (hne : this ≠ o)
    (h : (promise.move_ctor s this o).heap = some s1) :
    (∃ nl lk st n o1, s.promises o = some ⟨nl, lk, st⟩ ∧ (nl = false ∨ st.type ≠ .future) ∧
      st.move = some (n, o1) ∧
      s1 = (s.put_promise this ⟨nl, .unconstructed, n⟩).put_promise o ⟨nl, lk, o1⟩) ∨
    (∃ st f fst fpr, s.promises o = some ⟨true, .unlocked, st⟩ ∧ st.type = .future ∧
      st.future_ = some (some f) ∧ s.futures f = some ⟨.unlocked, fst, fpr⟩ ∧
      s1 = ((s.put_promise this ⟨true, .unconstructed, ⟨.future_ (some f), .future⟩⟩).put_promise
        o ⟨true, .unlocked, ⟨.future_ none, .empty⟩⟩).put_future f
          ⟨.unlocked, fst, some this⟩) := by
  rw [promise.move_ctor_eq] at h
  have hne2 : o ≠ this := fun e => hne e.symm
  cases hO : s.promises o with
  | none => simp [hO, Step.heap] at h
  | some O0 =>
    obtain ⟨nl0, lk0, st0⟩ := O0
    simp only [hO] at h
    have hT : (s.put_promise this ⟨nl0, .unconstructed, value_storage.init⟩).promises this
        = some ⟨nl0, .unconstructed, value_storage.init⟩ := by simp [Heap.put_promise]
    have hO1 : (s.put_promise this ⟨nl0, .unconstructed, value_storage.init⟩).promises o
        = some ⟨nl0, lk0, st0⟩ := by simp [Heap.put_promise, hne2, hO]
    rcases promise.move_tail_effect hne hT h with ⟨nl, lk, st, n, o1, hp, hc, hm, rfl⟩ |
      ⟨st, f, fst, fpr, hp, hty, hfu, hF, rfl⟩
    · rw [hO1] at hp
      simp only [Option.some.injEq, promise.mk.injEq] at hp
      obtain ⟨rfl, rfl, rfl⟩ := hp
      refine Or.inl ⟨_, _, _, n, o1, rfl, hc, hm, ?_⟩
      apply Heap.eq_of_pointwise <;>
        (intro x; simp only [Heap.put_promise]; try (split_ifs <;> simp_all))
    · rw [hO1] at hp
      simp only [Option.some.injEq, promise.mk.injEq] at hp
      obtain ⟨rfl, rfl, rfl⟩ := hp
      have hF0 : s.futures f = some ⟨.unlocked, fst, fpr⟩ := by
        simpa [Heap.put_promise] using hF
      refine Or.inr ⟨_, f, fst, fpr, rfl, hty, hfu, hF0, ?_⟩
      apply Heap.eq_of_pointwise <;>
        (intro x; simp only [Heap.put_promise, Heap.put_future]; try (split_ifs <;> simp_all))

/-- The heaps the move assignment of a promise can end with. -/
theorem promise.move_assign_effect {s s1 : Heap R} {this o : Addr} (hne : this ≠ o)
    (h : (promise.move_assign s this o).heap = some s1) :
    ∃ s0 nlT lkT stT, (promise.dtor_body s this).heap = some s0 ∧
      s0.promises this = some ⟨nlT, lkT, stT⟩ ∧
      ((∃ nl lk st n o1, s0.promises o = some ⟨nl, lk, st⟩ ∧
          (nl = false ∨ st.type ≠ .future) ∧ st.move = some (n, o1) ∧
          s1 = (s0.put_promise this ⟨nl, lkT, n⟩).put_promise o ⟨nl, lk, o1⟩) ∨
        (∃ st f fst fpr, s0.promises o = some ⟨true, .unlocked, st⟩ ∧ st.type = .future ∧
          st.future_ = some (some f) ∧ s0.futures f = some ⟨.unlocked, fst, fpr⟩ ∧
          s1 = ((s0.put_promise this ⟨true, lkT, ⟨.future_ (some f), .future⟩⟩).put_promise
            o ⟨true, .unlocked, ⟨.future_ none, .empty⟩⟩).put_future f
              ⟨.unlocked, fst, some this⟩)) := by
  rw [promise.move_assign_eq] at h
  have hne2 : o ≠ this := fun e => hne e.symm
  rcases Step.and_then_heap h with ⟨u, s0, hb, hk⟩ | ⟨e, hb⟩
  · have hb0 : (promise.dtor_body s this).heap = some s0 := by rw [hb]; rfl
    cases hT0 : s0.promises this with
    | none => simp [hT0, Step.heap] at hk
    | some T0 =>
      cases hO0 : s0.promises o with
      | none => simp [hT0, hO0, Step.heap] at hk
      | some O0 =>
        obtain ⟨nlT, lkT, stT⟩ := T0
        obtain ⟨nl0, lk0, st0⟩ := O0
        simp only [hT0, hO0] at hk
        refine ⟨s0, nlT, lkT, stT, hb0, hT0, ?_⟩
        have hT : (s0.put_promise this ⟨nl0, lkT, value_storage.init⟩).promises this
            = some ⟨nl0, lkT, value_storage.init⟩ := by simp [Heap.put_promise]
        have hO1 : (s0.put_promise this ⟨nl0, lkT, value_storage.init⟩).promises o
            = some ⟨nl0, lk0, st0⟩ := by simp [Heap.put_promise, hne2, hO0]
        rcases promise.move_tail_effect hne hT hk with ⟨nl, lk, st, n, o1, hp, hc, hm, rfl⟩ |
          ⟨st, f, fst, fpr, hp, hty, hfu, hF, rfl⟩
        · rw [hO1] at hp
          simp only [Option.some.injEq, promise.mk.injEq] at hp
          obtain ⟨rfl, rfl, rfl⟩ := hp
          refine Or.inl ⟨_, _, _, n, o1, hO0, hc, hm, ?_⟩
          apply Heap.eq_of_pointwise <;>
            (intro x; simp only [Heap.put_promise]; try (split_ifs <;> simp_all))
        · rw [hO1] at hp
          simp only [Option.some.injEq, promise.mk.injEq] at hp
          obtain ⟨rfl, rfl, rfl⟩ := hp
          have hF0 : s0.futures f = some ⟨.unlocked, fst, fpr⟩ := by
            simpa [Heap.put_promise] using hF
          refine Or.inr ⟨_, f, fst, fpr, hO0, hty, hfu, hF0, ?_⟩
          apply Heap.eq_of_pointwise <;>
            (intro x; simp only [Heap.put_promise, Heap.put_future];
              try (split_ifs <;> simp_all))
  · exact (promise.dtor_body_not_throws hb).elim

/-- The heaps `~future()` can end with. -/
theorem future_dtor_effect {s s1 : Heap R} {this : Addr}
    (h : (future.dtor s this).heap = some s1) :
    (∃ fst, s.futures this = some ⟨.unlocked, fst, none⟩ ∧ s1 = s.del_future this) ∨
    (∃ fst p nl st, s.futures this = some ⟨.unlocked, fst, some p⟩ ∧
      s.promises p = some ⟨nl, .unlocked, st⟩ ∧
      s1 = (s.del_future this).put_promise p
        ⟨nl, if nl = true then .unlocked else .locked, st.reset⟩) := by
  unfold future.dtor at h
  rcases Step.and_then_heap h with ⟨g, s0, hg, hk⟩ | ⟨e, hg⟩
  · rcases lock_guard.of_future_done hg with ⟨fst, hf, rfl, rfl⟩ |
      ⟨fst, p, nl, st, hf, hp, rfl, rfl⟩
    · simp [Step.heap, lock_guard.release, lock_guard.unlock, lock_guard.unlock_f,
        Heap.map_future, Heap.put_future] at hk
      refine Or.inl ⟨fst, hf, ?_⟩
      subst hk
      apply Heap.eq_of_pointwise <;>
        (intro x; simp only [Heap.del_future]; try (split_ifs <;> simp_all))
    · refine Or.inr ⟨fst, p, nl, st, hf, hp, ?_⟩
      cases nl <;>
        simp [Step.heap, lock_guard.release, lock_guard.unlock, lock_guard.unlock_f,
          Heap.map_future, Heap.map_promise, Heap.put_future, Heap.put_promise] at hk <;>
        subst hk <;>
        apply Heap.eq_of_pointwise <;>
        (intro x; simp only [Heap.del_future, Heap.put_promise];
          try (split_ifs <;> simp_all))
  · exact (lock_guard.of_future_not_throws hg).elim

/-- The destructor `~future()` never throws. -/
theorem future.dtor_not_throws {s s1 : Heap R} {this : Addr} {e : exception_ptr}
    (h : future.dtor s this = .throws e s1) : False := by
  unfold future.dtor lock_guard.release at h
  cases hgd : lock_guard.of_future s this with
  | throws e0 s0 => exact lock_guard.of_future_not_throws hgd
  | done g s0 =>
    simp only [hgd, Step.and_then] at h
    repeat' split at h
    all_goals simp at h
  | terminate => simp [hgd, Step.and_then] at h
  | spins => simp [hgd, Step.and_then] at h
  | fault => simp [hgd, Step.and_then] at h

/-- The heaps the move constructor of a future can end with. -/
theorem future_move_ctor_effect {s s1 : Heap R} {this o : Addr} (hne : this ≠ o)
    (h : (future.move_ctor s this o).heap = some s1) :
    (∃ fst n o1, s.futures o = some ⟨.unlocked, fst, none⟩ ∧ fst.move = some (n, o1) ∧
      s1 = (s.put_future this ⟨.unlocked, n, none⟩).put_future o ⟨.unlocked, o1, none⟩) ∨
    (∃ fst p nl st n o1, s.futures o = some ⟨.unlocked, fst, some p⟩ ∧
      s.promises p = some ⟨nl, .unlocked, st⟩ ∧ fst.move = some (n, o1) ∧
      s1 = ((s.put_future this ⟨.unlocked, n, some p⟩).put_future o
          ⟨if nl = true then .unlocked else .locked, o1, none⟩).put_promise p
        ⟨nl, if nl = true then .unlocked else .locked, ⟨.future_ (some this), st.type⟩⟩) := by
  unfold future.move_ctor at h
  have hne2 : o ≠ this := fun e => hne e.symm
  rcases Step.and_then_heap h with ⟨g, s0, hg, hk⟩ | ⟨e, hg⟩
  · rcases lock_guard.of_future_done hg with ⟨fst, hf, rfl, rfl⟩ |
      ⟨fst, p, nl, st, hf, hp, rfl, rfl⟩
    · have hf0 : s.futures o = some ⟨.unlocked, fst, none⟩ := by
        simpa [Heap.put_future, hne2] using hf
      cases hm : value_storage.move fst with
      | none =>
        simp [hne, hne2, hm, Step.heap, Heap.put_future, value_storage.move_assign] at hk
      | some r =>
        obtain ⟨n, o1⟩ := r
        simp [hne, hne2, hm, Step.heap, Heap.put_future, value_storage.move_assign,
          lock_guard.release, lock_guard.unlock, lock_guard.unlock_f] at hk
        refine Or.inl ⟨fst, n, o1, hf0, hm, ?_⟩
        subst hk
        apply Heap.eq_of_pointwise <;>
          (intro x; simp only [Heap.put_future]; try (split_ifs <;> simp_all))
    · have hf0 : s.futures o = some ⟨.unlocked, fst, some p⟩ := by
        simpa [Heap.put_future, hne2] using hf
      have hp0 : s.promises p = some ⟨nl, .unlocked, st⟩ := by
        simpa [Heap.put_future] using hp
      cases hm : value_storage.move fst with
      | none =>
        simp [hne, hne2, hm, Step.heap, Heap.put_future, Heap.put_promise,
          value_storage.move_assign] at hk
      | some r =>
        obtain ⟨n, o1⟩ := r
        refine Or.inr ⟨fst, p, nl, st, n, o1, hf0, hp0, hm, ?_⟩
        cases nl <;>
          simp [hne, hne2, hm, Step.heap, Heap.put_future, Heap.put_promise,
            Heap.map_promise, value_storage.move_assign,
            lock_guard.release, lock_guard.unlock, lock_guard.unlock_f] at hk <;>
          subst hk <;>
          apply Heap.eq_of_pointwise <;>
          (intro x; simp only [Heap.put_future, Heap.put_promise];
            try (split_ifs <;> simp_all))
  · exact (lock_guard.of_future_not_throws hg).elim

/-- The move constructor of a future never throws. -/
theorem future.move_ctor_not_throws {s s1 : Heap R} {this o : Addr} {e : exception_ptr}
    (h : future.move_ctor s this o = .throws e s1) : False := by
  unfold future.move_ctor lock_guard.release at h
  cases hgd : lock_guard.of_future (s.put_future this ⟨.unlocked, value_storage.init, none⟩) o with
  | throws e0 s0 => exact lock_guard.of_future_not_throws hgd
  | done g s0 =>
    simp only [hgd, Step.and_then] at h
    repeat' split at h
    all_goals simp at h
  | terminate => simp [hgd, Step.and_then] at h
  | spins => simp [hgd, Step.and_then] at h
  | fault => simp [hgd, Step.and_then] at h

/-- Member `wait()` changes nothing. -/
theorem future.wait_heap {s s1 : Heap R} {this : Addr}
    (h : (future.wait s this).heap = some s1) : s1 = s := by
  unfold future.wait at h
  repeat' split at h
  all_goals simp_all [Step.heap]

/-- Member `wait()` returns in the heap it was called in. -/
theorem future.wait_done {s s1 : Heap R} {this : Addr} {u : Unit}
    (h : future.wait s this = .done u s1) : s1 = s :=
  future.wait_heap (by rw [h]; rfl)

/-- Member `wait()` throws in the heap it was called in. -/
theorem future.wait_throws {s s1 : Heap R} {this : Addr} {e : exception_ptr}
    (h : future.wait s this = .throws e s1) : s1 = s :=
  future.wait_heap (by rw [h]; rfl)

/-- The heaps `get()` can end with. -/
theorem future.get_effect {s s1 : Heap R} {this : Addr}
    (h : (future.get s this).heap = some s1) :
    s1 = s ∨
    (∃ fst p nl st, s.futures this = some ⟨.unlocked, fst, some p⟩ ∧
      s.promises p = some ⟨nl, .unlocked, st⟩ ∧
      s1 = (s.put_future this ⟨if nl = true then .unlocked else .locked, fst.reset, none⟩).put_promise
        p ⟨nl, if nl = true then .unlocked else .locked, st.reset⟩) := by
  unfold future.get at h
  rcases Step.and_then_heap h with ⟨u, s0, hw, hk⟩ | ⟨e, hw⟩
  · have := future.wait_done hw
    subst this
    rcases Step.and_then_heap hk with ⟨g, s2, hg, hk2⟩ | ⟨e, hg⟩
    · rcases lock_guard.of_future_done hg with ⟨fst, hf, rfl, rfl⟩ |
        ⟨fst, p, nl, st, hf, hp, rfl, rfl⟩
      · simp [future.wait, hf, future.valid] at hw
      · refine Or.inr ⟨fst, p, nl, st, hf, hp, ?_⟩
        simp only [Heap.put_promise, Heap.put_future, if_true] at hk2
        cases hpe : future.pending_exception (⟨.locked, fst, some p⟩ : future R) with
        | none => simp [hpe, Step.heap] at hk2
        | some e =>
          by_cases he : e = .null
          · cases hv : fst.value with
            | none => simp [hpe, he, hv, Step.heap] at hk2
            | some v =>
              cases nl <;>
                simp [hpe, he, hv, Step.heap, future.consume, Heap.map_future,
                  Heap.map_promise, Heap.put_future, Heap.put_promise,
                  lock_guard.release, lock_guard.unlock, lock_guard.unlock_f] at hk2 <;>
                subst hk2 <;>
                apply Heap.eq_of_pointwise <;>
                (intro x; simp only [Heap.put_future, Heap.put_promise];
                  try (split_ifs <;> simp_all))
          · cases nl <;>
              simp [hpe, he, Step.heap, future.consume, Heap.map_future,
                Heap.map_promise, Heap.put_future, Heap.put_promise,
                lock_guard.release, lock_guard.unlock, lock_guard.unlock_f] at hk2 <;>
              subst hk2 <;>
              apply Heap.eq_of_pointwise <;>
              (intro x; simp only [Heap.put_future, Heap.put_promise];
                try (split_ifs <;> simp_all))
    · exact (lock_guard.of_future_not_throws hg).elim
  · exact Or.inl (future.wait_throws hw)

/-- The heaps `get_exception_ptr()` can end with. -/
theorem future.get_exception_ptr_effect {s s1 : Heap R} {this : Addr}
    (h : (future.get_exception_ptr s this).heap = some s1) :
    s1 = s ∨
    (∃ fst p nl st, s.futures this = some ⟨.unlocked, fst, some p⟩ ∧
      s.promises p = some ⟨nl, .unlocked, st⟩ ∧
      (s1 = (s.put_future this ⟨if nl = true then .unlocked else .locked, fst.reset, none⟩).put_promise
        p ⟨nl, if nl = true then .unlocked else .locked, st.reset⟩ ∨
       s1 = (s.put_future this ⟨if nl = true then .unlocked else .locked, fst, some p⟩).put_promise
        p ⟨nl, if nl = true then .unlocked else .locked, st⟩)) := by
  unfold future.get_exception_ptr at h
  rcases Step.and_then_heap h with ⟨u, s0, hw, hk⟩ | ⟨e, hw⟩
  · have := future.wait_done hw
    subst this
    rcases Step.and_then_heap hk with ⟨g, s2, hg, hk2⟩ | ⟨e, hg⟩
    · rcases lock_guard.of_future_done hg with ⟨fst, hf, rfl, rfl⟩ |
        ⟨fst, p, nl, st, hf, hp, rfl, rfl⟩
      · simp [future.wait, hf, future.valid] at hw
      · refine Or.inr ⟨fst, p, nl, st, hf, hp, ?_⟩
        simp only [Heap.put_promise, Heap.put_future, if_true] at hk2
        cases hpe : future.pending_exception (⟨.locked, fst, some p⟩ : future R) with
        | none => simp [hpe, Step.heap] at hk2
        | some e =>
          by_cases he : e = .null
          · right
            cases nl <;>
              simp [hpe, he, Step.heap, Heap.put_future, Heap.put_promise,
                lock_guard.release, lock_guard.unlock, lock_guard.unlock_f] at hk2 <;>
              subst hk2 <;>
              apply Heap.eq_of_pointwise <;>
              (intro x; simp only [Heap.put_future, Heap.put_promise];
                try (split_ifs <;> simp_all))
          · left
            cases nl <;>
              simp [hpe, he, Step.heap, future.consume, Heap.map_future,
                Heap.map_promise, Heap.put_future, Heap.put_promise,
                lock_guard.release, lock_guard.unlock, lock_guard.unlock_f] at hk2 <;>
              subst hk2 <;>
              apply Heap.eq_of_pointwise <;>
              (intro x; simp only [Heap.put_future, Heap.put_promise];
                try (split_ifs <;> simp_all))
    · exact (lock_guard.of_future_not_throws hg).elim
  · exact Or.inl (future.wait_throws hw)

/-- The heaps `get_error()` can end with. -/
theorem future.get_error_effect {s s1 : Heap R} {this : Addr}
    (h : (future.get_error s this).heap = some s1) :
    s1 = s ∨
    (∃ fst p nl st, s.futures this = some ⟨.unlocked, fst, some p⟩ ∧
      s.promises p = some ⟨nl, .unlocked, st⟩ ∧
      (s1 = (s.put_future this ⟨if nl = true then .unlocked else .locked, fst.reset, none⟩).put_promise
        p ⟨nl, if nl = true then .unlocked else .locked, st.reset⟩ ∨
       s1 = (s.put_future this ⟨if nl = true then .unlocked else .locked, fst, some p⟩).put_promise
        p ⟨nl, if nl = true then .unlocked else .locked, st⟩)) := by
  unfold future.get_error at h
  rcases Step.and_then_heap h with ⟨u, s0, hw, hk⟩ | ⟨e, hw⟩
  · have := future.wait_done hw
    subst this
    rcases Step.and_then_heap hk with ⟨g, s2, hg, hk2⟩ | ⟨e, hg⟩
    · rcases lock_guard.of_future_done hg with ⟨fst, hf, rfl, rfl⟩ |
        ⟨fst, p, nl, st, hf, hp, rfl, rfl⟩
      · simp [future.wait, hf, future.valid] at hw
      · refine Or.inr ⟨fst, p, nl, st, hf, hp, ?_⟩
        simp only [Heap.put_promise, Heap.put_future, if_true] at hk2
        cases hpe : (if future.has_error (⟨.locked, fst, some p⟩ : future R) = true
            then fst.error else some error_code.none) with
        | none => simp [hpe, Step.heap] at hk2
        | some e =>
          by_cases he : e.is_clear = true
          · right
            cases nl <;>
              simp [hpe, he, Step.heap, Heap.put_future, Heap.put_promise,
                lock_guard.release, lock_guard.unlock, lock_guard.unlock_f] at hk2 <;>
              subst hk2 <;>
              apply Heap.eq_of_pointwise <;>
              (intro x; simp only [Heap.put_future, Heap.put_promise];
                try (split_ifs <;> simp_all))
          · left
            cases nl <;>
              simp [hpe, he, Step.heap, future.consume, Heap.map_future,
                Heap.map_promise, Heap.put_future, Heap.put_promise,
                lock_guard.release, lock_guard.unlock, lock_guard.unlock_f] at hk2 <;>
              subst hk2 <;>
              apply Heap.eq_of_pointwise <;>
              (intro x; simp only [Heap.put_future, Heap.put_promise];
                try (split_ifs <;> simp_all))
    · exact (lock_guard.of_future_not_throws hg).elim
  · exact Or.inl (future.wait_throws hw)

/-- The heaps a setter can end with. -/
theorem promise.set_with_effect {set : value_storage R → Except exception_ptr (value_storage R)}
    {nothrow : Bool} {s s1 : Heap R} {this : Addr}
    (h : (promise.set_with set nothrow s this).heap = some s1) :
    s1 = s ∨
    (∃ nl lk st st1, s.promises this = some ⟨nl, lk, st⟩ ∧
      (nl = false ∨ st.type ≠ .future) ∧
      set st = .ok st1 ∧ s1 = s.put_promise this ⟨nl, lk, st1⟩) ∨
    (∃ lk st f flk fst fpr st1, s.promises this = some ⟨true, lk, st⟩ ∧
      st.type = .future ∧ st.future_ = some (some f) ∧
      s.futures f = some ⟨flk, fst, fpr⟩ ∧ set fst = .ok st1 ∧
      s1 = s.put_future f ⟨flk, st1, fpr⟩) := by
  unfold promise.set_with at h
  cases hg : lock_guard.of_promise s this with
  | done g s0 =>
    simp only [hg, Step.and_then] at h
    rcases lock_guard.of_promise_done hg with ⟨lk, st, hp, rfl, rfl⟩ | ⟨st, hp, hty, rfl, rfl⟩ |
      ⟨st, f, fst, fpr, hp, hty, hfu, hF, rfl, rfl⟩
    · cases hset : set st <;> cases nothrow <;>
        simp [hp, hset, Step.heap, lock_guard.release, lock_guard.unlock,
          Heap.map_promise, Heap.put_promise] at h
      · exact Or.inl h.symm
      all_goals
        refine Or.inr (Or.inl ⟨_, _, _, _, hp, Or.inl rfl, hset, ?_⟩)
        subst h
        rfl
    · cases hset : set st <;> cases nothrow <;>
        simp [hset, Step.heap, lock_guard.release, lock_guard.unlock,
          lock_guard.unlock_f, Heap.map_promise, Heap.put_promise] at h
      · left
        subst h
        apply Heap.eq_of_pointwise <;> intro x <;> dsimp only <;> split_ifs with hx <;>
          simp_all
      all_goals
        refine Or.inr (Or.inl ⟨_, _, _, _, hp, Or.inr hty, hset, ?_⟩)
        subst h
        apply Heap.eq_of_pointwise <;> intro x <;> simp only [Heap.put_promise] <;>
          split_ifs <;> simp_all
    · cases hset : set fst <;> cases nothrow <;>
        simp [hset, Step.heap, lock_guard.release, lock_guard.unlock,
          lock_guard.unlock_f, Heap.map_promise, Heap.map_future, Heap.put_promise,
          Heap.put_future] at h
      · left
        subst h
        apply Heap.eq_of_pointwise <;> intro x <;> dsimp only <;> split_ifs with hx <;>
          simp_all
      all_goals
        refine Or.inr (Or.inr ⟨_, _, _, _, _, _, _, hp, hty, hfu, hF, hset, ?_⟩)
        subst h
        apply Heap.eq_of_pointwise <;> intro x <;> simp only [Heap.put_future] <;>
          split_ifs <;> simp_all
  | throws e s0 => exact (lock_guard.of_promise_not_throws hg).elim
  | terminate => simp [hg, Step.and_then, Step.heap] at h
  | spins => simp [hg, Step.and_then, Step.heap] at h
  | fault => simp [hg, Step.and_then, Step.heap] at h

/-- Moving a storage that was itself produced by a move hands over the same storage. -/
theorem value_storage.move_move {st n o1 : value_storage R}
    (h : value_storage.move st = some (n, o1)) :
    ∃ o2, value_storage.move n = some (n, o2) := by
  obtain ⟨b, t⟩ := st
  cases t <;> cases b <;>
    simp [value_storage.move, value_storage.value, value_storage.exception,
      value_storage.error, value_storage.future_] at h <;>
    obtain ⟨rfl, rfl⟩ := h <;>
    simp [value_storage.move, value_storage.value, value_storage.exception,
      value_storage.error, value_storage.future_]

/-- The heaps `get_future()` can end with: with the exception and the promise as it was
(its lock now in use), or with the promise linked to the returned future at `dst`, which
holds what the promise held. -/
theorem promise.get_future_effect {s s1 : Heap R} {this tmp dst : Addr} (hne : tmp ≠ dst)
    (h : (promise.get_future s this tmp dst).heap = some s1) :
    (∃ nl lk st, s.promises this = some ⟨nl, lk, st⟩ ∧ st.type = .future ∧
      s1 = s.put_promise this ⟨true, .unlocked, st⟩) ∨
    (∃ nl lk st n o1, s.promises this = some ⟨nl, lk, st⟩ ∧ st.type ≠ .future ∧
      value_storage.move st = some (n, o1) ∧
      s1 = ((s.put_promise this ⟨true, .unlocked, ⟨.future_ (some dst), .future⟩⟩).put_future dst
        ⟨.unlocked, n, some this⟩).del_future tmp) := by
  unfold promise.get_future at h
  cases hP : s.promises this with
  | none => simp [hP, Step.heap] at h
  | some P0 =>
    obtain ⟨nl, lk, st⟩ := P0
    simp only [hP] at h
    rcases Step.and_then_heap h with ⟨g, s2, hg, hk⟩ | ⟨e, hg⟩
    · have h0 : (if nl = false then s.put_promise this ⟨true, .unlocked, st⟩ else s).promises this
          = some ⟨true, if nl = false then .unlocked else lk, st⟩ := by
        cases nl <;> simp [Heap.put_promise, hP]
      rcases lock_guard.of_promise_done hg with ⟨lk1, st1, hp, rfl, rfl⟩ |
        ⟨st1, hp, hty, rfl, rfl⟩ | ⟨st1, f, fst, fpr, hp, hty, hfu, hF, rfl, rfl⟩
      · simp [h0] at hp
      · rw [h0] at hp
        simp only [Option.some.injEq, promise.mk.injEq, true_and] at hp
        obtain ⟨hlk, rfl⟩ := hp
        refine Or.inr ⟨nl, lk, st, ?_⟩
        cases hm : value_storage.move st with
        | none =>
          simp [future.of_promise, Heap.put_promise, value_storage.take, hm, Step.heap] at hk
        | some r =>
          obtain ⟨n, o1⟩ := r
          obtain ⟨o2, hm2⟩ := value_storage.move_move hm
          refine ⟨n, o1, rfl, hty, rfl, ?_⟩
          cases nl <;>
            simp [future.of_promise, Heap.put_promise, value_storage.take, hm, hm2, Step.heap,
              Heap.put_future, Heap.map_promise, Heap.map_future,
              lock_guard.release, lock_guard.unlock, lock_guard.unlock_f,
              future.move_ctor, lock_guard.of_future, value_storage.move_assign,
              future.dtor, Heap.del_future, value_storage.init, hne,
              hne.symm, Step.and_then] at hk <;>
            subst hk <;>
            apply Heap.eq_of_pointwise <;>
            (intro x; simp only [Heap.put_future, Heap.put_promise, Heap.del_future];
              try (split_ifs <;> simp_all))
      · rw [h0] at hp
        simp only [Option.some.injEq, promise.mk.injEq, true_and] at hp
        obtain ⟨hlk, rfl⟩ := hp
        have hF1 : s.futures f = some ⟨.unlocked, fst, fpr⟩ := by
          split_ifs at hF <;> exact hF
        refine Or.inl ⟨nl, lk, st, rfl, hty, ?_⟩
        cases nl <;>
          simp [Heap.put_promise, Step.heap,
            Heap.put_future, lock_guard.release, lock_guard.unlock, lock_guard.unlock_f] at hk <;>
          subst hk <;>
          apply Heap.eq_of_pointwise <;>
          (intro x; simp only [Heap.put_future, Heap.put_promise];
            try (split_ifs <;> simp_all))
    · exact (lock_guard.of_promise_not_throws hg).elim

/-- The storage swap keeps both tags. -/
theorem value_storage.swap_types {a b a1 b1 : value_storage R}
    (h : a.swap b = some (a1, b1)) : a1.type = a.type ∧ b1.type = b.type := by
  obtain ⟨ab, at_⟩ := a
  obtain ⟨bb, bt⟩ := b
  cases at_ <;> cases ab <;> cases bb <;>
    simp_all [value_storage.swap, value_storage.value, value_storage.exception,
      value_storage.error, value_storage.future_] <;>
    (obtain ⟨rfl, rfl⟩ := h; simp)

/-- A `swap` of two distinct promises that gives control back has changed neither
`_need_locks`, nor a tag, nor the state of a lock. -/
theorem promise_swap_effect {s s1 : Heap R} {this o : Addr} (hne : this ≠ o)
    (h : (promise.swap s this o).heap = some s1) :
    promises_keep_tags s s1 ∧ locks_kept s s1 := by
  unfold promise.swap at h
  rcases Step.and_then_heap h with ⟨g1, sa, hg1, hk⟩ | ⟨e, hg⟩
  · rcases Step.and_then_heap hk with ⟨g2, sb, hg2, hk2⟩ | ⟨e, hg⟩
    · rcases lock_guard.of_promise_done hg1 with ⟨lk1, st1, hp1, rfl, rfl⟩ |
        ⟨st1, hp1, hty1, rfl, rfl⟩ | ⟨st1, f1, fst1, fpr1, hp1, hty1, hfu1, hF1, rfl, rfl⟩ <;>
      rcases lock_guard.of_promise_done hg2 with ⟨lk2, st2, hp2, rfl, rfl⟩ |
        ⟨st2, hp2, hty2, rfl, rfl⟩ | ⟨st2, f2, fst2, fpr2, hp2, hty2, hfu2, hF2, rfl, rfl⟩ <;>
      simp only [Heap.put_promise, Heap.put_future, hne, hne.symm, if_false, if_true,
        ite_false, ite_true] at hp2 hk2 <;>
      (try (have hff : f2 ≠ f1 := by
              intro heq
              simp [Heap.put_promise, Heap.put_future, heq] at hF2)) <;>
      (try (simp only [Heap.put_promise, Heap.put_future] at hF1)) <;>
      (try (simp only [Heap.put_promise, Heap.put_future] at hF2)) <;>
      (try (simp only [hff, if_false] at hF2)) <;>
      (cases hsw : value_storage.swap st1 st2 with
        | none => simp [hp1, hp2, hsw, Step.heap] at hk2
        | some r =>
          obtain ⟨t1, o1⟩ := r
          obtain ⟨ht1, ho1⟩ := value_storage.swap_types hsw
          clear h hk hg1 hg2
          first
            | simp [*, Step.heap, Heap.map_future, Heap.put_future, Heap.put_promise,
                lock_guard.release, lock_guard.unlock, lock_guard.unlock_f, hne.symm,
                Ne.symm hff] at hk2
            | simp [*, Step.heap, Heap.map_future, Heap.put_future, Heap.put_promise,
                lock_guard.release, lock_guard.unlock, lock_guard.unlock_f, hne.symm] at hk2
          subst hk2
          refine ⟨?_, ?_, ?_⟩ <;> intro x Q hQ <;> simp only at hQ <;> (try split_ifs at hQ) <;>
            (try (simp only [Option.some.injEq] at hQ)) <;> (try subst hQ) <;> simp_all)
    · exact (lock_guard.of_promise_not_throws hg).elim
  · exact (lock_guard.of_promise_not_throws hg).elim

/-- A `swap` of two distinct futures that gives control back has changed neither
`_need_locks` nor the tag of a promise; it leaves every lock as it found it when the
promises the two futures point to have `_need_locks` set. -/
theorem future_swap_effect {s s1 : Heap R} {this o : Addr} (hne : this ≠ o)
    (h : (future.swap s this o).heap = some s1) :
    promises_keep_tags s s1 ∧
    ((∀ f F p P, s.futures f = some F → F._promise = some p → s.promises p = some P →
      P._need_locks = true) → locks_kept s s1) := by
  unfold future.swap at h
  rcases Step.and_then_heap h with ⟨g1, sa, hg1, hk⟩ | ⟨e, hg⟩
  · rcases Step.and_then_heap hk with ⟨g2, sb, hg2, hk2⟩ | ⟨e, hg⟩
    · rcases lock_guard.of_future_done hg1 with ⟨fst1, hf1, rfl, rfl⟩ |
        ⟨fst1, p1, nl1, st1, hf1, hP1, rfl, rfl⟩ <;>
      rcases lock_guard.of_future_done hg2 with ⟨fst2, hf2, rfl, rfl⟩ |
        ⟨fst2, p2, nl2, st2, hf2, hP2, rfl, rfl⟩ <;>
      simp only [Heap.put_promise, Heap.put_future, hne, hne.symm, if_false, if_true,
        ite_false, ite_true] at hf2 hk2 <;>
      (try (have hpp : p2 ≠ p1 := by
              intro heq
              simp [Heap.put_promise, Heap.put_future, heq] at hP2)) <;>
      (try (simp only [Heap.put_promise, Heap.put_future] at hP2)) <;>
      (try (simp only [hpp, if_false] at hP2)) <;>
      (cases hsw : value_storage.swap fst1 fst2 with
        | none => simp [hf1, hf2, hsw, Step.heap] at hk2
        | some r =>
          obtain ⟨t1, o1⟩ := r
          obtain ⟨ht1, ho1⟩ := value_storage.swap_types hsw
          clear h hk hg1 hg2
          (try cases nl1) <;> (try cases nl2) <;>
          (first
            | simp [*, Step.heap, Heap.map_promise, Heap.put_future, Heap.put_promise,
                lock_guard.release, lock_guard.unlock, lock_guard.unlock_f, hne.symm,
                Ne.symm hpp] at hk2
            | simp [*, Step.heap, Heap.map_promise, Heap.put_future, Heap.put_promise,
                lock_guard.release, lock_guard.unlock, lock_guard.unlock_f, hne.symm] at hk2) <;>
          subst hk2 <;>
          refine ⟨?_, fun hnl => ?_⟩ <;>
          (try (have hn1 := hnl _ _ _ _ hf1 rfl hP1)) <;>
          (try (have hn2 := hnl _ _ _ _ hf2 rfl hP2)) <;>
          (try (simp only [Bool.false_eq_true] at hn1)) <;>
          (try (simp only [Bool.false_eq_true] at hn2)) <;>
          (try (refine ⟨?_, ?_⟩)) <;>
          intro x Q hQ <;> simp only at hQ <;> (try split_ifs at hQ) <;>
          (try (simp only [Option.some.injEq] at hQ)) <;> (try subst hQ) <;> simp_all)
    · exact (lock_guard.of_future_not_throws hg).elim
  · exact (lock_guard.of_future_not_throws hg).elim

/-- Tags and `_need_locks` kept: locking stays enabled. -/
theorem locking_enabled.of_keep_tags {s s1 : Heap R} (hs : locking_enabled s)
    (h : promises_keep_tags s s1) : locking_enabled s1 := by
  intro p P1 hp hty
  obtain ⟨P, hP, hnl, ht⟩ := h p P1 hp
  rw [hnl]
  exact hs p P hP (ht ▸ hty)

/-- A storage setter never produces the tag `future`. -/
theorem value_storage.set_types {st st1 : value_storage R} :
    (∀ v, st.set_value v = .ok st1 → st1.type ≠ .future) ∧
    (∀ e, st.set_exception e = .ok st1 → st1.type ≠ .future) ∧
    (∀ c, st.set_error c = .ok st1 → st1.type ≠ .future) := by
  refine ⟨?_, ?_, ?_⟩ <;> intro v h <;>
    simp only [value_storage.set_value, value_storage.set_exception,
      value_storage.set_error] at h <;>
    split_ifs at h <;> simp at h <;> subst h <;> simp

/-- The tag after `reset()` is `empty`. -/
theorem value_storage.reset_type (st : value_storage R) : st.reset.type = .empty := by
  obtain ⟨b, t⟩ := st
  cases t <;> rfl

/-- A setter keeps locking enabled. -/
theorem locking_enabled.set_with_keeps_locking
    {set : value_storage R → Except exception_ptr (value_storage R)}
    (hset : ∀ st st1, set st = .ok st1 → st1.type ≠ .future)
    {nothrow : Bool} {s s1 : Heap R} {this : Addr} (hs : locking_enabled s)
    (h : (promise.set_with set nothrow s this).heap = some s1) : locking_enabled s1 := by
  rcases promise.set_with_effect h with rfl | ⟨nl, lk, st, st1, hp, -, hst, rfl⟩ |
    ⟨lk, st, f, flk, fst, fpr, st1, hp, -, -, -, -, rfl⟩
  · exact hs
  · intro q Q hq hty
    simp only [Heap.put_promise] at hq
    split_ifs at hq with hx
    · simp only [Option.some.injEq] at hq
      subst hq
      exact absurd hty (hset _ _ hst)
    · exact hs q Q hq hty
  · exact fun q Q hq hty => hs q Q hq hty

/-- The body of `~promise()` keeps locking enabled. -/
theorem locking_enabled.promise_dtor_body_keeps_locking {s s1 : Heap R} {this : Addr}
    (hs : locking_enabled s) (h : (promise.dtor_body s this).heap = some s1) :
    locking_enabled s1 := by
  rcases promise.dtor_body_effect h with ⟨nl, lk, st, hp, -, rfl⟩ |
    ⟨st, f, fst, fpr, hp, -, -, -, rfl⟩ <;>
  · intro q Q hq hty
    simp only [Heap.put_promise, Heap.put_future] at hq
    split_ifs at hq with hx
    · simp only [Option.some.injEq] at hq
      subst hq
      simp [value_storage.reset_type] at hty
    · exact hs q Q hq hty

/-- The move constructor of a promise keeps locking enabled. -/
theorem locking_enabled.promise_move_ctor_keeps_locking {s s1 : Heap R} {this o : Addr} (hne : this ≠ o)
    (hs : locking_enabled s) (h : (promise.move_ctor s this o).heap = some s1) :
    locking_enabled s1 := by
  rcases promise_move_ctor_effect hne h with ⟨nl, lk, st, n, o1, hp, -, hm, rfl⟩ |
    ⟨st, f, fst, fpr, hp, -, -, -, rfl⟩
  · obtain ⟨hn, ho⟩ := value_storage.move_types hm
    have h1 := hs _ _ hp
    intro q Q hq hty
    simp only [Heap.put_promise] at hq
    split_ifs at hq
    · simp only [Option.some.injEq] at hq
      subst hq
      simp_all
    · simp only [Option.some.injEq] at hq
      subst hq
      simp_all
    · exact hs q Q hq hty
  · intro q Q hq hty
    simp only [Heap.put_promise, Heap.put_future] at hq
    split_ifs at hq
    · simp only [Option.some.injEq] at hq
      subst hq
      simp_all
    · simp only [Option.some.injEq] at hq
      subst hq
      rfl
    · exact hs q Q hq hty

/-- The move assignment of a promise keeps locking enabled. -/
theorem locking_enabled.promise_move_assign_keeps_locking {s s1 : Heap R} {this o : Addr} (hne : this ≠ o)
    (hs : locking_enabled s) (h : (promise.move_assign s this o).heap = some s1) :
    locking_enabled s1 := by
  obtain ⟨s0, nlT, lkT, stT, hd, hT, hcases⟩ := promise.move_assign_effect hne h
  have hs0 := locking_enabled.promise_dtor_body_keeps_locking hs hd
  rcases hcases with ⟨nl, lk, st, n, o1, hp, -, hm, rfl⟩ | ⟨st, f, fst, fpr, hp, -, -, -, rfl⟩
  · obtain ⟨hn, ho⟩ := value_storage.move_types hm
    have h1 := hs0 _ _ hp
    intro q Q hq hty
    simp only [Heap.put_promise] at hq
    split_ifs at hq
    · simp only [Option.some.injEq] at hq
      subst hq
      simp_all
    · simp only [Option.some.injEq] at hq
      subst hq
      simp_all
    · exact hs0 q Q hq hty
  · intro q Q hq hty
    simp only [Heap.put_promise, Heap.put_future] at hq
    split_ifs at hq
    · simp only [Option.some.injEq] at hq
      subst hq
      simp_all
    · simp only [Option.some.injEq] at hq
      subst hq
      rfl
    · exact hs0 q Q hq hty

/-- The destructor `~promise()` keeps locking enabled. -/
theorem locking_enabled.promise_dtor_keeps_locking {s s1 : Heap R} {this : Addr}
    (hs : locking_enabled s) (h : (promise.dtor s this).heap = some s1) :
    locking_enabled s1 := by
  rcases promise_dtor_effect h with ⟨nl, lk, st, hp, -, rfl⟩ |
    ⟨st, f, fst, fpr, hp, -, -, -, rfl⟩ <;>
  · intro q Q hq hty
    simp only [Heap.del_promise, Heap.put_future] at hq
    split_ifs at hq with hx
    exact hs q Q hq hty

/-- Member `get_future()` keeps locking enabled. -/
theorem locking_enabled.get_future_keeps_locking {s s1 : Heap R} {this tmp dst : Addr} (hne : tmp ≠ dst)
    (hs : locking_enabled s) (h : (promise.get_future s this tmp dst).heap = some s1) :
    locking_enabled s1 := by
  rcases promise.get_future_effect hne h with ⟨nl, lk, st, hp, -, rfl⟩ |
    ⟨nl, lk, st, n, o1, hp, -, -, rfl⟩ <;>
  · intro q Q hq hty
    simp only [Heap.put_promise, Heap.put_future, Heap.del_future] at hq
    split_ifs at hq with hx
    · simp only [Option.some.injEq] at hq
      subst hq
      rfl
    · exact hs q Q hq hty

/-- The destructor `~future()` keeps locking enabled. -/
theorem locking_enabled.future_dtor_keeps_locking {s s1 : Heap R} {this : Addr}
    (hs : locking_enabled s) (h : (future.dtor s this).heap = some s1) :
    locking_enabled s1 := by
  rcases future_dtor_effect h with ⟨fst, hf, rfl⟩ | ⟨fst, p, nl, st, hf, hp, rfl⟩
  · exact fun q Q hq hty => hs q Q hq hty
  · intro q Q hq hty
    simp only [Heap.put_promise, Heap.del_future] at hq
    split_ifs at hq
    all_goals first
      | exact hs q Q hq hty
      | (simp only [Option.some.injEq] at hq
         subst hq
         first
           | rfl
           | (have h2 := hs _ _ hp
              simp only [value_storage.reset_type] at hty h2
              first | exact h2 hty | simp at hty))

/-- The move constructor of a future keeps locking enabled. -/
theorem locking_enabled.future_move_ctor_keeps_locking {s s1 : Heap R} {this o : Addr} (hne : this ≠ o)
    (hs : locking_enabled s) (h : (future.move_ctor s this o).heap = some s1) :
    locking_enabled s1 := by
  rcases future_move_ctor_effect hne h with ⟨fst, n, o1, hf, -, rfl⟩ |
    ⟨fst, p, nl, st, n, o1, hf, hp, -, rfl⟩
  · exact fun q Q hq hty => hs q Q hq hty
  · intro q Q hq hty
    simp only [Heap.put_promise, Heap.put_future] at hq
    split_ifs at hq
    all_goals first
      | exact hs q Q hq hty
      | (simp only [Option.some.injEq] at hq
         subst hq
         first
           | rfl
           | (have h2 := hs _ _ hp
              simp only [value_storage.reset_type] at hty h2
              first | exact h2 hty | simp at hty))

/-- The move assignment of a future keeps locking enabled. -/
theorem locking_enabled.future_move_assign_keeps_locking {s s1 : Heap R} {this o : Addr} (hne : this ≠ o)
    (hs : locking_enabled s) (h : (future.move_assign s this o).heap = some s1) :
    locking_enabled s1 := by
  unfold future.move_assign at h
  rcases Step.and_then_heap h with ⟨u, s0, hd, hk⟩ | ⟨e, hd⟩
  · exact locking_enabled.future_move_ctor_keeps_locking hne
      (locking_enabled.future_dtor_keeps_locking hs (by rw [hd]; rfl)) hk
  · exact (future.dtor_not_throws hd).elim

/-- A retrieval keeps locking enabled: it either changes no promise or resets one. -/
theorem locking_enabled.retrieval_keeps_locking {s s1 : Heap R} (this : Addr) (hs : locking_enabled s)
    (h : s1 = s ∨
      (∃ fst p nl st, s.futures this = some ⟨.unlocked, fst, some p⟩ ∧
        s.promises p = some ⟨nl, .unlocked, st⟩ ∧
        (s1 = (s.put_future this
              ⟨if nl = true then .unlocked else .locked, fst.reset, none⟩).put_promise
            p ⟨nl, if nl = true then .unlocked else .locked, st.reset⟩ ∨
         s1 = (s.put_future this
              ⟨if nl = true then .unlocked else .locked, fst, some p⟩).put_promise
            p ⟨nl, if nl = true then .unlocked else .locked, st⟩))) :
    locking_enabled s1 := by
  rcases h with rfl | ⟨fst, p, nl, st, hf, hp, rfl | rfl⟩
  · exact hs
  · intro q Q hq hty
    simp only [Heap.put_promise, Heap.put_future] at hq
    split_ifs at hq
    all_goals first
      | exact hs q Q hq hty
      | (simp only [Option.some.injEq] at hq
         subst hq
         first
           | rfl
           | (have h2 := hs _ _ hp
              simp only [value_storage.reset_type] at hty h2
              first | exact h2 hty | simp at hty))
  · intro q Q hq hty
    simp only [Heap.put_promise, Heap.put_future] at hq
    split_ifs at hq
    all_goals first
      | exact hs q Q hq hty
      | (simp only [Option.some.injEq] at hq
         subst hq
         first
           | rfl
           | (have h2 := hs _ _ hp
              simp only [value_storage.reset_type] at hty h2
              first | exact h2 hty | simp at hty))

/-- Every proper operation keeps locking enabled. -/
theorem locking_enabled.step_keeps_locking {s s1 : Heap R} (op : public_op R) (hs : locking_enabled s)
    (hp : op.proper s) (h : op.next s = some s1) : locking_enabled s1 := by
  cases op with
  | promise_ctor this =>
    simp only [public_op.next, Option.some.injEq] at h
    subst h
    intro q Q hq hty
    simp only [promise.ctor, Heap.put_promise] at hq
    split_ifs at hq with hx
    · simp only [Option.some.injEq] at hq
      subst hq
      simp [value_storage.init] at hty
    · exact hs q Q hq hty
  | promise_move_ctor this o => exact locking_enabled.promise_move_ctor_keeps_locking hp.2 hs h
  | promise_move_assign this o => exact locking_enabled.promise_move_assign_keeps_locking hp hs h
  | promise_dtor this => exact locking_enabled.promise_dtor_keeps_locking hs h
  | promise_swap this o => exact hs.of_keep_tags (promise_swap_effect hp h).1
  | get_future this tmp dst => exact locking_enabled.get_future_keeps_locking hp.2.2 hs h
  | set_value nothrow this v =>
    exact locking_enabled.set_with_keeps_locking (fun st st1 => value_storage.set_types.1 v) hs h
  | set_exception this e =>
    exact locking_enabled.set_with_keeps_locking (fun st st1 => value_storage.set_types.2.1 e) hs h
  | set_error this c =>
    exact locking_enabled.set_with_keeps_locking (fun st st1 => value_storage.set_types.2.2 c) hs h
  | future_ctor this =>
    simp only [public_op.next, Option.some.injEq] at h
    subst h
    exact fun q Q hq hty => hs q Q hq hty
  | future_move_ctor this o => exact locking_enabled.future_move_ctor_keeps_locking hp.2 hs h
  | future_move_assign this o => exact locking_enabled.future_move_assign_keeps_locking hp hs h
  | future_dtor this => exact locking_enabled.future_dtor_keeps_locking hs h
  | future_swap this o => exact hs.of_keep_tags (future_swap_effect hp h).1
  | get this =>
    refine locking_enabled.retrieval_keeps_locking this hs ?_
    rcases future.get_effect h with h1 | ⟨fst, p, nl, st, hf, hP, h1⟩
    · exact Or.inl h1
    · exact Or.inr ⟨fst, p, nl, st, hf, hP, Or.inl h1⟩
  | get_exception_ptr this => exact locking_enabled.retrieval_keeps_locking this hs (future.get_exception_ptr_effect h)
  | get_error this => exact locking_enabled.retrieval_keeps_locking this hs (future.get_error_effect h)

/-- C18. Linked implies locking enabled: in every heap reached from the heap without
objects by constructions, destructions, moves, swaps, `get_future`, the setters and the
retrievals, every promise tagged `future` has `_need_locks` set; so a guard constructed on
such a promise never returns from the lock-free fast path: if it completes, it reports
the future in `_f`. -/
theorem linked_implies_locking_enabled (s : Heap R) (h : reachable s) :
    locking_enabled s ∧
    ∀ p P g s1, s.promises p = some P → P._storage.type = .future →
      lock_guard.of_promise s p = .done g s1 → g._f.isSome = true := by
  have hle : locking_enabled s := by
    induction h with
    | start => intro p P hp; simp [Heap.empty] at hp
    | step op _ hp hn ih => exact ih.step_keeps_locking op hp hn
  refine ⟨hle, ?_⟩
  intro p P g s1 hp hty hg
  have hnl := hle p P hp hty
  rcases lock_guard.of_promise_done hg with ⟨lk, st, hp1, rfl, rfl⟩ |
    ⟨st, hp1, hty1, rfl, rfl⟩ | ⟨st, f, fst, fpr, hp1, hty1, hfu, hF, rfl, rfl⟩
  · rw [hp] at hp1
    simp only [Option.some.injEq] at hp1
    subst hp1
    simp at hnl
  · rw [hp] at hp1
    simp only [Option.some.injEq] at hp1
    subst hp1
    exact absurd hty hty1
  · rfl

/-- The heap `pending_pair` is reachable: a promise is constructed at 1 and `get_future`
returns its future at 11. -/
theorem pending_pair_reachable : reachable pending_pair :=
  reachable.step (.get_future 1 10 11)
    (reachable.step (.promise_ctor 1) reachable.start rfl rfl)
    ⟨rfl, rfl, by decide⟩
    (by simp only [public_op.next]; rw [pending_pair_reached]; rfl)

/-- Witness of C18 on `pending_pair`. -/
theorem linked_implies_locking_enabled_witness :
    reachable pending_pair ∧ locking_enabled pending_pair :=
  ⟨pending_pair_reachable, (linked_implies_locking_enabled pending_pair pending_pair_reachable).1⟩

/-- The accessor `future_()` returns a pointer exactly when the buffer holds it. -/
theorem value_storage.future_eq (st : value_storage R) (x : Option Addr) :
    st.future_ = some x ↔ st._buffer = .future_ x := by
  obtain ⟨b, t⟩ := st
  cases b <;> simp [value_storage.future_]

/-- The two descriptions of a well linked heap agree. -/
theorem well_linked_iff (s : Heap R) : well_linked s ↔ linked_both_ways s := by
  constructor
  · rintro ⟨hc, hl, hd1, hd2⟩
    refine ⟨?_, ?_⟩
    · intro p P hp hty
      obtain ⟨f, F, hb, hF⟩ := hd1 p P hp hty
      refine ⟨hl p P hp hty, f, hb, ?_⟩
      have := (hc p f P F hp hF).1 ⟨hty, by simp [value_storage.future_, hb]⟩
      simp [hF, this]
    · intro f F p hF hFp
      obtain ⟨P, hP⟩ := hd2 f F p hF hFp
      obtain ⟨hty, hfu⟩ := (hc p f P F hP hF).2 hFp
      rw [value_storage.future_eq] at hfu
      obtain ⟨nl, lk, b, t⟩ := P
      simp only at hty hfu
      subst hty hfu
      simp [hP]
  · rintro ⟨h1, h2⟩
    refine ⟨?_, ?_, ?_, ?_⟩
    · intro p f P F hp hF
      constructor
      · rintro ⟨hty, hfu⟩
        rw [value_storage.future_eq] at hfu
        obtain ⟨-, f1, hb, hFp⟩ := h1 p P hp hty
        rw [hfu] at hb
        simp only [buffer.future_.injEq, Option.some.injEq] at hb
        subst hb
        simpa [hF] using hFp
      · intro hFp
        have := h2 f F p hF hFp
        rw [hp] at this
        simp only [Option.map_some', Option.some.injEq] at this
        simp [this, value_storage.future_]
    · exact fun p P hp hty => (h1 p P hp hty).1
    · intro p P hp hty
      obtain ⟨-, f, hb, hF⟩ := h1 p P hp hty
      cases hFf : s.futures f with
      | none => simp [hFf] at hF
      | some F => exact ⟨f, F, hb, hFf⟩
    · intro f F p hF hFp
      have := h2 f F p hF hFp
      cases hP : s.promises p with
      | none => simp [hP] at this
      | some P => exact ⟨P, rfl⟩

/-- The body of `~promise()` keeps the links seen from each side. -/
theorem linked_both_ways.promise_dtor_body_keeps_links {s s1 : Heap R} {this : Addr}
    (hs : linked_both_ways s) (h : (promise.dtor_body s this).heap = some s1) :
    linked_both_ways s1 := by
  obtain ⟨h1, h2⟩ := hs
  rcases promise.dtor_body_effect h with ⟨nl, lk, st, hp, hor, rfl⟩ |
    ⟨st, f, fst, fpr, hp, hty, hfu, hF, rfl⟩
  · clear h
    have a1 := h1 _ _ hp
    have a3 := st.reset_type
    refine ⟨?_, ?_⟩
    · intro q Q hq hQ
      simp only [Heap.put_promise, Heap.put_future, Heap.del_promise, Heap.del_future] at hq ⊢
      try split_ifs at hq
      all_goals first
        | (simp only [Option.some.injEq] at hq
           subst hq
           clear h1 h2
           simp_all <;> done)
        | (obtain ⟨hnl, g, hb, hg⟩ := h1 q Q hq hQ
           refine ⟨hnl, g, hb, ?_⟩
           clear h1 h2
           (try split_ifs) <;> simp_all <;> done)
    · intro g G q hG hGq
      simp only [Heap.put_promise, Heap.put_future, Heap.del_promise, Heap.del_future] at hG ⊢
      try split_ifs at hG
      all_goals first
        | (simp only [Option.some.injEq] at hG
           subst hG
           clear h1 h2
           simp_all <;> done)
        | (have b2 := h2 g G q hG hGq
           clear h1 h2
           (try split_ifs) <;> simp_all <;> done)
  · clear h
    rw [value_storage.future_eq] at hfu
    have a1 := h1 _ _ hp
    refine ⟨?_, ?_⟩
    · intro q Q hq hQ
      simp only [Heap.put_promise, Heap.put_future, Heap.del_promise, Heap.del_future] at hq ⊢
      try split_ifs at hq
      all_goals first
        | (simp only [Option.some.injEq] at hq
           subst hq
           clear h1 h2
           simp_all <;> done)
        | (obtain ⟨hnl, g, hb, hg⟩ := h1 q Q hq hQ
           refine ⟨hnl, g, hb, ?_⟩
           clear h1 h2
           (try split_ifs) <;> simp_all <;> done)
    · intro g G q hG hGq
      simp only [Heap.put_promise, Heap.put_future, Heap.del_promise, Heap.del_future] at hG ⊢
      try split_ifs at hG
      all_goals first
        | (simp only [Option.some.injEq] at hG
           subst hG
           clear h1 h2
           simp_all <;> done)
        | (have b2 := h2 g G q hG hGq
           clear h1 h2
           (try split_ifs) <;> simp_all <;> done)

/-- The destructor `~future()` keeps the links seen from each side. -/
theorem linked_both_ways.future_dtor_keeps_links {s s1 : Heap R} {this : Addr}
    (hs : linked_both_ways s) (h : (future.dtor s this).heap = some s1) :
    linked_both_ways s1 := by
  obtain ⟨h1, h2⟩ := hs
  rcases future_dtor_effect h with ⟨fst, hf, rfl⟩ | ⟨fst, p, nl, st, hf, hp, rfl⟩
  · clear h
    refine ⟨?_, ?_⟩
    · intro q Q hq hQ
      simp only [Heap.put_promise, Heap.put_future, Heap.del_promise, Heap.del_future] at hq ⊢
      try split_ifs at hq
      all_goals first
        | (simp only [Option.some.injEq] at hq
           subst hq
           clear h1 h2
           simp_all <;> done)
        | (obtain ⟨hnl, g, hb, hg⟩ := h1 q Q hq hQ
           refine ⟨hnl, g, hb, ?_⟩
           clear h1 h2
           (try split_ifs) <;> simp_all <;> done)
    · intro g G q hG hGq
      simp only [Heap.put_promise, Heap.put_future, Heap.del_promise, Heap.del_future] at hG ⊢
      try split_ifs at hG
      all_goals first
        | (simp only [Option.some.injEq] at hG
           subst hG
           clear h1 h2
           simp_all <;> done)
        | (have b2 := h2 g G q hG hGq
           clear h1 h2
           (try split_ifs) <;> simp_all <;> done)
  · clear h
    have a2 := h2 _ _ _ hf rfl
    have a1 := h1 _ _ hp
    have a3 := st.reset_type
    refine ⟨?_, ?_⟩
    · intro q Q hq hQ
      simp only [Heap.put_promise, Heap.put_future, Heap.del_promise, Heap.del_future] at hq ⊢
      try split_ifs at hq
      all_goals first
        | (simp only [Option.some.injEq] at hq
           subst hq
           clear h1 h2
           simp_all <;> done)
        | (obtain ⟨hnl, g, hb, hg⟩ := h1 q Q hq hQ
           refine ⟨hnl, g, hb, ?_⟩
           clear h1 h2
           (try split_ifs) <;> simp_all <;> done)
    · intro g G q hG hGq
      simp only [Heap.put_promise, Heap.put_future, Heap.del_promise, Heap.del_future] at hG ⊢
      try split_ifs at hG
      all_goals first
        | (simp only [Option.some.injEq] at hG
           subst hG
           clear h1 h2
           simp_all <;> done)
        | (have b2 := h2 g G q hG hGq
           clear h1 h2
           (try split_ifs) <;> simp_all <;> done)

/-- Locks at rest are free. -/
theorem locks_at_rest.free {s : Heap R} (h : locks_at_rest s) : locks_free s :=
  ⟨fun p P hp => (h.1 p P hp).1, fun f F hF => by simp [h.2 f F hF]⟩

/-- The body of `~promise()` leaves the locks at rest. -/
theorem locks_at_rest.promise_dtor_body_keeps_rest {s s1 : Heap R} {this : Addr} (hw : linked_both_ways s) (hl : locks_at_rest s)
    (h : (promise.dtor_body s this).heap = some s1) :
    locks_at_rest s1 := by
  obtain ⟨h1, h2⟩ := hw
  obtain ⟨l1, l2⟩ := hl
  rcases promise.dtor_body_effect h with ⟨nl, lk, st, hp, hor, rfl⟩ |
    ⟨st, f, fst, fpr, hp, hty, hfu, hF, rfl⟩
  · clear h
    have b1 := l1 _ _ hp
    refine ⟨?_, ?_⟩
    · intro q Q hq
      simp only [Heap.put_promise, Heap.put_future, Heap.del_promise, Heap.del_future] at hq
      try split_ifs at hq
      all_goals first
        | (simp only [Option.some.injEq] at hq
           subst hq
           clear h1 h2 l1 l2
           simp_all <;> done)
        | exact l1 _ _ hq
    · intro g G hG
      simp only [Heap.put_promise, Heap.put_future, Heap.del_promise, Heap.del_future] at hG
      try split_ifs at hG
      all_goals first
        | (simp only [Option.some.injEq] at hG
           subst hG
           clear h1 h2 l1 l2
           simp_all <;> done)
        | exact l2 _ _ hG
  · clear h
    have b1 := l1 _ _ hp
    have b2 := l2 _ _ hF
    refine ⟨?_, ?_⟩
    · intro q Q hq
      simp only [Heap.put_promise, Heap.put_future, Heap.del_promise, Heap.del_future] at hq
      try split_ifs at hq
      all_goals first
        | (simp only [Option.some.injEq] at hq
           subst hq
           clear h1 h2 l1 l2
           simp_all <;> done)
        | exact l1 _ _ hq
    · intro g G hG
      simp only [Heap.put_promise, Heap.put_future, Heap.del_promise, Heap.del_future] at hG
      try split_ifs at hG
      all_goals first
        | (simp only [Option.some.injEq] at hG
           subst hG
           clear h1 h2 l1 l2
           simp_all <;> done)
        | exact l2 _ _ hG

/-- The destructor `~promise()` leaves the locks at rest. -/
theorem locks_at_rest.promise_dtor_keeps_rest {s s1 : Heap R} {this : Addr} (hw : linked_both_ways s) (hl : locks_at_rest s)
    (h : (promise.dtor s this).heap = some s1) :
    locks_at_rest s1 := by
  obtain ⟨h1, h2⟩ := hw
  obtain ⟨l1, l2⟩ := hl
  rcases promise_dtor_effect h with ⟨nl, lk, st, hp, hor, rfl⟩ |
    ⟨st, f, fst, fpr, hp, hty, hfu, hF, rfl⟩
  · clear h
    have b1 := l1 _ _ hp
    refine ⟨?_, ?_⟩
    · intro q Q hq
      simp only [Heap.put_promise, Heap.put_future, Heap.del_promise, Heap.del_future] at hq
      try split_ifs at hq
      all_goals first
        | (simp only [Option.some.injEq] at hq
           subst hq
           clear h1 h2 l1 l2
           simp_all <;> done)
        | exact l1 _ _ hq
    · intro g G hG
      simp only [Heap.put_promise, Heap.put_future, Heap.del_promise, Heap.del_future] at hG
      try split_ifs at hG
      all_goals first
        | (simp only [Option.some.injEq] at hG
           subst hG
           clear h1 h2 l1 l2
           simp_all <;> done)
        | exact l2 _ _ hG
  · clear h
    have b1 := l1 _ _ hp
    have b2 := l2 _ _ hF
    refine ⟨?_, ?_⟩
    · intro q Q hq
      simp only [Heap.put_promise, Heap.put_future, Heap.del_promise, Heap.del_future] at hq
      try split_ifs at hq
      all_goals first
        | (simp only [Option.some.injEq] at hq
           subst hq
           clear h1 h2 l1 l2
           simp_all <;> done)
        | exact l1 _ _ hq
    · intro g G hG
      simp only [Heap.put_promise, Heap.put_future, Heap.del_promise, Heap.del_future] at hG
      try split_ifs at hG
      all_goals first
        | (simp only [Option.some.injEq] at hG
           subst hG
           clear h1 h2 l1 l2
           simp_all <;> done)
        | exact l2 _ _ hG

/-- Member `get_future()` leaves the locks at rest. -/
theorem locks_at_rest.get_future_keeps_rest {s s1 : Heap R} {this tmp dst : Addr} (hne : tmp ≠ dst)
    (hw : linked_both_ways s) (hl : locks_at_rest s)
    (h : (promise.get_future s this tmp dst).heap = some s1) :
    locks_at_rest s1 := by
  obtain ⟨h1, h2⟩ := hw
  obtain ⟨l1, l2⟩ := hl
  rcases promise.get_future_effect hne h with ⟨nl, lk, st, hp, hty, rfl⟩ |
    ⟨nl, lk, st, n, o1, hp, hty, hm, rfl⟩
  · clear h
    have b1 := l1 _ _ hp
    refine ⟨?_, ?_⟩
    · intro q Q hq
      simp only [Heap.put_promise, Heap.put_future, Heap.del_promise, Heap.del_future] at hq
      try split_ifs at hq
      all_goals first
        | (simp only [Option.some.injEq] at hq
           subst hq
           clear h1 h2 l1 l2
           simp_all <;> done)
        | exact l1 _ _ hq
    · intro g G hG
      simp only [Heap.put_promise, Heap.put_future, Heap.del_promise, Heap.del_future] at hG
      try split_ifs at hG
      all_goals first
        | (simp only [Option.some.injEq] at hG
           subst hG
           clear h1 h2 l1 l2
           simp_all <;> done)
        | exact l2 _ _ hG
  · clear h
    have b1 := l1 _ _ hp
    refine ⟨?_, ?_⟩
    · intro q Q hq
      simp only [Heap.put_promise, Heap.put_future, Heap.del_promise, Heap.del_future] at hq
      try split_ifs at hq
      all_goals first
        | (simp only [Option.some.injEq] at hq
           subst hq
           clear h1 h2 l1 l2
           simp_all <;> done)
        | exact l1 _ _ hq
    · intro g G hG
      simp only [Heap.put_promise, Heap.put_future, Heap.del_promise, Heap.del_future] at hG
      try split_ifs at hG
      all_goals first
        | (simp only [Option.some.injEq] at hG
           subst hG
           clear h1 h2 l1 l2
           simp_all <;> done)
        | exact l2 _ _ hG

/-- A setter leaves the locks at rest. -/
theorem locks_at_rest.set_with_keeps_rest {set : value_storage R → Except exception_ptr (value_storage R)}
    {nothrow : Bool} {s s1 : Heap R} {this : Addr} (hw : linked_both_ways s) (hl : locks_at_rest s)
    (h : (promise.set_with set nothrow s this).heap = some s1) :
    locks_at_rest s1 := by
  obtain ⟨h1, h2⟩ := hw
  obtain ⟨l1, l2⟩ := hl
  rcases promise.set_with_effect h with rfl | ⟨nl, lk, st, st1, hp, hor, hst, rfl⟩ |
    ⟨lk, st, f, flk, fst, fpr, st1, hp, hty, hfu, hF, hst, rfl⟩
  · exact ⟨l1, l2⟩
  · clear h
    have b1 := l1 _ _ hp
    refine ⟨?_, ?_⟩
    · intro q Q hq
      simp only [Heap.put_promise, Heap.put_future, Heap.del_promise, Heap.del_future] at hq
      try split_ifs at hq
      all_goals first
        | (simp only [Option.some.injEq] at hq
           subst hq
           clear h1 h2 l1 l2
           simp_all <;> done)
        | exact l1 _ _ hq
    · intro g G hG
      simp only [Heap.put_promise, Heap.put_future, Heap.del_promise, Heap.del_future] at hG
      try split_ifs at hG
      all_goals first
        | (simp only [Option.some.injEq] at hG
           subst hG
           clear h1 h2 l1 l2
           simp_all <;> done)
        | exact l2 _ _ hG
  · clear h
    have b1 := l1 _ _ hp
    have b2 := l2 _ _ hF
    refine ⟨?_, ?_⟩
    · intro q Q hq
      simp only [Heap.put_promise, Heap.put_future, Heap.del_promise, Heap.del_future] at hq
      try split_ifs at hq
      all_goals first
        | (simp only [Option.some.injEq] at hq
           subst hq
           clear h1 h2 l1 l2
           simp_all <;> done)
        | exact l1 _ _ hq
    · intro g G hG
      simp only [Heap.put_promise, Heap.put_future, Heap.del_promise, Heap.del_future] at hG
      try split_ifs at hG
      all_goals first
        | (simp only [Option.some.injEq] at hG
           subst hG
           clear h1 h2 l1 l2
           simp_all <;> done)
        | exact l2 _ _ hG

/-- The destructor `~future()` leaves the locks at rest. -/
theorem locks_at_rest.future_dtor_keeps_rest {s s1 : Heap R} {this : Addr} (hw : linked_both_ways s) (hl : locks_at_rest s)
    (h : (future.dtor s this).heap = some s1) :
    locks_at_rest s1 := by
  obtain ⟨h1, h2⟩ := hw
  obtain ⟨l1, l2⟩ := hl
  rcases future_dtor_effect h with ⟨fst, hf, rfl⟩ | ⟨fst, p, nl, st, hf, hp, rfl⟩
  · clear h
    refine ⟨?_, ?_⟩
    · intro q Q hq
      simp only [Heap.put_promise, Heap.put_future, Heap.del_promise, Heap.del_future] at hq
      try split_ifs at hq
      all_goals first
        | (simp only [Option.some.injEq] at hq
           subst hq
           clear h1 h2 l1 l2
           simp_all <;> done)
        | exact l1 _ _ hq
    · intro g G hG
      simp only [Heap.put_promise, Heap.put_future, Heap.del_promise, Heap.del_future] at hG
      try split_ifs at hG
      all_goals first
        | (simp only [Option.some.injEq] at hG
           subst hG
           clear h1 h2 l1 l2
           simp_all <;> done)
        | exact l2 _ _ hG
  · clear h
    have a2 := h2 _ _ _ hf rfl
    have a1 := h1 _ _ hp
    have b1 := l1 _ _ hp
    refine ⟨?_, ?_⟩
    · intro q Q hq
      simp only [Heap.put_promise, Heap.put_future, Heap.del_promise, Heap.del_future] at hq
      try split_ifs at hq
      all_goals first
        | (simp only [Option.some.injEq] at hq
           subst hq
           clear h1 h2 l1 l2
           simp_all <;> done)
        | exact l1 _ _ hq
    · intro g G hG
      simp only [Heap.put_promise, Heap.put_future, Heap.del_promise, Heap.del_future] at hG
      try split_ifs at hG
      all_goals first
        | (simp only [Option.some.injEq] at hG
           subst hG
           clear h1 h2 l1 l2
           simp_all <;> done)
        | exact l2 _ _ hG

/-- The move constructor of a future leaves the locks at rest. -/
theorem locks_at_rest.future_move_ctor_keeps_rest {s s1 : Heap R} {this o : Addr} (hne : this ≠ o)
    (hw : linked_both_ways s) (hl : locks_at_rest s)
    (h : (future.move_ctor s this o).heap = some s1) :
    locks_at_rest s1 := by
  obtain ⟨h1, h2⟩ := hw
  obtain ⟨l1, l2⟩ := hl
  rcases future_move_ctor_effect hne h with ⟨fst, n, o1, hf, hm, rfl⟩ |
    ⟨fst, p, nl, st, n, o1, hf, hp, hm, rfl⟩
  · clear h
    refine ⟨?_, ?_⟩
    · intro q Q hq
      simp only [Heap.put_promise, Heap.put_future, Heap.del_promise, Heap.del_future] at hq
      try split_ifs at hq
      all_goals first
        | (simp only [Option.some.injEq] at hq
           subst hq
           clear h1 h2 l1 l2
           simp_all <;> done)
        | exact l1 _ _ hq
    · intro g G hG
      simp only [Heap.put_promise, Heap.put_future, Heap.del_promise, Heap.del_future] at hG
      try split_ifs at hG
      all_goals first
        | (simp only [Option.some.injEq] at hG
           subst hG
           clear h1 h2 l1 l2
           simp_all <;> done)
        | exact l2 _ _ hG
  · clear h
    have a2 := h2 _ _ _ hf rfl
    have a1 := h1 _ _ hp
    have b1 := l1 _ _ hp
    refine ⟨?_, ?_⟩
    · intro q Q hq
      simp only [Heap.put_promise, Heap.put_future, Heap.del_promise, Heap.del_future] at hq
      try split_ifs at hq
      all_goals first
        | (simp only [Option.some.injEq] at hq
           subst hq
           clear h1 h2 l1 l2
           simp_all <;> done)
        | exact l1 _ _ hq
    · intro g G hG
      simp only [Heap.put_promise, Heap.put_future, Heap.del_promise, Heap.del_future] at hG
      try split_ifs at hG
      all_goals first
        | (simp only [Option.some.injEq] at hG
           subst hG
           clear h1 h2 l1 l2
           simp_all <;> done)
        | exact l2 _ _ hG

/-- A retrieval leaves the locks at rest. -/
theorem locks_at_rest.retrieval_keeps_rest {s s1 : Heap R} (this : Addr)
    (hw : linked_both_ways s) (hl : locks_at_rest s)
    (h : s1 = s ∨
      (∃ fst p nl st, s.futures this = some ⟨.unlocked, fst, some p⟩ ∧
        s.promises p = some ⟨nl, .unlocked, st⟩ ∧
        (s1 = (s.put_future this
              ⟨if nl = true then .unlocked else .locked, fst.reset, none⟩).put_promise
            p ⟨nl, if nl = true then .unlocked else .locked, st.reset⟩ ∨
         s1 = (s.put_future this
              ⟨if nl = true then .unlocked else .locked, fst, some p⟩).put_promise
            p ⟨nl, if nl = true then .unlocked else .locked, st⟩))) :
    locks_at_rest s1 := by
  obtain ⟨h1, h2⟩ := hw
  obtain ⟨l1, l2⟩ := hl
  rcases h with rfl | ⟨fst, p, nl, st, hf, hp, rfl | rfl⟩
  · exact ⟨l1, l2⟩
  · have a2 := h2 _ _ _ hf rfl
    have a1 := h1 _ _ hp
    have b1 := l1 _ _ hp
    refine ⟨?_, ?_⟩
    · intro q Q hq
      simp only [Heap.put_promise, Heap.put_future, Heap.del_promise, Heap.del_future] at hq
      try split_ifs at hq
      all_goals first
        | (simp only [Option.some.injEq] at hq
           subst hq
           clear h1 h2 l1 l2
           simp_all <;> done)
        | exact l1 _ _ hq
    · intro g G hG
      simp only [Heap.put_promise, Heap.put_future, Heap.del_promise, Heap.del_future] at hG
      try split_ifs at hG
      all_goals first
        | (simp only [Option.some.injEq] at hG
           subst hG
           clear h1 h2 l1 l2
           simp_all <;> done)
        | exact l2 _ _ hG
  · have a2 := h2 _ _ _ hf rfl
    have a1 := h1 _ _ hp
    have b1 := l1 _ _ hp
    refine ⟨?_, ?_⟩
    · intro q Q hq
      simp only [Heap.put_promise, Heap.put_future, Heap.del_promise, Heap.del_future] at hq
      try split_ifs at hq
      all_goals first
        | (simp only [Option.some.injEq] at hq
           subst hq
           clear h1 h2 l1 l2
           simp_all <;> done)
        | exact l1 _ _ hq
    · intro g G hG
      simp only [Heap.put_promise, Heap.put_future, Heap.del_promise, Heap.del_future] at hG
      try split_ifs at hG
      all_goals first
        | (simp only [Option.some.injEq] at hG
           subst hG
           clear h1 h2 l1 l2
           simp_all <;> done)
        | exact l2 _ _ hG

/-- The move constructor of a promise leaves no lock held. -/
theorem locks_free.promise_move_ctor_leaves_free {s s1 : Heap R} {this o : Addr} (hne : this ≠ o)
    (hw : linked_both_ways s) (hl : locks_at_rest s)
    (h : (promise.move_ctor s this o).heap = some s1) :
    locks_free s1 := by
  obtain ⟨h1, h2⟩ := hw
  obtain ⟨l1, l2⟩ := hl
  rcases promise_move_ctor_effect hne h with ⟨nl, lk, st, n, o1, hp, hor, hm, rfl⟩ |
    ⟨st, f, fst, fpr, hp, hty, hfu, hF, rfl⟩
  · clear h
    have b1 := l1 _ _ hp
    refine ⟨?_, ?_⟩
    · intro q Q hq
      simp only [Heap.put_promise, Heap.put_future, Heap.del_promise, Heap.del_future] at hq
      try split_ifs at hq
      all_goals first
        | (simp only [Option.some.injEq] at hq
           subst hq
           clear h1 h2 l1 l2
           simp_all <;> done)
        | exact (l1 _ _ hq).1
    · intro g G hG
      simp only [Heap.put_promise, Heap.put_future, Heap.del_promise, Heap.del_future] at hG
      try split_ifs at hG
      all_goals first
        | (simp only [Option.some.injEq] at hG
           subst hG
           clear h1 h2 l1 l2
           simp_all <;> done)
        | (rw [l2 _ _ hG]; simp)
  · clear h
    have b1 := l1 _ _ hp
    have b2 := l2 _ _ hF
    refine ⟨?_, ?_⟩
    · intro q Q hq
      simp only [Heap.put_promise, Heap.put_future, Heap.del_promise, Heap.del_future] at hq
      try split_ifs at hq
      all_goals first
        | (simp only [Option.some.injEq] at hq
           subst hq
           clear h1 h2 l1 l2
           simp_all <;> done)
        | exact (l1 _ _ hq).1
    · intro g G hG
      simp only [Heap.put_promise, Heap.put_future, Heap.del_promise, Heap.del_future] at hG
      try split_ifs at hG
      all_goals first
        | (simp only [Option.some.injEq] at hG
           subst hG
           clear h1 h2 l1 l2
           simp_all <;> done)
        | (rw [l2 _ _ hG]; simp)

/-- The move assignment of a promise leaves no lock held. -/
theorem locks_free.promise_move_assign_leaves_free {s s1 : Heap R} {this o : Addr} (hne : this ≠ o)
    (hw : linked_both_ways s) (hl : locks_at_rest s)
    (h : (promise.move_assign s this o).heap = some s1) :
    locks_free s1 := by
  obtain ⟨s0, nlT, lkT, stT, hd, hT, hcases⟩ := promise.move_assign_effect hne h
  obtain ⟨l1, l2⟩ := locks_at_rest.promise_dtor_body_keeps_rest hw hl hd
  obtain ⟨h1, h2⟩ := linked_both_ways.promise_dtor_body_keeps_links hw hd
  clear hw hl hd h
  have b0 := l1 _ _ hT
  rcases hcases with ⟨nl, lk, st, n, o1, hp, hor, hm, rfl⟩ |
    ⟨st, f, fst, fpr, hp, hty, hfu, hF, rfl⟩
  · have b1 := l1 _ _ hp
    refine ⟨?_, ?_⟩
    · intro q Q hq
      simp only [Heap.put_promise, Heap.put_future, Heap.del_promise, Heap.del_future] at hq
      try split_ifs at hq
      all_goals first
        | (simp only [Option.some.injEq] at hq
           subst hq
           clear h1 h2 l1 l2
           simp_all <;> done)
        | exact (l1 _ _ hq).1
    · intro g G hG
      simp only [Heap.put_promise, Heap.put_future, Heap.del_promise, Heap.del_future] at hG
      try split_ifs at hG
      all_goals first
        | (simp only [Option.some.injEq] at hG
           subst hG
           clear h1 h2 l1 l2
           simp_all <;> done)
        | (rw [l2 _ _ hG]; simp)
  · have b1 := l1 _ _ hp
    have b2 := l2 _ _ hF
    refine ⟨?_, ?_⟩
    · intro q Q hq
      simp only [Heap.put_promise, Heap.put_future, Heap.del_promise, Heap.del_future] at hq
      try split_ifs at hq
      all_goals first
        | (simp only [Option.some.injEq] at hq
           subst hq
           clear h1 h2 l1 l2
           simp_all <;> done)
        | exact (l1 _ _ hq).1
    · intro g G hG
      simp only [Heap.put_promise, Heap.put_future, Heap.del_promise, Heap.del_future] at hG
      try split_ifs at hG
      all_goals first
        | (simp only [Option.some.injEq] at hG
           subst hG
           clear h1 h2 l1 l2
           simp_all <;> done)
        | (rw [l2 _ _ hG]; simp)

/-- The move assignment of a future leaves the locks at rest. -/
theorem locks_at_rest.future_move_assign_keeps_rest {s s1 : Heap R} {this o : Addr} (hne : this ≠ o)
    (hw : linked_both_ways s) (hl : locks_at_rest s)
    (h : (future.move_assign s this o).heap = some s1) : locks_at_rest s1 := by
  unfold future.move_assign at h
  rcases Step.and_then_heap h with ⟨u, s0, hd, hk⟩ | ⟨e, hd⟩
  · have hd1 : (future.dtor s this).heap = some s0 := by rw [hd]; rfl
    exact locks_at_rest.future_move_ctor_keeps_rest hne (linked_both_ways.future_dtor_keeps_links hw hd1)
      (locks_at_rest.future_dtor_keeps_rest hw hl hd1) hk
  · exact (future.dtor_not_throws hd).elim

/-- A heap with the same `_need_locks` flags and the same lock states has its locks at
rest as well. -/
theorem locks_at_rest.of_kept {s s1 : Heap R} (hl : locks_at_rest s)
    (ht : promises_keep_tags s s1) (hk : locks_kept s s1) : locks_at_rest s1 := by
  refine ⟨?_, ?_⟩
  · intro q Q hq
    obtain ⟨P, hP, hnl, -⟩ := ht q Q hq
    obtain ⟨P1, hP1, hlk⟩ := hk.1 q Q hq
    rw [hP] at hP1
    simp only [Option.some.injEq] at hP1
    subst hP1
    rw [hnl, hlk]
    exact hl.1 q P hP
  · intro g G hG
    obtain ⟨F, hF, hlk⟩ := hk.2 g G hG
    rw [hlk]
    exact hl.2 g F hF

/-- What a live promise looks like in a well linked heap whose locks are at rest: not
tagged `future` (with its lock, if in use, free), or one half of a linked pair at rest. -/
theorem linked_both_ways.promise_shape {s : Heap R} (hw : linked_both_ways s)
    (hl : locks_at_rest s) {p : Addr} {nl : Bool} {lk : spinlock} {st : value_storage R}
    (hp : s.promises p = some ⟨nl, lk, st⟩) :
    (nl = false ∧ st.type ≠ .future) ∨
    (nl = true ∧ lk = .unlocked ∧ st.type ≠ .future) ∨
    (∃ f fst, nl = true ∧ lk = .unlocked ∧ st = ⟨.future_ (some f), .future⟩ ∧
      s.futures f = some ⟨.unlocked, fst, some p⟩) := by
  obtain ⟨h1, h2⟩ := hw
  obtain ⟨l1, l2⟩ := hl
  have b1 := l1 _ _ hp
  by_cases hty : st.type = .future
  · obtain ⟨hnl, f, hb, hF⟩ := h1 _ _ hp hty
    simp only at hnl hb
    cases hFf : s.futures f with
    | none => simp [hFf] at hF
    | some F =>
      obtain ⟨flk, fst, fpr⟩ := F
      have b2 := l2 _ _ hFf
      simp only [hFf, Option.some_bind] at hF
      simp only at b2
      subst hF b2
      refine Or.inr (Or.inr ⟨f, fst, hnl, b1.2 hnl, ?_, hFf⟩)
      obtain ⟨b, t⟩ := st
      simp only at hty hb
      subst hty hb
      rfl
  · cases nl
    · exact Or.inl ⟨rfl, hty⟩
    · exact Or.inr (Or.inl ⟨rfl, b1.2 rfl, hty⟩)

/-- What a live future looks like in a well linked heap whose locks are at rest: its lock
is free, and its promise, if it has one, is the other half of a linked pair at rest. -/
theorem linked_both_ways.future_shape {s : Heap R} (hw : linked_both_ways s)
    (hl : locks_at_rest s) {f : Addr} {flk : spinlock} {fst : value_storage R}
    {fpr : Option Addr} (hf : s.futures f = some ⟨flk, fst, fpr⟩) :
    flk = .unlocked ∧
    (fpr = none ∨ ∃ p, fpr = some p ∧
      s.promises p = some ⟨true, .unlocked, ⟨.future_ (some f), .future⟩⟩) := by
  obtain ⟨h1, h2⟩ := hw
  obtain ⟨l1, l2⟩ := hl
  refine ⟨l2 _ _ hf, ?_⟩
  cases fpr with
  | none => exact Or.inl rfl
  | some p =>
    refine Or.inr ⟨p, rfl, ?_⟩
    have a2 := h2 _ _ p hf rfl
    cases hP : s.promises p with
    | none => simp [hP] at a2
    | some P =>
      obtain ⟨nl, lk, st⟩ := P
      simp only [hP, Option.map_some', Option.some.injEq] at a2
      subst a2
      have a1 := (h1 _ _ hP rfl).1
      have b1 := (l1 _ _ hP).2 a1
      simp only at a1 b1
      subst a1 b1
      rfl

/-- In a well linked heap whose locks are at rest the destructor body of a live promise
runs to its end. -/
theorem promise.dtor_body_runs {s : Heap R} (hw : linked_both_ways s) (hl : locks_at_rest s)
    {this : Addr} {T : promise R} (hp : s.promises this = some T) :
    ∃ s1, promise.dtor_body s this = .done () s1 := by
  obtain ⟨nl, lk, st⟩ := T
  rcases hw.promise_shape hl hp with ⟨rfl, hty⟩ | ⟨rfl, rfl, hty⟩ |
    ⟨f, fst, rfl, rfl, rfl, hF⟩
  · simp [promise.dtor_body, lock_guard.of_promise, Step.and_then, hp,
      Heap.map_promise, Heap.put_promise, lock_guard.release, lock_guard.unlock]
  · simp [promise.dtor_body, lock_guard.of_promise, Step.and_then, hp, hty,
      Heap.map_promise, Heap.put_promise, lock_guard.release, lock_guard.unlock,
      lock_guard.unlock_f]
  · by_cases he : fst.type = .empty <;>
    simp [promise.dtor_body, lock_guard.of_promise, Step.and_then, hp, hF, he,
      value_storage.future_, value_storage.set_exception,
      Heap.map_promise, Heap.put_promise, Heap.put_future, lock_guard.release,
      lock_guard.unlock, lock_guard.unlock_f]

/-- In a well linked heap whose locks are at rest the destructor of a live promise runs to
its end. -/
theorem promise_dtor_runs {s : Heap R} (hw : linked_both_ways s) (hl : locks_at_rest s)
    {this : Addr} {T : promise R} (hp : s.promises this = some T) :
    ∃ s1, promise.dtor s this = .done () s1 := by
  obtain ⟨s0, h0⟩ := promise.dtor_body_runs hw hl hp
  exact ⟨s0.del_promise this, by simp [promise.dtor, h0, Step.and_then]⟩

/-- The part shared by the move constructor and the move assignment of a promise runs to
its end when the source is a live promise of a well linked heap whose locks are at rest
and its storage can be read. -/
theorem promise.move_tail_runs {s : Heap R} (hw : linked_both_ways s) (hl : locks_at_rest s)
    {this o : Addr} (hne : this ≠ o) {O : promise R} (ho : s.promises o = some O)
    {n o1 : value_storage R} (hm : O._storage.move = some (n, o1)) (X : promise R) :
    ∃ s1, promise.move_tail (s.put_promise this X) this o = .done () s1 := by
  obtain ⟨nl, lk, st⟩ := O
  have hne1 := hne.symm
  simp only at hm
  rcases hw.promise_shape hl ho with ⟨rfl, hty⟩ | ⟨rfl, rfl, hty⟩ |
    ⟨f, fst, rfl, rfl, rfl, hF⟩
  · simp [promise.move_tail, ho, hne, hne1, hm, lock_guard.of_promise, lock_guard.of_future, Step.and_then, Step.heap,
      Heap.map_promise, Heap.map_future, Heap.put_promise, Heap.put_future, Heap.del_promise,
      Heap.del_future, lock_guard.release, lock_guard.unlock, lock_guard.unlock_f,
      value_storage.future_, value_storage.move_assign, value_storage.init]
  · simp [promise.move_tail, ho, hne, hne1, hm, hty, lock_guard.of_promise, lock_guard.of_future, Step.and_then, Step.heap,
      Heap.map_promise, Heap.map_future, Heap.put_promise, Heap.put_future, Heap.del_promise,
      Heap.del_future, lock_guard.release, lock_guard.unlock, lock_guard.unlock_f,
      value_storage.future_, value_storage.move_assign, value_storage.init]
  · simp only [value_storage.move, value_storage.future_, Option.some.injEq,
      Prod.mk.injEq] at hm
    obtain ⟨rfl, rfl⟩ := hm
    simp [promise.move_tail, ho, hne, hne1, hF, value_storage.move, lock_guard.of_promise, lock_guard.of_future, Step.and_then, Step.heap,
      Heap.map_promise, Heap.map_future, Heap.put_promise, Heap.put_future, Heap.del_promise,
      Heap.del_future, lock_guard.release, lock_guard.unlock, lock_guard.unlock_f,
      value_storage.future_, value_storage.move_assign, value_storage.init]

/-- The move constructor of a promise runs to its end under the same conditions. -/
theorem promise_move_ctor_runs {s : Heap R} (hw : linked_both_ways s) (hl : locks_at_rest s)
    {this o : Addr} (hne : this ≠ o) {O : promise R} (ho : s.promises o = some O)
    {n o1 : value_storage R} (hm : O._storage.move = some (n, o1)) :
    ∃ s1, promise.move_ctor s this o = .done () s1 := by
  rw [promise.move_ctor_eq]
  simp only [ho]
  exact promise.move_tail_runs hw hl hne ho hm _

/-- The body of `~promise()` does not touch another promise. -/
theorem promise.dtor_body_frame {s s1 : Heap R} {this o : Addr} (hne : this ≠ o)
    (h : (promise.dtor_body s this).heap = some s1) : s1.promises o = s.promises o := by
  rcases promise.dtor_body_effect h with ⟨nl, lk, st, hp, hor, rfl⟩ |
    ⟨st, f, fst, fpr, hp, hty, hfu, hF, rfl⟩ <;>
  simp [Heap.put_promise, Heap.put_future, hne.symm]

/-- The body of `~promise()` leaves the promise alive. -/
theorem promise.dtor_body_alive {s s1 : Heap R} {this : Addr}
    (h : (promise.dtor_body s this).heap = some s1) : ∃ T, s1.promises this = some T := by
  rcases promise.dtor_body_effect h with ⟨nl, lk, st, hp, hor, rfl⟩ |
    ⟨st, f, fst, fpr, hp, hty, hfu, hF, rfl⟩ <;>
  simp [Heap.put_promise, Heap.put_future]

/-- The move assignment of a promise runs to its end when both promises are alive in a
well linked heap whose locks are at rest and the storage of the source can be read. -/
theorem promise_move_assign_runs {s : Heap R} (hw : linked_both_ways s) (hl : locks_at_rest s)
    {this o : Addr} (hne : this ≠ o) {T O : promise R} (hp : s.promises this = some T)
    (ho : s.promises o = some O)
    {n o1 : value_storage R} (hm : O._storage.move = some (n, o1)) :
    ∃ s1, promise.move_assign s this o = .done () s1 := by
  obtain ⟨s0, h0⟩ := promise.dtor_body_runs hw hl hp
  have h0h : (promise.dtor_body s this).heap = some s0 := by rw [h0]; rfl
  have hw0 := linked_both_ways.promise_dtor_body_keeps_links hw h0h
  have hl0 := locks_at_rest.promise_dtor_body_keeps_rest hw hl h0h
  have ho0 : s0.promises o = some O := by rw [promise.dtor_body_frame hne h0h, ho]
  obtain ⟨T0, hT0⟩ := promise.dtor_body_alive h0h
  rw [promise.move_assign_eq, h0]
  simp only [Step.and_then, hT0, ho0]
  exact promise.move_tail_runs hw0 hl0 hne ho0 hm _

/-- In a well linked heap whose locks are at rest the destructor of a live future runs to
its end. -/
theorem future_dtor_runs {s : Heap R} (hw : linked_both_ways s) (hl : locks_at_rest s)
    {this : Addr} {T : future R} (hf : s.futures this = some T) :
    ∃ s1, future.dtor s this = .done () s1 := by
  obtain ⟨flk, fst, fpr⟩ := T
  rcases hw.future_shape hl hf with ⟨rfl, rfl | ⟨p, rfl, hP⟩⟩
  · simp [future.dtor, hf, lock_guard.of_promise, lock_guard.of_future, Step.and_then, Step.heap,
      Heap.map_promise, Heap.map_future, Heap.put_promise, Heap.put_future, Heap.del_promise,
      Heap.del_future, lock_guard.release, lock_guard.unlock, lock_guard.unlock_f,
      value_storage.future_, value_storage.move_assign, value_storage.init]
  · simp [future.dtor, hf, hP, lock_guard.of_promise, lock_guard.of_future, Step.and_then, Step.heap,
      Heap.map_promise, Heap.map_future, Heap.put_promise, Heap.put_future, Heap.del_promise,
      Heap.del_future, lock_guard.release, lock_guard.unlock, lock_guard.unlock_f,
      value_storage.future_, value_storage.move_assign, value_storage.init]

/-- The move constructor of a future runs to its end when the source is a live future of
a well linked heap whose locks are at rest and its storage can be read. -/
theorem future_move_ctor_runs {s : Heap R} (hw : linked_both_ways s) (hl : locks_at_rest s)
    {this o : Addr} (hne : this ≠ o) {O : future R} (ho : s.futures o = some O)
    {n o1 : value_storage R} (hm : O._storage.move = some (n, o1)) :
    ∃ s1, future.move_ctor s this o = .done () s1 := by
  obtain ⟨flk, fst, fpr⟩ := O
  have hne1 := hne.symm
  simp only at hm
  rcases hw.future_shape hl ho with ⟨rfl, rfl | ⟨p, rfl, hP⟩⟩
  · simp [future.move_ctor, ho, hne, hne1, hm, lock_guard.of_promise, lock_guard.of_future, Step.and_then, Step.heap,
      Heap.map_promise, Heap.map_future, Heap.put_promise, Heap.put_future, Heap.del_promise,
      Heap.del_future, lock_guard.release, lock_guard.unlock, lock_guard.unlock_f,
      value_storage.future_, value_storage.move_assign, value_storage.init]
  · simp [future.move_ctor, ho, hP, hne, hne1, hm, lock_guard.of_promise, lock_guard.of_future, Step.and_then, Step.heap,
      Heap.map_promise, Heap.map_future, Heap.put_promise, Heap.put_future, Heap.del_promise,
      Heap.del_future, lock_guard.release, lock_guard.unlock, lock_guard.unlock_f,
      value_storage.future_, value_storage.move_assign, value_storage.init]

/-- The destructor `~future()` does not touch another future. -/
theorem future.dtor_frame {s s1 : Heap R} {this o : Addr} (hne : this ≠ o)
    (h : (future.dtor s this).heap = some s1) : s1.futures o = s.futures o := by
  rcases future_dtor_effect h with ⟨fst, hf, rfl⟩ | ⟨fst, p, nl, st, hf, hp, rfl⟩ <;>
  simp [Heap.put_promise, Heap.del_future, hne.symm]

/-- The move assignment of a future runs to its end when both futures are alive in a well
linked heap whose locks are at rest and the storage of the source can be read. -/
theorem future_move_assign_runs {s : Heap R} (hw : linked_both_ways s) (hl : locks_at_rest s)
    {this o : Addr} (hne : this ≠ o) {T O : future R} (hf : s.futures this = some T)
    (ho : s.futures o = some O)
    {n o1 : value_storage R} (hm : O._storage.move = some (n, o1)) :
    ∃ s1, future.move_assign s this o = .done () s1 := by
  obtain ⟨s0, h0⟩ := future_dtor_runs hw hl hf
  have h0h : (future.dtor s this).heap = some s0 := by rw [h0]; rfl
  have hw0 := linked_both_ways.future_dtor_keeps_links hw h0h
  have hl0 := locks_at_rest.future_dtor_keeps_rest hw hl h0h
  have ho0 : s0.futures o = some O := by rw [future.dtor_frame hne h0h, ho]
  simp only [future.move_assign, h0, Step.and_then]
  exact future_move_ctor_runs hw0 hl0 hne ho0 hm

/-- A `swap` of two distinct live promises runs to its end in a well linked heap whose
locks are at rest when the storage swap can read what it exchanges. -/
theorem promise_swap_runs {s : Heap R} (hw : linked_both_ways s) (hl : locks_at_rest s)
    {this o : Addr} (hne : this ≠ o) {T O : promise R} (hp : s.promises this = some T)
    (ho : s.promises o = some O) {t1 o1 : value_storage R}
    (hsw : T._storage.swap O._storage = some (t1, o1)) :
    ∃ s1, promise.swap s this o = .done () s1 := by
  obtain ⟨nl1, lk1, st1⟩ := T
  obtain ⟨nl2, lk2, st2⟩ := O
  have hne1 := hne.symm
  simp only at hsw
  rcases hw.promise_shape hl hp with ⟨rfl, hty1⟩ | ⟨rfl, rfl, hty1⟩ |
    ⟨f1, fst1, rfl, rfl, rfl, hF1⟩ <;>
  rcases hw.promise_shape hl ho with ⟨rfl, hty2⟩ | ⟨rfl, rfl, hty2⟩ |
    ⟨f2, fst2, rfl, rfl, rfl, hF2⟩ <;>
  (try (have hff : f1 ≠ f2 := by
          rintro rfl
          rw [hF1] at hF2
          simp only [Option.some.injEq, future.mk.injEq, true_and] at hF2
          exact hne hF2.2)) <;>
  (try (have hff1 := hff.symm)) <;>
  simp [*, promise.swap, lock_guard.of_promise, lock_guard.of_future, Step.and_then, Step.heap,
      Heap.map_promise, Heap.map_future, Heap.put_promise, Heap.put_future, Heap.del_promise,
      Heap.del_future, lock_guard.release, lock_guard.unlock, lock_guard.unlock_f,
      value_storage.future_, value_storage.move_assign, value_storage.init]

/-- A `swap` of two distinct live futures runs to its end in a well linked heap whose
locks are at rest when the storage swap can read what it exchanges. -/
theorem future_swap_runs {s : Heap R} (hw : linked_both_ways s) (hl : locks_at_rest s)
    {this o : Addr} (hne : this ≠ o) {T O : future R} (hf : s.futures this = some T)
    (ho : s.futures o = some O) {t1 o1 : value_storage R}
    (hsw : T._storage.swap O._storage = some (t1, o1)) :
    ∃ s1, future.swap s this o = .done () s1 := by
  obtain ⟨flk1, fst1, fpr1⟩ := T
  obtain ⟨flk2, fst2, fpr2⟩ := O
  have hne1 := hne.symm
  simp only at hsw
  rcases hw.future_shape hl hf with ⟨rfl, rfl | ⟨p1, rfl, hP1⟩⟩ <;>
  rcases hw.future_shape hl ho with ⟨rfl, rfl | ⟨p2, rfl, hP2⟩⟩ <;>
  (try (have hpp : p1 ≠ p2 := by
          rintro rfl
          rw [hP1] at hP2
          simp only [Option.some.injEq, promise.mk.injEq, true_and,
            value_storage.mk.injEq, buffer.future_.injEq, and_true] at hP2
          exact hne hP2)) <;>
  (try (have hpp1 := hpp.symm)) <;>
  simp [*, future.swap, lock_guard.of_promise, lock_guard.of_future, Step.and_then, Step.heap,
      Heap.map_promise, Heap.map_future, Heap.put_promise, Heap.put_future, Heap.del_promise,
      Heap.del_future, lock_guard.release, lock_guard.unlock, lock_guard.unlock_f,
      value_storage.future_, value_storage.move_assign, value_storage.init]

/-- Member `get_future()` returns or throws on a live promise of a well linked heap whose
locks are at rest and whose payload matches its tag. -/
theorem promise.get_future_runs {s : Heap R} (hw : linked_both_ways s)
    (hl : locks_at_rest s) {this tmp dst : Addr} (hne : tmp ≠ dst) {T : promise R}
    (hp : s.promises this = some T) (hwf : T._storage.well_formed = true) :
    ∃ s1, (promise.get_future s this tmp dst).heap = some s1 := by
  obtain ⟨nl, lk, st⟩ := T
  rcases hw.promise_shape hl hp with ⟨rfl, hty⟩ | ⟨rfl, rfl, hty⟩ |
    ⟨f, fst, rfl, rfl, rfl, hF⟩
  · obtain ⟨s1, P1, F1, h, -⟩ := promise.get_future_unlinked s this tmp dst _ hp hty hwf
      (by simp) hne
    exact ⟨s1, by rw [h]; rfl⟩
  · obtain ⟨s1, P1, F1, h, -⟩ := promise.get_future_unlinked s this tmp dst _ hp hty hwf
      (by simp) hne
    exact ⟨s1, by rw [h]; rfl⟩
  · refine ⟨s, ?_⟩
    rw [promise.get_future_linked s this f tmp dst _ _ ⟨hp, hF, rfl, rfl, rfl, rfl, rfl⟩]
    rfl

/-- A setter returns or throws on a live promise of a well linked heap whose locks are at
rest, unless the storage setter throws inside a member declared `noexcept`. -/
theorem promise.set_with_runs {s : Heap R} (hw : linked_both_ways s) (hl : locks_at_rest s)
    {set : value_storage R → Except exception_ptr (value_storage R)} {nothrow : Bool}
    {this : Addr} {st : value_storage R} (ha : authoritative s this = some st)
    (hok : nothrow = false ∨ ∃ st1, set st = .ok st1) :
    ∃ s1, (promise.set_with set nothrow s this).heap = some s1 := by
  cases hp : s.promises this with
  | none => simp [authoritative, hp] at ha
  | some T =>
    obtain ⟨nl, lk, st0⟩ := T
    have key : ∀ (r : Step Unit (Heap R)) (st2 : value_storage R) (X : Heap R),
        st2 = st →
        r = (match set st2 with
          | .ok _ => Step.done () X
          | .error e => if nothrow = true then Step.terminate else Step.throws e s) →
        ∃ s1, r.heap = some s1 := by
      rintro r st2 X rfl rfl
      rcases hok with rfl | ⟨st1, h1⟩
      · cases set st2 <;> simp [Step.heap]
      · simp [h1, Step.heap]
    rcases hw.promise_shape hl hp with ⟨rfl, hty⟩ | ⟨rfl, rfl, hty⟩ |
      ⟨f, fst, rfl, rfl, rfl, hF⟩
    · have e := promise.set_with_unlinked set nothrow s this _ hp hty (by simp)
      simp only [authoritative, hp, hty, if_false, Option.some.injEq] at ha
      exact key _ _ (s.put_promise this ⟨false, lk, (match set st0 with
        | .ok st1 => st1 | .error _ => st0)⟩) ha (by rw [e]; cases set st0 <;> rfl)
    · have e := promise.set_with_unlinked set nothrow s this _ hp hty (by simp)
      simp only [authoritative, hp, hty, if_false, Option.some.injEq] at ha
      exact key _ _ (s.put_promise this ⟨true, .unlocked, (match set st0 with
        | .ok st1 => st1 | .error _ => st0)⟩) ha (by rw [e]; cases set st0 <;> rfl)
    · have e := promise.set_with_linked set nothrow s this f _ _
        ⟨hp, hF, rfl, rfl, rfl, rfl, rfl⟩
      simp only [authoritative, hp, value_storage.future_, hF, if_true, Option.map_some',
        Option.some.injEq] at ha
      exact key _ _ (s.put_future f ⟨.unlocked, (match set fst with
        | .ok st1 => st1 | .error _ => fst), some this⟩) ha (by rw [e]; cases set fst <;> rfl)

/-- Member `get()` returns or throws on a live future of a well linked heap whose locks
are at rest when the future has no promise, holds a value, or holds a non-null
exception. -/
theorem future.get_runs {s : Heap R} (hw : linked_both_ways s) (hl : locks_at_rest s)
    {this : Addr} {F : future R} (hf : s.futures this = some F)
    (hr : F._promise = none ∨ (∃ v, F._storage = ⟨.value v, .value⟩) ∨
      ∃ e, e ≠ .null ∧ F._storage = ⟨.exception e, .exception⟩) :
    ∃ s1, (future.get s this).heap = some s1 := by
  obtain ⟨flk, fst, fpr⟩ := F
  simp only at hr
  rcases hw.future_shape hl hf with ⟨rfl, rfl | ⟨p, rfl, hP⟩⟩
  · simp [future.get, future.wait, future.valid, hf, Step.and_then, Step.heap]
  · rcases hr with hr | ⟨v, rfl⟩ | ⟨e, he, rfl⟩
    · simp at hr
    · simp [future.get, future.wait, future.valid, future.is_ready, hf, hP,
        future.pending_exception, future.has_error, future.has_exception,
        value_storage.value, future.consume, lock_guard.of_promise, lock_guard.of_future, Step.and_then, Step.heap,
      Heap.map_promise, Heap.map_future, Heap.put_promise, Heap.put_future, Heap.del_promise,
      Heap.del_future, lock_guard.release, lock_guard.unlock, lock_guard.unlock_f,
      value_storage.future_, value_storage.move_assign, value_storage.init]
    · simp [future.get, future.wait, future.valid, future.is_ready, hf, hP, he,
        future.pending_exception, future.has_error, future.has_exception,
        value_storage.exception, future.consume, lock_guard.of_promise, lock_guard.of_future, Step.and_then, Step.heap,
      Heap.map_promise, Heap.map_future, Heap.put_promise, Heap.put_future, Heap.del_promise,
      Heap.del_future, lock_guard.release, lock_guard.unlock, lock_guard.unlock_f,
      value_storage.future_, value_storage.move_assign, value_storage.init]

/-- Member `get_exception_ptr()` returns or throws on a live future of a well linked heap
whose locks are at rest when the future has no promise, is tagged `value`, or holds an
exception. -/
theorem future.get_exception_ptr_runs {s : Heap R} (hw : linked_both_ways s)
    (hl : locks_at_rest s) {this : Addr} {F : future R} (hf : s.futures this = some F)
    (hr : F._promise = none ∨ F._storage.type = .value ∨
      ∃ e, F._storage = ⟨.exception e, .exception⟩) :
    ∃ s1, (future.get_exception_ptr s this).heap = some s1 := by
  obtain ⟨flk, fst, fpr⟩ := F
  simp only at hr
  rcases hw.future_shape hl hf with ⟨rfl, rfl | ⟨p, rfl, hP⟩⟩
  · simp [future.get_exception_ptr, future.wait, future.valid, hf, Step.and_then, Step.heap]
  · rcases hr with hr | hv | ⟨e, rfl⟩
    · simp at hr
    · simp [future.get_exception_ptr, future.wait, future.valid, future.is_ready, hf, hP, hv,
        future.pending_exception, future.has_error, future.has_exception, lock_guard.of_promise, lock_guard.of_future, Step.and_then, Step.heap,
      Heap.map_promise, Heap.map_future, Heap.put_promise, Heap.put_future, Heap.del_promise,
      Heap.del_future, lock_guard.release, lock_guard.unlock, lock_guard.unlock_f,
      value_storage.future_, value_storage.move_assign, value_storage.init]
    · by_cases he : e = .null <;>
      simp [future.get_exception_ptr, future.wait, future.valid, future.is_ready, hf, hP, he,
        future.pending_exception, future.has_error, future.has_exception,
        value_storage.exception, future.consume, lock_guard.of_promise, lock_guard.of_future, Step.and_then, Step.heap,
      Heap.map_promise, Heap.map_future, Heap.put_promise, Heap.put_future, Heap.del_promise,
      Heap.del_future, lock_guard.release, lock_guard.unlock, lock_guard.unlock_f,
      value_storage.future_, value_storage.move_assign, value_storage.init]

/-- Member `get_error()` returns or throws on a live future of a well linked heap whose
locks are at rest when the future has no promise, is tagged `value` or `exception`, or
holds an error code. -/
theorem future.get_error_runs {s : Heap R} (hw : linked_both_ways s)
    (hl : locks_at_rest s) {this : Addr} {F : future R} (hf : s.futures this = some F)
    (hr : F._promise = none ∨ F._storage.type = .value ∨ F._storage.type = .exception ∨
      ∃ c, F._storage = ⟨.error c, .error⟩) :
    ∃ s1, (future.get_error s this).heap = some s1 := by
  obtain ⟨flk, fst, fpr⟩ := F
  simp only at hr
  rcases hw.future_shape hl hf with ⟨rfl, rfl | ⟨p, rfl, hP⟩⟩
  · simp [future.get_error, future.wait, future.valid, hf, Step.and_then, Step.heap]
  · rcases hr with hr | hv | hv | ⟨c, rfl⟩
    · simp at hr
    · simp [future.get_error, future.wait, future.valid, future.is_ready, hf, hP, hv,
        future.has_error, error_code.is_clear, error_code.none, lock_guard.of_promise, lock_guard.of_future, Step.and_then, Step.heap,
      Heap.map_promise, Heap.map_future, Heap.put_promise, Heap.put_future, Heap.del_promise,
      Heap.del_future, lock_guard.release, lock_guard.unlock, lock_guard.unlock_f,
      value_storage.future_, value_storage.move_assign, value_storage.init]
    · simp [future.get_error, future.wait, future.valid, future.is_ready, hf, hP, hv,
        future.has_error, error_code.is_clear, error_code.none, lock_guard.of_promise, lock_guard.of_future, Step.and_then, Step.heap,
      Heap.map_promise, Heap.map_future, Heap.put_promise, Heap.put_future, Heap.del_promise,
      Heap.del_future, lock_guard.release, lock_guard.unlock, lock_guard.unlock_f,
      value_storage.future_, value_storage.move_assign, value_storage.init]
    · by_cases he : c.is_clear = true <;>
      simp [future.get_error, future.wait, future.valid, future.is_ready, hf, hP, he,
        future.has_error, value_storage.error, future.consume, lock_guard.of_promise, lock_guard.of_future, Step.and_then, Step.heap,
      Heap.map_promise, Heap.map_future, Heap.put_promise, Heap.put_future, Heap.del_promise,
      Heap.del_future, lock_guard.release, lock_guard.unlock, lock_guard.unlock_f,
      value_storage.future_, value_storage.move_assign, value_storage.init]

/-- An enabled proper operation returns or throws. -/
theorem public_op.runs {s : Heap R} (op : public_op R) (hw : linked_both_ways s)
    (hl : locks_at_rest s) (hp : op.proper s) (he : op.enabled s) :
    ∃ s1, op.next s = some s1 := by
  cases op with
  | promise_ctor this => exact ⟨_, rfl⟩
  | promise_move_ctor this o =>
    obtain ⟨O, ho, hm⟩ := he
    obtain ⟨r, hr⟩ := Option.isSome_iff_exists.1 hm
    obtain ⟨s1, h⟩ := promise_move_ctor_runs hw hl hp.2 ho hr
    exact ⟨s1, by simp only [public_op.next, h]; rfl⟩
  | promise_move_assign this o =>
    obtain ⟨⟨T, hT⟩, O, ho, hm⟩ := he
    obtain ⟨r, hr⟩ := Option.isSome_iff_exists.1 hm
    obtain ⟨s1, h⟩ := promise_move_assign_runs hw hl hp hT ho hr
    exact ⟨s1, by simp only [public_op.next, h]; rfl⟩
  | promise_dtor this =>
    obtain ⟨T, hT⟩ := he
    obtain ⟨s1, h⟩ := promise_dtor_runs hw hl hT
    exact ⟨s1, by simp only [public_op.next, h]; rfl⟩
  | promise_swap this o =>
    obtain ⟨T, O, hT, ho, hm⟩ := he
    obtain ⟨r, hr⟩ := Option.isSome_iff_exists.1 hm
    obtain ⟨s1, h⟩ := promise_swap_runs hw hl hp hT ho hr
    exact ⟨s1, by simp only [public_op.next, h]; rfl⟩
  | get_future this tmp dst =>
    obtain ⟨T, hT, hwf⟩ := he
    exact promise.get_future_runs hw hl hp.2.2 hT hwf
  | set_value nothrow this v =>
    obtain ⟨st, ha, hor⟩ := he
    refine promise.set_with_runs hw hl ha ?_
    rcases hor with h | h
    · exact Or.inl h
    · exact Or.inr ⟨⟨.value v, .value⟩, by simp [value_storage.set_value, h]⟩
  | set_exception this e =>
    obtain ⟨st, ha, h⟩ := he
    exact promise.set_with_runs hw hl ha
      (Or.inr ⟨⟨.exception e, .exception⟩, by simp [value_storage.set_exception, h]⟩)
  | set_error this c =>
    obtain ⟨st, ha, h⟩ := he
    exact promise.set_with_runs hw hl ha
      (Or.inr ⟨⟨.error c, .error⟩, by simp [value_storage.set_error, h]⟩)
  | future_ctor this => exact ⟨_, rfl⟩
  | future_move_ctor this o =>
    obtain ⟨O, ho, hm⟩ := he
    obtain ⟨r, hr⟩ := Option.isSome_iff_exists.1 hm
    obtain ⟨s1, h⟩ := future_move_ctor_runs hw hl hp.2 ho hr
    exact ⟨s1, by simp only [public_op.next, h]; rfl⟩
  | future_move_assign this o =>
    obtain ⟨⟨T, hT⟩, O, ho, hm⟩ := he
    obtain ⟨r, hr⟩ := Option.isSome_iff_exists.1 hm
    obtain ⟨s1, h⟩ := future_move_assign_runs hw hl hp hT ho hr
    exact ⟨s1, by simp only [public_op.next, h]; rfl⟩
  | future_dtor this =>
    obtain ⟨T, hT⟩ := he
    obtain ⟨s1, h⟩ := future_dtor_runs hw hl hT
    exact ⟨s1, by simp only [public_op.next, h]; rfl⟩
  | future_swap this o =>
    obtain ⟨T, O, hT, ho, hm⟩ := he
    obtain ⟨r, hr⟩ := Option.isSome_iff_exists.1 hm
    obtain ⟨s1, h⟩ := future_swap_runs hw hl hp hT ho hr
    exact ⟨s1, by simp only [public_op.next, h]; rfl⟩
  | get this =>
    obtain ⟨F, hF, hr⟩ := he
    exact future.get_runs hw hl hF hr
  | get_exception_ptr this =>
    obtain ⟨F, hF, hr⟩ := he
    exact future.get_exception_ptr_runs hw hl hF hr
  | get_error this =>
    obtain ⟨F, hF, hr⟩ := he
    exact future.get_error_runs hw hl hF hr

/-- After a proper operation that returned or threw no lock is held; unless the operation
moved a promise, every lock in use is constructed and free. -/
theorem public_op.locks_after {s s1 : Heap R} (op : public_op R) (hw : linked_both_ways s)
    (hl : locks_at_rest s) (hp : op.proper s) (h : op.next s = some s1) :
    locks_free s1 ∧ (op.is_promise_move = false → locks_at_rest s1) := by
  have key : locks_at_rest s1 →
      locks_free s1 ∧ (op.is_promise_move = false → locks_at_rest s1) :=
    fun h => ⟨h.free, fun _ => h⟩
  cases op with
  | promise_ctor this =>
    simp only [public_op.next, Option.some.injEq] at h
    subst h
    refine key ⟨?_, hl.2⟩
    intro q Q hq
    simp only [promise.ctor, Heap.put_promise] at hq
    split_ifs at hq
    · simp only [Option.some.injEq] at hq
      subst hq
      simp
    · exact hl.1 q Q hq
  | promise_move_ctor this o =>
    exact ⟨locks_free.promise_move_ctor_leaves_free hp.2 hw hl h, by simp [public_op.is_promise_move]⟩
  | promise_move_assign this o =>
    exact ⟨locks_free.promise_move_assign_leaves_free hp hw hl h, by simp [public_op.is_promise_move]⟩
  | promise_dtor this => exact key (locks_at_rest.promise_dtor_keeps_rest hw hl h)
  | promise_swap this o =>
    obtain ⟨ht, hk⟩ := promise_swap_effect hp h
    exact key (hl.of_kept ht hk)
  | get_future this tmp dst => exact key (locks_at_rest.get_future_keeps_rest hp.2.2 hw hl h)
  | set_value nothrow this v => exact key (locks_at_rest.set_with_keeps_rest hw hl h)
  | set_exception this e => exact key (locks_at_rest.set_with_keeps_rest hw hl h)
  | set_error this c => exact key (locks_at_rest.set_with_keeps_rest hw hl h)
  | future_ctor this =>
    simp only [public_op.next, Option.some.injEq] at h
    subst h
    refine key ⟨hl.1, ?_⟩
    intro g G hG
    simp only [future.ctor, Heap.put_future] at hG
    split_ifs at hG
    · simp only [Option.some.injEq] at hG
      subst hG
      rfl
    · exact hl.2 g G hG
  | future_move_ctor this o => exact key (locks_at_rest.future_move_ctor_keeps_rest hp.2 hw hl h)
  | future_move_assign this o => exact key (locks_at_rest.future_move_assign_keeps_rest hp hw hl h)
  | future_dtor this => exact key (locks_at_rest.future_dtor_keeps_rest hw hl h)
  | future_swap this o =>
    obtain ⟨ht, hk⟩ := future_swap_effect hp h
    refine key (hl.of_kept ht (hk ?_))
    intro f F p P hF hFp hP
    have a2 := hw.2 f F p hF hFp
    rw [hP] at a2
    simp only [Option.map_some', Option.some.injEq] at a2
    exact (hw.1 p P hP (by rw [a2])).1
  | get this =>
    refine key (locks_at_rest.retrieval_keeps_rest this hw hl ?_)
    rcases future.get_effect h with h1 | ⟨fst, p, nl, st, hf, hP, h1⟩
    · exact Or.inl h1
    · exact Or.inr ⟨fst, p, nl, st, hf, hP, Or.inl h1⟩
  | get_exception_ptr this =>
    exact key (locks_at_rest.retrieval_keeps_rest this hw hl (future.get_exception_ptr_effect h))
  | get_error this =>
    exact key (locks_at_rest.retrieval_keeps_rest this hw hl (future.get_error_effect h))

/-- The heap `fresh_promise` is well linked and its locks are at rest. -/
theorem fresh_promise_at_rest : well_linked fresh_promise ∧ locks_at_rest fresh_promise := by
  refine ⟨(well_linked_iff _).2 ⟨?_, ?_⟩, ?_, ?_⟩
  · intro p P hp hty
    simp only [fresh_promise, promise.ctor, Heap.put_promise, Heap.empty] at hp
    split_ifs at hp
    simp only [Option.some.injEq] at hp
    subst hp
    simp [value_storage.init] at hty
  · intro f F p hF
    simp [fresh_promise, promise.ctor, Heap.put_promise, Heap.empty] at hF
  · intro p P hp
    simp only [fresh_promise, promise.ctor, Heap.put_promise, Heap.empty] at hp
    split_ifs at hp
    simp only [Option.some.injEq] at hp
    subst hp
    simp
  · intro f F hF
    simp [fresh_promise, promise.ctor, Heap.put_promise, Heap.empty] at hF

/-- The locks of `ready_pair st` are at rest. -/
theorem ready_pair_at_rest (st : value_storage Nat) : locks_at_rest (ready_pair st) := by
  refine ⟨?_, ?_⟩
  · intro p P hp
    simp only [ready_pair, Heap.put_promise, Heap.put_future, Heap.empty] at hp
    split_ifs at hp
    simp only [Option.some.injEq] at hp
    subst hp
    simp
  · intro f F hF
    simp only [ready_pair, Heap.put_promise, Heap.put_future, Heap.empty] at hF
    split_ifs at hF
    simp only [Option.some.injEq] at hF
    subst hF
    rfl

/-- In `ready_pair` with `Value 1` the promise at 1 and its future at 11 are linked,
the future holds `Value 1`, both locks are free. `set_error` and `set_exception` are
refused by the storage setter, and since both members are declared `noexcept` the
exception cannot leave them: the call ends in `std::terminate`, neither normally nor by
raising, and the program does not go on. -/
theorem ready_pair_refused_setter :
    locks_at_rest (ready_pair ⟨.value 1, .value⟩) ∧
    promise.set_error (ready_pair ⟨.value 1, .value⟩) 1 ⟨5, 0⟩ = .terminate ∧
    promise.set_exception (ready_pair ⟨.value 1, .value⟩) 1 (.user 7) = .terminate ∧
    (public_op.set_error 1 ⟨5, 0⟩).next (ready_pair ⟨.value 1, .value⟩) = none := by
  have h : linked_pair (ready_pair ⟨.value 1, .value⟩) 1 11
      ⟨true, .unlocked, ⟨.future_ (some 11), .future⟩⟩
      ⟨.unlocked, ⟨.value 1, .value⟩, some 1⟩ := ⟨rfl, rfl, rfl, rfl, rfl, rfl, rfl⟩
  refine ⟨ready_pair_at_rest _, ?_, ?_, ?_⟩
  · simp [promise.set_error, promise.set_with_linked _ _ _ _ _ _ _ h,
      value_storage.set_error]
  · simp [promise.set_exception, promise.set_with_linked _ _ _ _ _ _ _ h,
      value_storage.set_exception]
  · simp [public_op.next, promise.set_error, promise.set_with_linked _ _ _ _ _ _ _ h,
      value_storage.set_error, Step.heap]

/-- The check of a concatenation: the first part passes, and the second passes from the
number of locks the first part leaves held. -/
theorem never_blocks_holding_append (a b : List lock_event) (held : Nat) :
    never_blocks_holding held (a ++ b) =
      (never_blocks_holding held a && never_blocks_holding (held_after held a) b) := by
  induction a generalizing held with
  | nil => simp [never_blocks_holding, held_after]
  | cons e es ih =>
    cases e <;> simp [never_blocks_holding, held_after, ih, Bool.and_assoc]

/-- The number of locks held after a concatenation. -/
theorem held_after_append (a b : List lock_event) (held : Nat) :
    held_after held (a ++ b) = held_after (held_after held a) b := by
  induction a generalizing held with
  | nil => simp [held_after]
  | cons e es ih => cases e <;> simp [held_after, ih]

/-- A guard on a promise, from construction to destruction: its `lock()` is issued while
nothing is held, and when the constructor completes, the destructor releases what the
constructor acquired. -/
theorem lock_guard.of_promise_scope (s : Heap R) (p : Addr) :
    never_blocks_holding 0
      (lock_guard.scope_events (lock_guard.of_promise_events s p)
        (lock_guard.of_promise s p)) = true ∧
    ((lock_guard.of_promise s p).is_done = true →
      held_after 0 (lock_guard.scope_events (lock_guard.of_promise_events s p)
        (lock_guard.of_promise s p)) = 0) := by
  cases hP : s.promises p with
  | none =>
    simp [lock_guard.scope_events, lock_guard.of_promise_events, lock_guard.of_promise, hP,
      never_blocks_holding, Step.is_done]
  | some P =>
    obtain ⟨nl, lk, b, t⟩ := P
    cases nl <;> cases lk <;>
      simp [lock_guard.scope_events, lock_guard.of_promise_events, lock_guard.of_promise, hP,
        never_blocks_holding, held_after, Step.is_done, lock_guard.unlock_events,
        Heap.put_promise, Heap.put_future]
    by_cases hty : t = .future
    · subst hty
      cases b <;> simp [value_storage.future_, never_blocks_holding, held_after, Step.is_done]
      rename_i fo
      cases fo with
      | none => simp [never_blocks_holding, held_after, Step.is_done]
      | some f =>
        cases hF : s.futures f with
        | none => simp [hF, never_blocks_holding, held_after, Step.is_done]
        | some F =>
          obtain ⟨flk, fst, fpr⟩ := F
          cases flk <;>
            simp [hF, never_blocks_holding, held_after, Step.is_done,
              lock_guard.unlock_events, Heap.put_promise, Heap.put_future]
    · simp [hty, never_blocks_holding, held_after, Step.is_done, lock_guard.unlock_events,
        Heap.put_promise, Heap.put_future]

/-- A guard on a future, from construction to destruction: its `lock()` is issued while
nothing is held, and when the constructor completes and the promise it found has
`_need_locks` set, the destructor releases what the constructor acquired. -/
theorem lock_guard.of_future_scope (s : Heap R) (f : Addr) :
    never_blocks_holding 0
      (lock_guard.scope_events (lock_guard.of_future_events s f)
        (lock_guard.of_future s f)) = true ∧
    ((lock_guard.of_future s f).is_done = true →
      (∀ F p P, s.futures f = some F → F._promise = some p → s.promises p = some P →
        P._need_locks = true) →
      held_after 0 (lock_guard.scope_events (lock_guard.of_future_events s f)
        (lock_guard.of_future s f)) = 0) := by
  cases hF : s.futures f with
  | none =>
    simp [lock_guard.scope_events, lock_guard.of_future_events, lock_guard.of_future, hF,
      never_blocks_holding, Step.is_done]
  | some F =>
    obtain ⟨flk, fst, fpr⟩ := F
    cases flk <;>
      simp [lock_guard.scope_events, lock_guard.of_future_events, lock_guard.of_future, hF,
        never_blocks_holding, held_after, Step.is_done, lock_guard.unlock_events,
        Heap.put_promise, Heap.put_future]
    cases fpr with
    | none =>
      simp [never_blocks_holding, held_after, Step.is_done, lock_guard.unlock_events]
    | some p =>
      cases hP : s.promises p with
      | none => simp [hP, never_blocks_holding, held_after, Step.is_done]
      | some P =>
        obtain ⟨nl, lk, st⟩ := P
        cases lk <;> cases nl <;>
          simp [hP, never_blocks_holding, held_after, Step.is_done,
            lock_guard.unlock_events, Heap.put_promise, Heap.put_future]

/-- The calls of the guard constructor on a promise follow the protocol. -/
theorem lock_guard.of_promise_protocol (s : Heap R) (p : Addr) :
    guard_protocol (.promise p) (lock_guard.of_promise_events s p) := by
  unfold lock_guard.of_promise_events guard_protocol
  repeat' split
  all_goals simp

/-- The calls of the guard constructor on a future follow the protocol. -/
theorem lock_guard.of_future_protocol (s : Heap R) (f : Addr) :
    guard_protocol (.future f) (lock_guard.of_future_events s f) := by
  unfold lock_guard.of_future_events guard_protocol
  repeat' split
  all_goals simp

/-- When the body of `~promise()` returns, its guard was constructed. -/
theorem promise.dtor_body_guard {s s1 : Heap R} {this : Addr} {u : Unit}
    (h : promise.dtor_body s this = .done u s1) :
    (lock_guard.of_promise s this).is_done = true := by
  unfold promise.dtor_body at h
  cases hg : lock_guard.of_promise s this <;> simp [hg, Step.and_then] at h
  rfl

/-- When `~future()` returns, its guard was constructed. -/
theorem future.dtor_guard {s s1 : Heap R} {this : Addr} {u : Unit}
    (h : future.dtor s this = .done u s1) :
    (lock_guard.of_future s this).is_done = true := by
  unfold future.dtor at h
  cases hg : lock_guard.of_future s this <;> simp [hg, Step.and_then] at h
  rfl

/-- The move assignment of a promise never calls `lock()` while holding a lock. -/
theorem promise_move_assign_never_blocks (s : Heap R) (this o : Addr) :
    never_blocks_holding 0 (promise.move_assign_events s this o) = true := by
  unfold promise.move_assign_events promise.dtor_events
  rw [never_blocks_holding_append, (lock_guard.of_promise_scope s this).1, Bool.true_and]
  cases hd : promise.dtor_body s this with
  | done u s1 =>
    rw [(lock_guard.of_promise_scope s this).2 (promise.dtor_body_guard hd)]
    simp only
    split
    · exact (lock_guard.of_promise_scope _ o).1
    · rfl
  | throws e s1 => rfl
  | terminate => rfl
  | spins => rfl
  | fault => rfl

/-- The move assignment of a future never calls `lock()` while holding a lock, when the
promises that futures point to have `_need_locks` set. -/
theorem future_move_assign_never_blocks (s : Heap R) (this o : Addr)
    (hnl : ∀ f F p P, s.futures f = some F → F._promise = some p → s.promises p = some P →
      P._need_locks = true) :
    never_blocks_holding 0 (future.move_assign_events s this o) = true := by
  unfold future.move_assign_events future.dtor_events
  rw [never_blocks_holding_append, (lock_guard.of_future_scope s this).1, Bool.true_and]
  cases hd : future.dtor s this with
  | done u s1 =>
    rw [(lock_guard.of_future_scope s this).2 (future.dtor_guard hd) (hnl this)]
    exact (lock_guard.of_future_scope _ o).1
  | throws e s1 => rfl
  | terminate => rfl
  | spins => rfl
  | fault => rfl

/-- Member `get_future()` never calls `lock()` while holding a lock: the explicit
`h.unlock()` precedes the guards of the move constructor and of the destructor of `ret`. -/
theorem promise.get_future_never_blocks (s : Heap R) (this tmp dst : Addr) (hne : tmp ≠ dst) :
    never_blocks_holding 0 (promise.get_future_events s this tmp dst) = true := by
  unfold promise.get_future_events
  cases hP : s.promises this with
  | none => rfl
  | some P0 =>
    obtain ⟨nl, lk, st⟩ := P0
    simp only
    have h0 : (if nl = false then s.put_promise this ⟨true, .unlocked, st⟩ else s).promises this
        = some ⟨true, if nl = false then .unlocked else lk, st⟩ := by
      cases nl <;> simp [Heap.put_promise, hP]
    have hsc := lock_guard.of_promise_scope
      (if nl = false then s.put_promise this ⟨true, .unlocked, st⟩ else s) this
    cases hg : lock_guard.of_promise
        (if nl = false then s.put_promise this ⟨true, .unlocked, st⟩ else s) this with
    | done g s2 =>
      rcases lock_guard.of_promise_done hg with ⟨lk1, st1, hp, rfl, rfl⟩ |
        ⟨st1, hp, hty, rfl, rfl⟩ | ⟨st1, f, fst, fpr, hp, hty, hfu, hF, rfl, rfl⟩
      · simp [h0] at hp
      · rw [h0] at hp
        simp only [Option.some.injEq, promise.mk.injEq, true_and] at hp
        obtain ⟨hlk, rfl⟩ := hp
        have he : lock_guard.of_promise_events
            (if nl = false then s.put_promise this ⟨true, .unlocked, st⟩ else s) this
            = [.lock (.promise this)] := by
          simp [lock_guard.of_promise_events, h0, hlk, hty]
        rw [he]
        cases hm : value_storage.move st with
        | none =>
          simp [future.of_promise, Heap.put_promise, value_storage.take, hm,
            never_blocks_holding]
        | some r =>
          obtain ⟨n, o1⟩ := r
          obtain ⟨o2, hm2⟩ := value_storage.move_move hm
          cases nl <;>
            simp [future.of_promise, Heap.put_promise, value_storage.take, hm, hm2,
              Heap.put_future, Heap.map_promise, Heap.map_future,
              lock_guard.release, lock_guard.unlock, lock_guard.unlock_f,
              future.move_ctor, lock_guard.of_future, value_storage.move_assign,
              future.dtor, Heap.del_future, value_storage.init, hne,
              hne.symm, Step.and_then, lock_guard.unlock_events, future.move_ctor_events,
              future.dtor_events, lock_guard.scope_events, lock_guard.of_future_events,
              never_blocks_holding]
      · have h1 := hsc.1
        rw [hg] at h1
        simpa [lock_guard.scope_events] using h1
    | throws e s2 => simpa [lock_guard.scope_events, hg] using hsc.1
    | terminate => simpa [lock_guard.scope_events, hg] using hsc.1
    | spins => simpa [lock_guard.scope_events, hg] using hsc.1
    | fault => simpa [lock_guard.scope_events, hg] using hsc.1

/-- In a well linked heap the promise a future points to has `_need_locks` set. -/
theorem well_linked.partner_locks {s : Heap R} (hw : well_linked s) : partner_locking s := by
  obtain ⟨h1, h2⟩ := (well_linked_iff s).1 hw
  intro f F p P hF hFp hP
  have a2 := h2 f F p hF hFp
  rw [hP] at a2
  simp only [Option.map_some', Option.some.injEq] at a2
  exact (h1 p P hP (by rw [a2])).1

/-- Every proper operation other than `swap` issues each `lock()` while holding no
lock, when the promises that futures point to have `_need_locks` set. -/
theorem public_op.never_blocks {s : Heap R} (op : public_op R) (hnl : partner_locking s)
    (hp : op.proper s) (hsw : op.is_swap = false) :
    never_blocks_holding 0 (op.events s) = true := by
  cases op with
  | promise_ctor this => rfl
  | promise_move_ctor this o =>
    simp only [public_op.events, promise.move_ctor_events]
    split
    · rfl
    · exact (lock_guard.of_promise_scope _ o).1
  | promise_move_assign this o => exact promise_move_assign_never_blocks s this o
  | promise_dtor this => exact (lock_guard.of_promise_scope s this).1
  | promise_swap this o => simp [public_op.is_swap] at hsw
  | get_future this tmp dst => exact promise.get_future_never_blocks s this tmp dst hp.2.2
  | set_value nothrow this v => exact (lock_guard.of_promise_scope s this).1
  | set_exception this e => exact (lock_guard.of_promise_scope s this).1
  | set_error this c => exact (lock_guard.of_promise_scope s this).1
  | future_ctor this => rfl
  | future_move_ctor this o => exact (lock_guard.of_future_scope _ o).1
  | future_move_assign this o =>
    exact future_move_assign_never_blocks s this o hnl
  | future_dtor this => exact (lock_guard.of_future_scope s this).1
  | future_swap this o => simp [public_op.is_swap] at hsw
  | get this =>
    simp only [public_op.events, future.retrieval_events]
    split
    · exact (lock_guard.of_future_scope _ this).1
    · rfl
  | get_exception_ptr this =>
    simp only [public_op.events, future.retrieval_events]
    split
    · exact (lock_guard.of_future_scope _ this).1
    · rfl
  | get_error this =>
    simp only [public_op.events, future.retrieval_events]
    split
    · exact (lock_guard.of_future_scope _ this).1
    · rfl

/-- Counterexample to C17 as stated: `swap` on the promises 1 and 2 of `two_pairs`, and
on their futures 11 and 21. The guard `h1` acquires the lock of its own object and of the
partner; the constructor of `h2` then calls the blocking `lock()` on the other object
while both are held. -/
theorem swap_locks_while_holding :
    (public_op.promise_swap 1 2 : public_op Nat).events two_pairs =
      [.lock (.promise 1), .try_lock (.future 11) true,
        .lock (.promise 2), .try_lock (.future 21) true,
        .unlock (.promise 2), .unlock (.future 21),
        .unlock (.promise 1), .unlock (.future 11)] ∧
    held_after 0 [.lock (.promise 1), .try_lock (.future 11) true] = 2 ∧
    never_blocks_holding 0 ((public_op.promise_swap 1 2 : public_op Nat).events two_pairs)
      = false ∧
    (public_op.future_swap 11 21 : public_op Nat).events two_pairs =
      [.lock (.future 11), .try_lock (.promise 1) true,
        .lock (.future 21), .try_lock (.promise 2) true,
        .unlock (.promise 2), .unlock (.future 21),
        .unlock (.promise 1), .unlock (.future 11)] ∧
    never_blocks_holding 0 ((public_op.future_swap 11 21 : public_op Nat).events two_pairs)
      = false := by
  have e1 : (public_op.promise_swap 1 2 : public_op Nat).events two_pairs =
      [.lock (.promise 1), .try_lock (.future 11) true,
        .lock (.promise 2), .try_lock (.future 21) true,
        .unlock (.promise 2), .unlock (.future 21),
        .unlock (.promise 1), .unlock (.future 11)] := by
    simp [public_op.events, promise.swap_events, two_pairs, lock_guard.of_promise_events,
      lock_guard.of_promise, lock_guard.unlock_events, Heap.put_promise, Heap.put_future,
      Heap.empty, value_storage.future_]
  have e2 : (public_op.future_swap 11 21 : public_op Nat).events two_pairs =
      [.lock (.future 11), .try_lock (.promise 1) true,
        .lock (.future 21), .try_lock (.promise 2) true,
        .unlock (.promise 2), .unlock (.future 21),
        .unlock (.promise 1), .unlock (.future 11)] := by
    simp [public_op.events, future.swap_events, two_pairs, lock_guard.of_future_events,
      lock_guard.of_future, lock_guard.unlock_events, Heap.put_promise, Heap.put_future,
      Heap.empty]
  refine ⟨e1, rfl, ?_, e2, ?_⟩
  · rw [e1]; rfl
  · rw [e2]; rfl

/-- C17 (amended). Never block while holding a lock, `swap` apart. In every proper
operation other than `swap`, started in a heap in which every promise that a future
points to has `_need_locks` set, each blocking `lock()` is issued while the operation
holds no lock. In every heap, each pass of a guard constructor calls `lock()` on the lock
of its own object only, acquires the lock of the partner with `try_lock()` only, and
after a failed `try_lock()` calls `unlock()` on its own lock before the next pass. -/
theorem never_block_while_holding (s : Heap R) (op : public_op R) (hnl : partner_locking s)
    (hp : op.proper s) (hsw : op.is_swap = false) :
    never_blocks_holding 0 (op.events s) = true ∧
    (∀ (t : Heap R) p, guard_protocol (.promise p) (lock_guard.of_promise_events t p)) ∧
    (∀ (t : Heap R) f, guard_protocol (.future f) (lock_guard.of_future_events t f)) :=
  ⟨op.never_blocks hnl hp hsw, lock_guard.of_promise_protocol, lock_guard.of_future_protocol⟩

/-- Witness of C17: `get_future()` on a fresh promise. -/
theorem never_block_while_holding_witness :
    partner_locking fresh_promise ∧
    never_blocks_holding 0 ((public_op.get_future 1 10 11).events fresh_promise) = true :=
  ⟨fresh_promise_at_rest.1.partner_locks,
    (never_block_while_holding fresh_promise (.get_future 1 10 11)
      fresh_promise_at_rest.1.partner_locks ⟨rfl, rfl, by decide⟩ rfl).1⟩


/-- The guard constructor on a promise whose `_need_locks` is set while its lock was
never constructed calls `lock()` on bytes that hold no lock. -/
theorem lock_guard.of_promise_unconstructed {s : Heap R} {q : Addr} {Q : promise R}
    (hq : s.promises q = some Q) (hnl : Q._need_locks = true)
    (hlk : Q._lock = .unconstructed) : lock_guard.of_promise s q = .fault := by
  obtain ⟨nl, lk, st⟩ := Q
  simp only at hnl hlk
  subst hnl hlk
  simp [lock_guard.of_promise, hq]

/-- Member `get_future()` on a promise whose `_need_locks` is set while its lock was never
constructed: the lock is not constructed now either, and the guard faults. -/
theorem promise.get_future_unconstructed {s : Heap R} {q : Addr} {Q : promise R}
    (hq : s.promises q = some Q) (hnl : Q._need_locks = true)
    (hlk : Q._lock = .unconstructed) (tmp dst : Addr) :
    promise.get_future s q tmp dst = .fault := by
  simp [promise.get_future, hq, hnl, lock_guard.of_promise_unconstructed hq hnl hlk,
    Step.and_then]

/-- The destructor of a promise whose `_need_locks` is set while its lock was never
constructed faults. -/
theorem promise.dtor_unconstructed {s : Heap R} {q : Addr} {Q : promise R}
    (hq : s.promises q = some Q) (hnl : Q._need_locks = true)
    (hlk : Q._lock = .unconstructed) : promise.dtor s q = .fault := by
  simp [promise.dtor, promise.dtor_body, lock_guard.of_promise_unconstructed hq hnl hlk,
    Step.and_then]

/-- A `swap` with a promise whose `_need_locks` is set while its lock was never
constructed faults, whether that promise is `this` or, with `this` one half of a linked
pair at rest, the argument. -/
theorem promise.swap_unconstructed {s : Heap R} {p f q : Addr} {P Q : promise R}
    {F : future R} (h : linked_pair s p f P F) (hq : s.promises q = some Q)
    (hnl : Q._need_locks = true) (hlk : Q._lock = .unconstructed) :
    promise.swap s q p = .fault ∧ promise.swap s p q = .fault := by
  refine ⟨by simp [promise.swap, lock_guard.of_promise_unconstructed hq hnl hlk,
    Step.and_then], ?_⟩
  have hne : q ≠ p := by
    rintro rfl
    have := h.at_p.symm.trans hq
    simp only [Option.some.injEq] at this
    subst this
    rw [h.p_free] at hlk
    cases hlk
  obtain ⟨hp, hf, ht, hb, hn, hpl, hfl⟩ := h
  obtain ⟨nl, lk, st⟩ := P
  obtain ⟨flk, fst, fpr⟩ := F
  obtain ⟨qnl, qlk, qst⟩ := Q
  simp only at ht hb hn hpl hfl hnl hlk
  subst ht hb hn hpl hfl hnl hlk
  simp [promise.swap, lock_guard.of_promise, Step.and_then, hp, hf, hq, hne,
    value_storage.future_, Heap.put_promise, Heap.put_future]

/-- From a fresh promise: `get_future()`, destruction of the future, move construction of
a second promise from the first. The second promise has tag `empty`, `_need_locks` set
and a lock that was never constructed; its `get_future()` faults. -/
theorem get_future_after_move_faults :
    ∃ s1 s2 s3,
      promise.get_future (promise.ctor (Heap.empty : Heap Nat) 1) 1 10 11 = .done () s1 ∧
      future.dtor s1 11 = .done () s2 ∧
      promise.move_ctor s2 2 1 = .done () s3 ∧
      s3.promises 2 = some ⟨true, .unconstructed, ⟨.raw, .empty⟩⟩ ∧
      promise.get_future s3 2 20 21 = .fault := by
  simp [promise.ctor, lock_guard.of_promise, Step.and_then,
    Heap.put_promise, Heap.put_future, Heap.map_promise, Heap.map_future,
    value_storage.init, lock_guard.release, lock_guard.unlock, lock_guard.unlock_f,
    promise.get_future, future.of_promise, value_storage.take, value_storage.move,
    future.move_ctor, lock_guard.of_future, value_storage.move_assign,
    future.dtor, value_storage.reset, Heap.del_future, promise.move_ctor, Heap.empty]

/-- From `pending_pair`: move construction of a second promise at 2 from the promise at
1. The promise at 2 is linked to the future at 11, has `_need_locks` set and a lock that
was never constructed; its destructor faults. -/
theorem dtor_after_move_faults :
    promise.get_future (promise.ctor (Heap.empty : Heap Nat) 1) 1 10 11
      = .done () pending_pair ∧
    ∃ s1, promise.move_ctor pending_pair 2 1 = .done () s1 ∧
      s1.promises 2 = some ⟨true, .unconstructed, ⟨.future_ (some 11), .future⟩⟩ ∧
      s1.futures 11 = some ⟨.unlocked, ⟨.raw, .empty⟩, some 2⟩ ∧
      promise.dtor s1 2 = .fault := by
  refine ⟨pending_pair_reached, ?_⟩
  simp [pending_pair, lock_guard.of_promise, Step.and_then,
    Heap.put_promise, Heap.put_future, Heap.map_promise, Heap.map_future,
    value_storage.init, lock_guard.release, lock_guard.unlock, lock_guard.unlock_f,
    value_storage.move, value_storage.move_assign, value_storage.future_,
    promise.move_ctor, Heap.empty, promise.dtor, promise.dtor_body]

/-- From `two_pairs`: move construction of a third promise at 3 from the promise at 1.
The promises at 3 and at 2 are distinct and linked to the futures at 11 and at 21, both
pending; `swap` between them faults in either order, as the lock of the promise at 3 was
never constructed. -/
theorem swap_after_move_faults :
    ∃ s1, promise.move_ctor two_pairs 3 1 = .done () s1 ∧
      s1.promises 3 = some ⟨true, .unconstructed, ⟨.future_ (some 11), .future⟩⟩ ∧
      s1.futures 11 = some ⟨.unlocked, ⟨.raw, .empty⟩, some 3⟩ ∧
      s1.promises 2 = some ⟨true, .unlocked, ⟨.future_ (some 21), .future⟩⟩ ∧
      s1.futures 21 = some ⟨.unlocked, ⟨.raw, .empty⟩, some 2⟩ ∧
      promise.swap s1 3 2 = .fault ∧ promise.swap s1 2 3 = .fault := by
  simp [two_pairs, lock_guard.of_promise, Step.and_then,
    Heap.put_promise, Heap.put_future, Heap.map_promise, Heap.map_future,
    value_storage.init, lock_guard.release, lock_guard.unlock, lock_guard.unlock_f,
    value_storage.move, value_storage.move_assign, value_storage.future_,
    promise.move_ctor, Heap.empty, promise.swap]

/-- A refused `set_error` or `set_exception` on a linked pair at rest: the storage setter
throws inside a member declared `noexcept`, and the call ends in `std::terminate`. -/
theorem promise.set_refused_terminates (s : Heap R) (p f : Addr) (P : promise R)
    (F : future R) (h : linked_pair s p f P F) (hF : F._storage.type ≠ .empty)
    (c : error_code) (e : exception_ptr) :
    promise.set_error s p c = .terminate ∧ promise.set_exception s p e = .terminate := by
  constructor
  · simp [promise.set_error, promise.set_with_linked _ _ _ _ _ _ _ h,
      value_storage.set_error, hF]
  · simp [promise.set_exception, promise.set_with_linked _ _ _ _ _ _ _ h,
      value_storage.set_exception, hF]

/-- C8. Post-state of `get_future()`. On a promise whose tag is `empty`, `value`,
`exception` or `error`, with the payload matching the tag and the lock free if already in
use, the call returns normally; the future at `dst` and the promise form a linked pair at
rest (promise tagged `future` with pointer `dst`, `_need_locks` true, future pointing
back), and the future holds the tag and payload the promise had. On a promise whose
`_need_locks` is set while its lock was never constructed, as the move constructor leaves
one, the call faults: after `get_future()`, the destruction of the future and a move
construction, the new promise has the tag `empty` and its `get_future()` does not
succeed. -/
theorem get_future_post (s : Heap R) (p tmp dst : Addr) (P : promise R)
    (hp : s.promises p = some P) (htag : P._storage.type ≠ .future)
    (hwf : P._storage.well_formed = true)
    (hlock : P._need_locks = true → P._lock = .unlocked) (hne : tmp ≠ dst) :
    (∃ s1 P1 F1, promise.get_future s p tmp dst = .done () s1 ∧
      linked_pair s1 p dst P1 F1 ∧
      F1._storage.type = P._storage.type ∧ F1._storage.payload = P._storage.payload) ∧
    (∀ (t : Heap R) (q a b : Addr) (Q : promise R), t.promises q = some Q →
      Q._need_locks = true → Q._lock = .unconstructed →
      promise.get_future t q a b = .fault) ∧
    ∃ s1 s2 s3,
      promise.get_future (promise.ctor (Heap.empty : Heap Nat) 1) 1 10 11 = .done () s1 ∧
      future.dtor s1 11 = .done () s2 ∧
      promise.move_ctor s2 2 1 = .done () s3 ∧
      s3.promises 2 = some ⟨true, .unconstructed, ⟨.raw, .empty⟩⟩ ∧
      promise.get_future s3 2 20 21 = .fault :=
  ⟨promise.get_future_unlinked s p tmp dst P hp htag hwf hlock hne,
    fun _ _ a b _ hq hnl hlk => promise.get_future_unconstructed hq hnl hlk a b,
    get_future_after_move_faults⟩

/-- Witness of C8: a promise at 1 that already holds the value 42 and has never been
linked. -/
theorem get_future_post_witness :
    ∃ s1 P1 F1,
      promise.get_future
        ((Heap.empty : Heap Nat).put_promise 1 ⟨false, .unconstructed, ⟨.value 42, .value⟩⟩)
        1 10 11 = .done () s1 ∧
      linked_pair s1 1 11 P1 F1 ∧
      F1._storage.type = .value ∧ F1._storage.payload = .value 42 :=
  (get_future_post
    ((Heap.empty : Heap Nat).put_promise 1 ⟨false, .unconstructed, ⟨.value 42, .value⟩⟩)
    1 10 11 ⟨false, .unconstructed, ⟨.value 42, .value⟩⟩ rfl (by decide) rfl
    (by intro h; cases h) (by decide)).1

/-- C12. Swapping two distinct linked promises whose futures are pending (the parameter
of `value_storage::swap` read as the other storage). When both pairs are at rest the call
returns, promise `p1` is linked to `f2` and `p2` to `f1`, both pairs at rest, and
`set_value(a)` on `p1`, `set_value(b)` on `p2` are returned by `get()` on `f2` and on
`f1`. When one of the two promises was move constructed, so that its `_need_locks` is set
while its lock was never constructed, the call faults in either order: so it does for the
promise move constructed from the first promise of `two_pairs` and the second one. -/
theorem promise_swap_exchanges_links (s : Heap R) (p1 f1 p2 f2 : Addr)
    (P1 P2 : promise R) (F1 F2 : future R)
    (h1 : linked_pair s p1 f1 P1 F1) (h2 : linked_pair s p2 f2 P2 F2) (hp : p1 ≠ p2)
    (he1 : F1._storage.type = .empty) (he2 : F2._storage.type = .empty) :
    (∃ s1, promise.swap s p1 p2 = .done () s1 ∧
      linked_pair s1 p1 f2 { P1 with _storage := ⟨.future_ (some f2), .future⟩ }
        { F2 with _promise := some p1 } ∧
      linked_pair s1 p2 f1 { P2 with _storage := ⟨.future_ (some f1), .future⟩ }
        { F1 with _promise := some p2 } ∧
      ∀ (a b : R) (nothrow : Bool), ∃ s2 s3 s4 s5,
        promise.set_value nothrow s1 p1 a = .done () s2 ∧
        promise.set_value nothrow s2 p2 b = .done () s3 ∧
        future.get s3 f2 = .done a s4 ∧ future.get s4 f1 = .done b s5) ∧
    (∀ (q : Addr) (Q : promise R), s.promises q = some Q → Q._need_locks = true →
      Q._lock = .unconstructed →
      promise.swap s q p1 = .fault ∧ promise.swap s p1 q = .fault) ∧
    ∃ t : Heap Nat, promise.move_ctor two_pairs 3 1 = .done () t ∧
      t.promises 3 = some ⟨true, .unconstructed, ⟨.future_ (some 11), .future⟩⟩ ∧
      t.futures 11 = some ⟨.unlocked, ⟨.raw, .empty⟩, some 3⟩ ∧
      t.promises 2 = some ⟨true, .unlocked, ⟨.future_ (some 21), .future⟩⟩ ∧
      t.futures 21 = some ⟨.unlocked, ⟨.raw, .empty⟩, some 2⟩ ∧
      promise.swap t 3 2 = .fault ∧ promise.swap t 2 3 = .fault :=
  ⟨promise.swap_linked s p1 f1 p2 f2 P1 P2 F1 F2 h1 h2 hp he1 he2,
    fun _ _ hq hnl hlk => promise.swap_unconstructed h1 hq hnl hlk,
    swap_after_move_faults⟩

/-- Witness of C12 on `two_pairs`. -/
theorem promise_swap_exchanges_links_witness :
    ∃ s1, promise.swap two_pairs 1 2 = .done () s1 ∧
      ∀ (a b : Nat) (nothrow : Bool), ∃ s2 s3 s4 s5,
        promise.set_value nothrow s1 1 a = .done () s2 ∧
        promise.set_value nothrow s2 2 b = .done () s3 ∧
        future.get s3 21 = .done a s4 ∧ future.get s4 11 = .done b s5 := by
  obtain ⟨s1, h, -, -, hrun⟩ := (promise_swap_exchanges_links two_pairs 1 11 2 21
    ⟨true, .unlocked, ⟨.future_ (some 11), .future⟩⟩
    ⟨true, .unlocked, ⟨.future_ (some 21), .future⟩⟩
    ⟨.unlocked, ⟨.raw, .empty⟩, some 1⟩ ⟨.unlocked, ⟨.raw, .empty⟩, some 2⟩
    ⟨rfl, rfl, rfl, rfl, rfl, rfl, rfl⟩ ⟨rfl, rfl, rfl, rfl, rfl, rfl, rfl⟩ (by decide)
    rfl rfl).1
  exact ⟨s1, h, hrun⟩

/-- C14. Destroying a linked promise. On a linked pair at rest the destructor returns;
the promise is gone, the future has no promise any more, and its storage is
`Exception(broken_promise)` if it was `empty` and otherwise exactly what it was. On a
linked promise whose `_need_locks` is set while its lock was never constructed the
destructor faults: so it does for the promise move constructed from the promise of
`pending_pair`, which is linked to the future at 11. -/
theorem destroy_linked_promise (s : Heap R) (p f : Addr) (P : promise R) (F : future R)
    (h : linked_pair s p f P F) :
    (∃ s1, promise.dtor s p = .done () s1 ∧ s1.promises p = none ∧
      s1.futures f = some
        { F with
          _storage := if F._storage.type = .empty then
              ⟨.exception (.future_error .broken_promise), .exception⟩
            else F._storage,
          _promise := none }) ∧
    (∀ (t : Heap R) (q : Addr) (Q : promise R), t.promises q = some Q →
      Q._need_locks = true → Q._lock = .unconstructed → promise.dtor t q = .fault) ∧
    promise.get_future (promise.ctor (Heap.empty : Heap Nat) 1) 1 10 11
      = .done () pending_pair ∧
    ∃ t, promise.move_ctor pending_pair 2 1 = .done () t ∧
      t.promises 2 = some ⟨true, .unconstructed, ⟨.future_ (some 11), .future⟩⟩ ∧
      t.futures 11 = some ⟨.unlocked, ⟨.raw, .empty⟩, some 2⟩ ∧
      promise.dtor t 2 = .fault :=
  ⟨promise.dtor_linked s p f P F h,
    fun _ _ _ hq hnl hlk => promise.dtor_unconstructed hq hnl hlk,
    dtor_after_move_faults⟩

/-- Witness of C14: the future at 11 already holds the value 42. -/
theorem destroy_linked_promise_witness :
    ∃ s1, promise.dtor (ready_pair ⟨.value 42, .value⟩) 1 = .done () s1 ∧
      s1.promises 1 = none ∧
      s1.futures 11 = some ⟨.unlocked, ⟨.value 42, .value⟩, none⟩ :=
  (destroy_linked_promise (ready_pair ⟨.value 42, .value⟩) 1 11
    ⟨true, .unlocked, ⟨.future_ (some 11), .future⟩⟩ ⟨.unlocked, ⟨.value 42, .value⟩, some 1⟩
    ⟨rfl, rfl, rfl, rfl, rfl, rfl, rfl⟩).1

/-- C20. Lock balance in sequential use. From a well linked heap in which every lock is
free and every lock in use is constructed, each operation applied to distinct live
objects (construction, destruction, move construction and assignment, swap,
`get_future`, a setter that is not refused inside a `noexcept` member, a retrieval on a
future without promise or holding a result it can deliver) returns or throws, and it
does so with no lock held; as unlocking a lock that is not held is a fault, no such
unlock happened. Unless the operation moved a promise, every lock in use is again
constructed and free. But a refused `set_error` or `set_exception` neither returns nor
throws: the members are declared `noexcept`, and the call ends in `std::terminate`; so it
does after `get_future()` and `set_value(1)` on a fresh promise. -/
theorem lock_balance (s : Heap R) (op : public_op R) (hw : well_linked s)
    (hl : locks_at_rest s) (hp : op.proper s) (he : op.enabled s) :
    (∃ s1, op.next s = some s1 ∧ locks_free s1 ∧
      (op.is_promise_move = false → locks_at_rest s1)) ∧
    (∀ (t : Heap R) (p f : Addr) (P : promise R) (F : future R) (c : error_code)
      (e : exception_ptr), linked_pair t p f P F → F._storage.type ≠ .empty →
      promise.set_error t p c = .terminate ∧ promise.set_exception t p e = .terminate) ∧
    promise.get_future (promise.ctor (Heap.empty : Heap Nat) 1) 1 10 11
      = .done () pending_pair ∧
    promise.set_value false pending_pair 1 1 = .done () (ready_pair ⟨.value 1, .value⟩) ∧
    locks_at_rest (ready_pair ⟨.value 1, .value⟩) ∧
    promise.set_error (ready_pair ⟨.value 1, .value⟩) 1 ⟨5, 0⟩ = .terminate ∧
    promise.set_exception (ready_pair ⟨.value 1, .value⟩) 1 (.user 7) = .terminate ∧
    (public_op.set_error 1 ⟨5, 0⟩).next (ready_pair ⟨.value 1, .value⟩) = none := by
  have hw1 := (well_linked_iff s).1 hw
  obtain ⟨s1, h⟩ := op.runs hw1 hl hp he
  exact ⟨⟨s1, h, op.locks_after hw1 hl hp h⟩,
    fun t p f P F c e hlp hF => promise.set_refused_terminates t p f P F hlp hF c e,
    pending_pair_reached, (ready_pair_reached 1 ⟨0, 0⟩ .null false).1,
    ready_pair_refused_setter⟩

/-- Witness of C20: `get_future()` on a fresh promise; its explicit `unlock()` followed by
the destructor of the guard leaves the lock of the promise and the lock of the returned
future free. -/
theorem lock_balance_witness :
    well_linked fresh_promise ∧ locks_at_rest fresh_promise ∧
    ∃ s1, (public_op.get_future 1 10 11).next fresh_promise = some s1 ∧ locks_free s1 ∧
      ((public_op.get_future 1 10 11 : public_op Nat).is_promise_move = false →
        locks_at_rest s1) :=
  ⟨fresh_promise_at_rest.1, fresh_promise_at_rest.2,
    (lock_balance fresh_promise (.get_future 1 10 11) fresh_promise_at_rest.1
      fresh_promise_at_rest.2 ⟨rfl, rfl, by decide⟩ ⟨_, rfl, rfl⟩).1⟩

end theorems

end lightweight_futures
